import Mathlib

/-!
# A verification development for `big_integer`

A shallow embedding of `src/big_integer.cpp` / `src/big_integer.h`.

* `std::vector<uint32_t> data_` is a `List Nat` (least significant limb first), every
  limb below `2 ^ 32`; `bool sign_` is a `Bool` (`true` = negative).
* `uint32_t` / `uint64_t` arithmetic is arithmetic on `Nat` with an explicit reduction
  modulo `2 ^ 32` / `2 ^ 64` wherever the source can wrap.
* `size_t` index arithmetic is ordinary `Nat` arithmetic where it cannot wrap: a vector long
  enough to overflow a `size_t` is not representable in memory. Where the source subtracts
  sizes that may wrap, or passes a `size_t` to an `int` parameter (both in `operator/=`),
  the value is reduced modulo `2 ^ 64`, respectively narrowed to 32 bits in two's complement.
* A `for` loop whose bound is fixed before the loop runs the body a counted number of times.
  A loop whose exit depends on the data carries fuel. Where a bound on the number of
  iterations can be read off the loop (it is stated at the definition) the function is total;
  otherwise the operation returns an `Option`, `none` standing for exhausted fuel, for
  undefined behaviour of the source (out-of-range write, division by zero) or for an
  exception thrown by a `resize` that cannot be served.
-/

set_option autoImplicit false

/-! ## Data model -/

/-- The class `big_integer`: limbs `data_` (little endian, base `2 ^ 32`) and `sign_`. -/
structure big_integer where
  data_ : List Nat
  sign_ : Bool
  deriving DecidableEq, Repr

/-- The constant `BASE = 32`. -/
def BASE : Nat := 32

/-- The helper `get_low32`: `x & UINT32_MAX` for a 64-bit `x`. -/
def get_low32 (x : Nat) : Nat := x % 2 ^ 32

/-- The helper `get_high32`: `x >> BASE` for a 64-bit `x`. -/
def get_high32 (x : Nat) : Nat := x / 2 ^ 32

/-- Magnitude denoted by a limb list: `Σ data[i] * 2 ^ (32 * i)`. -/
def val : List Nat → Nat
  | [] => 0
  | x :: xs => x + 2 ^ 32 * val xs

/-- Limb `i` of a vector, reading `0` beyond its end. -/
def limb (d : List Nat) (i : Nat) : Nat := d.getD i 0

/-- Value of the lowest `n` limb positions of a vector. -/
def valN (d : List Nat) : Nat → Nat
  | 0 => 0
  | n + 1 => valN d n + limb d n * 2 ^ (32 * n)

/-- The vector write behind `big_integer::set`: `resize(id + 1)` when `id` is past the end
(new limbs are zero), then `data_[id] = value`. -/
def vset (d : List Nat) (id value : Nat) : List Nat :=
  if id ≥ d.length then (d ++ List.replicate (id + 1 - d.length) 0).set id value
  else d.set id value

/-- The loop of `delete_leading_zeroes`: pop the back limb while it is zero. -/
def pop_zeroes : Nat → List Nat → List Nat
  | 0, d => d
  | k + 1, d => if d ≠ [] ∧ d.getLast? = some 0 then pop_zeroes k d.dropLast else d

/-- Every limb is a `uint32_t`. -/
def limbs_ok (d : List Nat) : Prop := ∀ x ∈ d, x < 2 ^ 32

instance (d : List Nat) : Decidable (limbs_ok d) := by
  unfold limbs_ok; infer_instance

/-- A magnitude in normal form: at least one limb, every limb a `uint32_t`, and no zero top
limb except in `[0]`. -/
def normalized (d : List Nat) : Prop :=
  d ≠ [] ∧ limbs_ok d ∧ (d = [0] ∨ d.getLast? ≠ some 0)

instance (d : List Nat) : Decidable (normalized d) := by
  unfold normalized; infer_instance

namespace big_integer

/-- The signed integer a `big_integer` denotes. -/
def toInt (a : big_integer) : Int :=
  if a.sign_ then -(val a.data_ : Int) else (val a.data_ : Int)

/-- The representation invariants: at least one limb, every limb a `uint32_t`, no zero top
limb except in `[0]`, and no negative zero. -/
def canonical (a : big_integer) : Prop :=
  normalized a.data_ ∧ (a.data_ = [0] → a.sign_ = false)

instance (a : big_integer) : Decidable (canonical a) := by
  unfold canonical; infer_instance

/-- Method `get_or_default`. -/
def get_or_default (self : big_integer) (id def_ : Nat) : Nat := self.data_.getD id def_

/-- Method `set`. -/
def set (self : big_integer) (id value : Nat) : big_integer :=
  { self with data_ := vset self.data_ id value }

/-- Method `delete_leading_zeroes`. -/
def delete_leading_zeroes (self : big_integer) : big_integer :=
  let d := pop_zeroes self.data_.length self.data_
  if d = [] then { data_ := [0], sign_ := false } else { self with data_ := d }

/-- Constructor `big_integer(unsigned long long a)`, `a` a 64-bit value. -/
def of_ull (a : Nat) : big_integer :=
  let self : big_integer := { data_ := [], sign_ := false }
  if a = 0 then self.set 0 0
  else
    let self := self.set 0 (get_low32 a)
    let b := get_high32 a
    if b ≠ 0 then self.set 1 (get_high32 a) else self

/-- The constant `ZERO = big_integer(0)`. -/
def ZERO : big_integer := of_ull 0

/-- The constant `ONE = big_integer(1)`. -/
def ONE : big_integer := of_ull 1

/-- Result type `comparison_result`. -/
inductive comparison_result where
  | LESS
  | EQUAL
  | GREATER
  deriving DecidableEq, Repr

open comparison_result

/-- The limb loop of `compare_to`: `i` runs from `data_.size()` down to `1`. -/
def compare_loop (sign : Bool) (a b : List Nat) : Nat → comparison_result
  | 0 => EQUAL
  | i + 1 =>
    if a.getD i 0 < b.getD i 0 then (if sign then GREATER else LESS)
    else if a.getD i 0 > b.getD i 0 then (if sign then LESS else GREATER)
    else compare_loop sign a b i

/-- Method `compare_to`. -/
def compare_to (self b : big_integer) : comparison_result :=
  if self.sign_ && !b.sign_ then LESS
  else if !self.sign_ && b.sign_ then GREATER
  else if self.data_.length < b.data_.length then (if self.sign_ then GREATER else LESS)
  else if self.data_.length > b.data_.length then (if self.sign_ then LESS else GREATER)
  else compare_loop self.sign_ self.data_ b.data_ self.data_.length

/-- The relation `operator==`. -/
def eq (a b : big_integer) : Bool := decide (a.compare_to b = EQUAL)
/-- The relation `operator!=`. -/
def ne (a b : big_integer) : Bool := decide (a.compare_to b ≠ EQUAL)
/-- The relation `operator<`. -/
def lt (a b : big_integer) : Bool := decide (a.compare_to b = LESS)
/-- The relation `operator>`. -/
def gt (a b : big_integer) : Bool := decide (a.compare_to b = GREATER)
/-- The relation `operator<=`. -/
def le (a b : big_integer) : Bool := decide (a.compare_to b ≠ GREATER)
/-- The relation `operator>=`. -/
def ge (a b : big_integer) : Bool := decide (a.compare_to b ≠ LESS)

/-- The carry loop of `add`: `k` iterations remain, `i` is the loop index, `c` the carry. -/
def add_loop (rhs : List Nat) : Nat → Nat → List Nat → Nat → List Nat × Nat
  | 0, _, d, c => (d, c)
  | k + 1, i, d, c =>
    let res := (d.getD i 0 + rhs.getD i 0 + c) % 2 ^ 64
    add_loop rhs k (i + 1) (vset d i (get_low32 res)) (get_high32 res)

/-- Method `add`. The loop bound `max(data_.size(), rhs.data_.size())` is not changed by the
writes at indices below it, so the loop runs that many times. -/
def add (self rhs : big_integer) (negated : Bool) : big_integer :=
  let sign := self.sign_ && (xor rhs.sign_ negated)
  let r := add_loop rhs.data_ (max self.data_.length rhs.data_.length) 0 self.data_ 0
  { data_ := if r.2 ≠ 0 then r.1 ++ [r.2] else r.1, sign_ := sign }

/-- The borrow loop of `subtract`: `k` iterations remain, `i` is the loop index, `c` the
borrow. The 64-bit difference wraps modulo `2 ^ 64`; the borrow is its top bit. -/
def subtract_loop (swapped : Bool) (rhs : List Nat) : Nat → Nat → List Nat → Nat → List Nat
  | 0, _, d, _ => d
  | k + 1, i, d, c =>
    let res :=
      if swapped then (rhs.getD i 0 + 2 ^ 64 - d.getD i 0 + 2 ^ 64 - c) % 2 ^ 64
      else (d.getD i 0 + 2 ^ 64 - rhs.getD i 0 + 2 ^ 64 - c) % 2 ^ 64
    subtract_loop swapped rhs k (i + 1) (vset d i (get_low32 res)) (res / 2 ^ 63)

/-- Method `subtract`. The loop bound (`rhs.data_.size()` when swapped, else `data_.size()`,
which the in-range writes leave unchanged) is fixed before the loop. -/
def subtract (self rhs : big_integer) (negated : Bool) : big_integer :=
  let s1 := if negated then !self.sign_ else self.sign_
  let t : big_integer := { self with sign_ := s1 }
  let swapped := (s1 && rhs.sign_ && t.gt rhs) || (!s1 && !rhs.sign_ && t.lt rhs)
  let s2 := if negated then !s1 else s1
  let n := if swapped then rhs.data_.length else self.data_.length
  let d := subtract_loop swapped rhs.data_ n 0 self.data_ 0
  delete_leading_zeroes { data_ := d, sign_ := xor s2 swapped }

/-- Operator `+=` (and `operator+`, which is `a += b` on a copy). -/
def add_assign (self rhs : big_integer) : big_integer :=
  if self.sign_ && !rhs.sign_ then
    let t := subtract { self with sign_ := false } rhs false
    if t.ne ZERO then { t with sign_ := !t.sign_ } else t
  else if !self.sign_ && rhs.sign_ then subtract self rhs true
  else add self rhs false

/-- Operator `-=` (and `operator-`, which is `a -= b` on a copy). -/
def sub_assign (self rhs : big_integer) : big_integer :=
  if self.sign_ && !rhs.sign_ then
    let t := add { self with sign_ := false } rhs false
    { t with sign_ := true }
  else if !self.sign_ && rhs.sign_ then add self rhs true
  else subtract self rhs false

/-- The carry loop of `multiply(uint32_t rhs)`: `k` iterations remain, `i` is the loop index,
`c` the 64-bit carry. -/
def multiply_loop (rhs : Nat) : Nat → Nat → List Nat → Nat → List Nat × Nat
  | 0, _, d, c => (d, c)
  | k + 1, i, d, c =>
    let c1 := (c + (d.getD i 0 * rhs) % 2 ^ 64) % 2 ^ 64
    multiply_loop rhs k (i + 1) (d.set i (get_low32 c1)) (get_high32 c1)

/-- Method `multiply(uint32_t rhs)`. -/
def multiply (self : big_integer) (rhs : Nat) : big_integer :=
  let r := multiply_loop rhs self.data_.length 0 self.data_ 0
  if r.2 ≠ 0 then { self with data_ := r.1 ++ [r.2] }
  else delete_leading_zeroes { self with data_ := r.1 }

/-- The inner loop of `operator*=` for the limb `ai = data_[i]`: `j` is the loop index, `c`
the carry, `res` the result buffer. The loop runs while `j < rhs.data_.size() || c > 0` and
writes `result.data_[i + j]` without a bounds check: a write past the end of the buffer is
`none`. Every iteration writes one index further, so `res.length` iterations of fuel are
enough for every run that stays inside the buffer. -/
def mul_inner (ai : Nat) (rhs : List Nat) (i : Nat) : Nat → Nat → Nat → List Nat → Option (List Nat)
  | 0, j, c, res => if j < rhs.length ∨ c > 0 then none else some res
  | fuel + 1, j, c, res =>
    if j < rhs.length ∨ c > 0 then
      let r := (ai * rhs.getD j 0 + c + res.getD (i + j) 0) % 2 ^ 64
      if i + j < res.length then
        mul_inner ai rhs i fuel (j + 1) (get_high32 r) (res.set (i + j) (get_low32 r))
      else none
    else some res

/-- The outer loop of `operator*=`: `k` rows remain, `i` is the row index. -/
def mul_outer (a rhs : List Nat) : Nat → Nat → List Nat → Option (List Nat)
  | 0, _, res => some res
  | k + 1, i, res =>
    (mul_inner (a.getD i 0) rhs i res.length 0 0 res).bind fun r => mul_outer a rhs k (i + 1) r

/-- Operator `*=` (and `operator*`). The buffer of `result` is resized to
`data_.size() + rhs.data_.size()` zero limbs; the sign is set from `result != ZERO` before
`delete_leading_zeroes` runs. -/
def mul_assign (self rhs : big_integer) : Option big_integer :=
  let buf := List.replicate (self.data_.length + rhs.data_.length) 0
  (mul_outer self.data_ rhs.data_ self.data_.length 0 buf).map fun d =>
    let result : big_integer := { data_ := d, sign_ := false }
    delete_leading_zeroes { result with sign_ := (xor self.sign_ rhs.sign_) && result.ne ZERO }

/-- The loop of `divide(uint32_t rhs)`: `i` runs from `data_.size()` down to `1`, `c` is the
64-bit running remainder. -/
def divide_loop (rhs : Nat) : Nat → List Nat → Nat → List Nat × Nat
  | 0, d, c => (d, c)
  | i + 1, d, c =>
    let c1 := ((c * 2 ^ 32) % 2 ^ 64 + d.getD i 0) % 2 ^ 64
    divide_loop rhs i (d.set i (get_low32 (c1 / rhs))) (c1 % rhs)

/-- Method `divide(uint32_t rhs)`: the quotient replaces `data_`, the remainder is returned
as a `uint32_t`. The source divides by `rhs` with no check; `rhs = 0` is undefined behaviour
there and is not meaningful here (callers in the model pass a non-zero `rhs`). -/
def divide (self : big_integer) (rhs : Nat) : big_integer × Nat :=
  let r := divide_loop rhs self.data_.length self.data_ 0
  (delete_leading_zeroes { self with data_ := r.1 }, r.2 % 2 ^ 32)

/-- The effect of `std::swap(data_[i], data_[j])`. -/
def vswap (d : List Nat) (i j : Nat) : List Nat := (d.set i (d.getD j 0)).set j (d.getD i 0)

/-- The limb loop of `operator<<=`: `i` runs from `data_.size() - zeroes` down to `1`,
swapping `data_[i - 1]` and `data_[i + zeroes - 1]`. -/
def shl_loop (zeroes : Nat) : Nat → List Nat → List Nat
  | 0, d => d
  | i + 1, d => shl_loop zeroes i (vswap d i (i + zeroes))

/-- Operator `<<=` for a bit count `rhs ≥ 0`. -/
def shl_assign (self : big_integer) (rhs : Nat) : big_integer :=
  let zeroes := rhs / BASE
  let d :=
    if zeroes ≠ 0 then
      let d1 := self.data_ ++ List.replicate zeroes 0
      shl_loop zeroes (d1.length - zeroes) d1
    else self.data_
  multiply { self with data_ := d } (2 ^ (rhs % BASE) % 2 ^ 32)

/-- The limb loop of `operator>>=`: `i` runs upwards while `i + del < data_.size()`, swapping
`data_[i]` and `data_[i + del]`. -/
def shr_loop (del : Nat) : Nat → Nat → List Nat → List Nat
  | 0, _, d => d
  | k + 1, i, d => shr_loop del k (i + 1) (vswap d i (i + del))

/-- Operator `>>=` for a bit count `rhs ≥ 0`. -/
def shr_assign (self : big_integer) (rhs : Nat) : big_integer :=
  let del := rhs / BASE
  if del ≥ self.data_.length then ZERO
  else
    let d :=
      if del ≠ 0 then
        let d1 := shr_loop del (self.data_.length - del) 0 self.data_
        d1.take (d1.length - del)
      else self.data_
    let t := (divide { self with data_ := d } (2 ^ (rhs % BASE) % 2 ^ 32)).1
    if t.sign_ then sub_assign t ONE else t

/-- The correction loop of `operator/=`: `while (*this < ZERO) { operator+=(c); --q; }`, `q`
a 64-bit counter. The loop carries fuel; exhausted fuel is `none`. -/
def div_correct (c : big_integer) : Nat → big_integer → Nat → Option (big_integer × Nat)
  | 0, self, q => if self.lt ZERO then none else some (self, q)
  | fuel + 1, self, q =>
    if self.lt ZERO then div_correct c fuel (add_assign self c) ((q + 2 ^ 64 - 1) % 2 ^ 64)
    else some (self, q)

/-- The main loop of `operator/=`: the source index `i` runs from `ans_len` down to `1`; here
`i` is the source index minus one. `len` is the limb count of the scaled divisor, `d` its
top limb, `c` the scaled divisor shifted into position. The estimate `q` is a 64-bit value,
`c * q` goes through `operator*` and so may be `none`; the correction loop gets `q` units of
fuel, one for each decrement that `q` can take before wrapping. -/
def div_loop (len d : Nat) : Nat → big_integer → big_integer → List Nat → Option (List Nat)
  | 0, _, _, ans => some ans
  | i + 1, self, c, ans =>
    let q := ((self.get_or_default (i + len) 0 * 2 ^ 32) % 2 ^ 64
      + self.get_or_default (i + len - 1) 0) % 2 ^ 64 / d
    (mul_assign c (of_ull q)).bind fun p =>
      (div_correct c q (sub_assign self p) q).bind fun r =>
        div_loop len d i r.1 (shr_assign c BASE) (ans.set i (r.2 % 2 ^ 32))

/-- Conversion of a `size_t` to `int`, as at the call `c <<= (ans_len - 1) * BASE`: the low
32 bits of the value, read in two's complement. -/
def size_to_int (x : Nat) : Int :=
  if x % 2 ^ 32 < 2 ^ 31 then ((x % 2 ^ 32 : Nat) : Int)
  else ((x % 2 ^ 32 : Nat) : Int) - ((2 ^ 32 : Nat) : Int)

/-- Operator `<<=` as the source declares it, with an `int` count. For a negative count
`static_cast<size_t>(rhs) / BASE` is at least `2 ^ 59 - 2 ^ 26`, and `data_.resize` by that
many limbs throws: `none`. For a count `rhs ≥ 0` the body is `shl_assign`. -/
def shl_assign_int (self : big_integer) (rhs : Int) : Option big_integer :=
  if rhs < 0 then none else some (shl_assign self rhs.toNat)

/-- Operator `/=` (and `operator/`). Division by zero (a single zero limb, or a zero top limb
of the scaled divisor) is undefined behaviour in the source and `none` here.
`ans_len = data_.size() - len + 1` and `(ans_len - 1) * BASE` are `size_t` values, computed
modulo `2 ^ 64`; the latter is narrowed to the `int` parameter of `operator<<=`.
`ans.data_.resize(ans_len)` with a wrapped `ans_len` of `2 ^ 63` or more exceeds
`max_size()` and throws, and so does the shift by a negative count: both are `none`. -/
def div_assign (self rhs : big_integer) : Option big_integer :=
  if self.data_.length < rhs.data_.length then some ZERO
  else if rhs.data_.length = 1 then
    if rhs.data_.getD 0 0 = 0 then none
    else
      let t := (divide self (rhs.data_.getD 0 0)).1
      some { t with sign_ := xor t.sign_ rhs.sign_ }
  else
    let d0 := rhs.data_.getLastD 0
    let f := (2 ^ 32 / (d0 + 1)) % 2 ^ 32
    let self1 := multiply self f
    let c1 := multiply rhs f
    let d := c1.data_.getLastD 0
    let len := c1.data_.length
    let ans_sign := xor self1.sign_ rhs.sign_
    let ans_len := (self1.data_.length + 2 ^ 64 - len + 1) % 2 ^ 64
    if 2 ^ 63 ≤ ans_len then none
    else
      let count := size_to_int ((ans_len + 2 ^ 64 - 1) % 2 ^ 64 * BASE % 2 ^ 64)
      (shl_assign_int { c1 with sign_ := false } count).bind fun c3 =>
        if d = 0 then none
        else
          (div_loop len d ans_len { self1 with sign_ := false } c3
              (List.replicate ans_len 0)).map
            fun ans => delete_leading_zeroes { data_ := ans, sign_ := ans_sign }

/-- The table `TEN_POWER`. -/
def TEN_POWER : List Nat :=
  [10, 100, 1000, 10000, 100000, 1000000, 10000000, 100000000, 1000000000]

/-- The validation loop of the string constructor: `k` iterations remain, `i` is the index;
`false` when some `str[i]` is not in `'0' .. '9'`. -/
def digits_ok (str : List Char) : Nat → Nat → Bool
  | 0, _ => true
  | k + 1, i =>
    if !(decide ('0' ≤ str.getD i '0') && decide (str.getD i '0' ≤ '9')) then false
    else digits_ok str k (i + 1)

/-- The inner loop of the string constructor, `j < 9 && i + j < str.size()`: `k` counts the
at most nine iterations, `current` is a `uint32_t`. -/
def chunk_loop (str : List Char) (i : Nat) : Nat → Nat → Nat → Nat
  | 0, _, current => current
  | k + 1, j, current =>
    if i + j < str.length then
      chunk_loop str i k (j + 1)
        ((current * 10 + ((str.getD (i + j) '0').toNat - ('0').toNat)) % 2 ^ 32)
    else current

/-- The outer loop of the string constructor, `i < str.size(); i += 9`. The index grows on
every iteration, so `str.size()` units of fuel are never used up. -/
def parse_loop (str : List Char) : Nat → Nat → big_integer → big_integer
  | 0, _, self => self
  | k + 1, i, self =>
    if i < str.length then
      let current := chunk_loop str i 9 0 0
      let self1 := multiply self (TEN_POWER.getD (min (str.length - i - 1) 8) 0)
      parse_loop str k (i + 9) (add_assign self1 (of_ull current))
    else self

instance : DecidableEq (Except String big_integer) := fun x y =>
  match x, y with
  | Except.ok a, Except.ok b =>
    if h : a = b then isTrue (by rw [h]) else isFalse (fun h1 => h (Except.ok.inj h1))
  | Except.error a, Except.error b =>
    if h : a = b then isTrue (by rw [h]) else isFalse (fun h1 => h (Except.error.inj h1))
  | Except.ok _, Except.error _ => isFalse (fun h => Except.noConfusion h)
  | Except.error _, Except.ok _ => isFalse (fun h => Except.noConfusion h)

/-- Constructor `big_integer(std::string const& str)`; an `std::invalid_argument` is an
`Except.error` carrying the message of the source. -/
def of_string (str : List Char) : Except String big_integer :=
  if str = [] then Except.error "non-empty str expected"
  else if str = ['-'] ∨ str = ['+'] then
    Except.error "big_integer cannot consist only of unary symbol"
  else
    let start := if str.head? = some '-' ∨ str.head? = some '+' then 1 else 0
    if !digits_ok str (str.length - start) start then Except.error "invalid big_integer value"
    else
      let self := parse_loop str str.length start { data_ := [0], sign_ := false }
      Except.ok { self with sign_ := decide (str.head? = some '-') && self.ne ZERO }

/-- The inner loop of `to_string`, `(leading_zeroes == true && i < 9) || remainder != 0`:
every iteration appends one decimal digit of the `uint32_t` remainder to `result`. A
`uint32_t` has at most ten digits, so the loop ends within the ten iterations counted by
`k`. -/
def emit_digits (leading_zeroes : Bool) : Nat → Nat → Nat → List Char → List Char
  | 0, _, _, result => result
  | k + 1, i, remainder, result =>
    if (leading_zeroes = true ∧ i < 9) ∨ remainder ≠ 0 then
      emit_digits leading_zeroes k (i + 1) (remainder / 10)
        (result ++ [Char.ofNat (('0').toNat + remainder % 10)])
    else result

/-- The outer loop of `to_string`, `while (tmp != ZERO)`, with fuel; `none` is exhausted
fuel. -/
def to_string_loop : Nat → big_integer → List Char → Option (List Char)
  | 0, tmp, result => if tmp.ne ZERO then none else some result
  | k + 1, tmp, result =>
    if tmp.ne ZERO then
      let r := tmp.divide 1000000000
      let leading_zeroes := r.1.ne ZERO
      to_string_loop k r.1 (emit_digits leading_zeroes 10 0 r.2 result)
    else some result

/-- Function `to_string`. Two divisions by `10 ^ 9` remove more than one limb, so twice the
limb count is enough fuel for the outer loop. -/
def to_string (a : big_integer) : Option (List Char) :=
  if a.eq ZERO then some ['0']
  else
    (to_string_loop (2 * a.data_.length) a []).map fun result =>
      (if a.sign_ then result ++ ['-'] else result).reverse

/-- The helper `get_abs(long long value)`, `value` a signed 64-bit integer; the result is an
`unsigned long long`. -/
def get_abs (value : Int) : Nat :=
  if value = -(2 : Int) ^ 63 then 2 ^ 63
  else (if value < 0 then -value else value).toNat % 2 ^ 64

/-- Constructor `big_integer(long long a)`: delegates to the `unsigned long long` constructor
on `get_abs(a)`, then sets `sign_ = (a < 0)`. -/
def of_ll (a : Int) : big_integer :=
  { of_ull (get_abs a) with sign_ := decide (a < 0) }

/-- Method `to_twos_complement`: for a negative value clear the sign, decrement, complement
every limb (`~digit` on a `uint32_t`), set the sign. -/
def to_twos_complement (self : big_integer) : big_integer :=
  if self.sign_ then
    let t := sub_assign { self with sign_ := false } ONE
    { data_ := t.data_.map (fun digit => 2 ^ 32 - 1 - digit), sign_ := true }
  else self

/-- Method `to_sign_bit`: for a set sign clear it, complement every limb, increment, set the
sign. -/
def to_sign_bit (self : big_integer) : big_integer :=
  if self.sign_ then
    let t : big_integer :=
      { data_ := self.data_.map (fun digit => 2 ^ 32 - 1 - digit), sign_ := false }
    { add_assign t ONE with sign_ := true }
  else self

/-- The limb loop of `bitwise_op`: `k` iterations remain, `i` is the loop index; both reads
go through `get_or_default(i, neutral)`. -/
def bitwise_loop (func : Nat → Nat → Nat) (neutral : Nat) (tmp : List Nat) :
    Nat → Nat → List Nat → List Nat
  | 0, _, d => d
  | k + 1, i, d =>
    bitwise_loop func neutral tmp k (i + 1) (vset d i (func (d.getD i neutral) (tmp.getD i neutral)))

/-- Method `bitwise_op`. The loop bound `max(data_.size(), tmp.data_.size())` is not changed
by the writes at indices below it. `sign_ = func(sign_, tmp.sign_)` converts the two flags to
`0` / `1` and the `uint32_t` result back to `bool`. -/
def bitwise_op (self rhs : big_integer) (func : Nat → Nat → Nat) (neutral : Nat) :
    big_integer :=
  let s := to_twos_complement self
  let tmp := to_twos_complement rhs
  let d := bitwise_loop func neutral tmp.data_ (max s.data_.length tmp.data_.length) 0 s.data_
  to_sign_bit { data_ := d, sign_ := decide (func s.sign_.toNat tmp.sign_.toNat ≠ 0) }

/-- Operator `&=` (and `operator&`): `bitwise_op` with `x & y` and `neutral = UINT32_MAX`. -/
def and_assign (self rhs : big_integer) : big_integer :=
  bitwise_op self rhs (fun x y => x &&& y) (2 ^ 32 - 1)

/-- Operator `|=` (and `operator|`): `bitwise_op` with `x | y` and `neutral = 0`. -/
def or_assign (self rhs : big_integer) : big_integer :=
  bitwise_op self rhs (fun x y => x ||| y) 0

/-- Operator `^=` (and `operator^`): `bitwise_op` with `x ^ y` and `neutral = UINT32_MAX`. -/
def xor_assign (self rhs : big_integer) : big_integer :=
  bitwise_op self rhs (fun x y => x ^^^ y) (2 ^ 32 - 1)

/-- Operator `~`: `add(ONE, false)` on a copy, then the sign is flipped when the result is
not `ZERO`. -/
def complement (self : big_integer) : big_integer :=
  let result := add self ONE false
  if result.ne ZERO then { result with sign_ := !result.sign_ } else result

end big_integer


/-! ## Decimal numerals, as the specification words them -/

/-- The value of a decimal digit character. -/
def digit_val (c : Char) : Nat := c.toNat - ('0').toNat

/-- The natural number written by a run of decimal digits, most significant first. -/
def decimal_value (ds : List Char) : Nat := ds.foldl (fun acc c => acc * 10 + digit_val c) 0

/-- The characters after an optional single leading `+` or `-`. -/
def strip_sign : List Char → List Char
  | '-' :: ds => ds
  | '+' :: ds => ds
  | ds => ds

/-- A valid decimal string: an optional leading `+` or `-`, then one or more ASCII
digits. -/
def valid_decimal (s : List Char) : Prop :=
  strip_sign s ≠ [] ∧ ∀ c ∈ strip_sign s, '0' ≤ c ∧ c ≤ '9'

instance (s : List Char) : Decidable (valid_decimal s) := by
  unfold valid_decimal; infer_instance

/-- The integer written by a valid decimal string. -/
def written_int (s : List Char) : Int :=
  if s.head? = some '-' then -(decimal_value (strip_sign s) : Int)
  else (decimal_value (strip_sign s) : Int)
/-! ## Limb vectors and their values -/

open big_integer comparison_result

theorem limb_cons_zero (x : Nat) (xs : List Nat) : limb (x :: xs) 0 = x := by simp [limb]
theorem limb_cons_succ (x : Nat) (xs : List Nat) (i : Nat) : limb (x :: xs) (i + 1) = limb xs i := by
  simp [limb]

theorem limb_of_ge (d : List Nat) (i : Nat) (h : d.length ≤ i) : limb d i = 0 := by
  unfold limb
  rw [List.getD_eq_getElem?_getD, List.getElem?_eq_none h]; rfl

theorem vset_length (d : List Nat) (i v : Nat) : (vset d i v).length = max d.length (i + 1) := by
  unfold vset
  split <;> simp <;> omega

theorem limb_vset (d : List Nat) (i v j : Nat) :
    limb (vset d i v) j = if j = i then v else limb d j := by
  unfold vset limb
  simp only [List.getD_eq_getElem?_getD]
  split
  · rw [List.getElem?_set]
    by_cases hji : j = i
    · subst hji
      have : j < d.length + (j + 1 - d.length) := by omega
      simp [this]
    · have : ¬ i = j := fun h => hji h.symm
      simp only [this, hji, if_false]
      by_cases hj : j < d.length
      · rw [List.getElem?_append_left hj]
      · rw [List.getElem?_append_right (by omega)]
        rw [List.getElem?_eq_none (l := d) (by omega)]
        by_cases hj2 : j - d.length < i + 1 - d.length
        · simp [List.getElem?_replicate, hj2]
        · simp [List.getElem?_replicate, hj2]
  · rw [List.getElem?_set]
    by_cases hji : j = i
    · subst hji
      have : j < d.length := by omega
      simp [this]
    · have : ¬ i = j := fun h => hji h.symm
      simp [this, hji]

theorem valN_cons (x : Nat) (xs : List Nat) (n : Nat) :
    valN (x :: xs) (n + 1) = x + 2 ^ 32 * valN xs n := by
  induction n with
  | zero => simp [valN, limb_cons_zero]
  | succ n ih =>
    rw [valN, ih, valN, limb_cons_succ]
    ring

theorem val_eq_valN (d : List Nat) : val d = valN d d.length := by
  induction d with
  | nil => rfl
  | cons x xs ih => rw [List.length_cons, valN_cons, val, ih]

theorem valN_of_ge (d : List Nat) (n : Nat) (h : d.length ≤ n) : valN d n = val d := by
  induction n with
  | zero =>
    have : d = [] := List.eq_nil_of_length_eq_zero (by omega)
    subst this; rfl
  | succ n ih =>
    by_cases hn : d.length ≤ n
    · rw [valN, ih hn, limb_of_ge d n hn]; simp
    · have : d.length = n + 1 := by omega
      rw [val_eq_valN, this]

theorem valN_congr (d e : List Nat) (n : Nat) (h : ∀ j, j < n → limb d j = limb e j) :
    valN d n = valN e n := by
  induction n with
  | zero => rfl
  | succ n ih =>
    rw [valN, valN, ih (fun j hj => h j (by omega)), h n (by omega)]

theorem limb_lt (d : List Nat) (h : limbs_ok d) (i : Nat) : limb d i < 2 ^ 32 := by
  unfold limb
  rw [List.getD_eq_getElem?_getD]
  by_cases hi : i < d.length
  · rw [List.getElem?_eq_getElem hi]
    exact h _ (List.getElem_mem hi)
  · rw [List.getElem?_eq_none (by omega)]; simp

theorem valN_lt (d : List Nat) (h : limbs_ok d) (n : Nat) : valN d n < 2 ^ (32 * n) := by
  induction n with
  | zero => simp [valN]
  | succ n ih =>
    rw [valN]
    have h1 := limb_lt d h n
    have : 2 ^ (32 * (n + 1)) = 2 ^ 32 * 2 ^ (32 * n) := by rw [← pow_add]; ring_nf
    rw [this]
    have hp : 0 < 2 ^ (32 * n) := by positivity
    nlinarith

theorem val_lt (d : List Nat) (h : limbs_ok d) : val d < 2 ^ (32 * d.length) := by
  rw [val_eq_valN]; exact valN_lt d h _

theorem limbs_ok_of_limb (d : List Nat) (h : ∀ i, limb d i < 2 ^ 32) : limbs_ok d := by
  intro x hx
  obtain ⟨i, hi, rfl⟩ := List.getElem_of_mem hx
  have := h i
  unfold limb at this
  rw [List.getD_eq_getElem?_getD, List.getElem?_eq_getElem hi] at this
  simpa using this

theorem pow32_succ (n : Nat) : 2 ^ (32 * (n + 1)) = 2 ^ 32 * 2 ^ (32 * n) := by
  rw [← pow_add]; ring_nf

theorem val_append (xs ys : List Nat) :
    val (xs ++ ys) = val xs + 2 ^ (32 * xs.length) * val ys := by
  induction xs with
  | nil => simp [val]
  | cons x xs ih =>
    rw [List.cons_append, val, ih, val, List.length_cons, pow32_succ]
    ring

theorem limbs_ok_append (xs ys : List Nat) : limbs_ok (xs ++ ys) ↔ limbs_ok xs ∧ limbs_ok ys := by
  unfold limbs_ok
  simp only [List.mem_append]
  constructor
  · intro h; exact ⟨fun x hx => h x (Or.inl hx), fun x hx => h x (Or.inr hx)⟩
  · rintro ⟨h1, h2⟩ x (hx | hx)
    · exact h1 x hx
    · exact h2 x hx

theorem val_dropLast (d : List Nat) (h : d ≠ []) :
    val d = val d.dropLast + 2 ^ (32 * (d.length - 1)) * d.getLast h := by
  have := List.dropLast_append_getLast h
  conv_lhs => rw [← this]
  rw [val_append]
  simp [val]

/-- A list in normal form with at least two limbs has a value of full length. -/
theorem val_ge_of_getLast (d : List Nat) (h : d ≠ []) (hl : d.getLast? ≠ some 0) :
    2 ^ (32 * (d.length - 1)) ≤ val d := by
  rw [val_dropLast d h]
  have : d.getLast h ≠ 0 := by
    intro h0
    apply hl
    rw [List.getLast?_eq_getLast _ h, h0]
  have h1 : 1 ≤ d.getLast h := Nat.one_le_iff_ne_zero.mpr this
  calc 2 ^ (32 * (d.length - 1)) = 2 ^ (32 * (d.length - 1)) * 1 := by ring
    _ ≤ 2 ^ (32 * (d.length - 1)) * d.getLast h := Nat.mul_le_mul_left _ h1
    _ ≤ _ := Nat.le_add_left _ _

theorem getLast_ne_of_val_ge (d : List Nat) (h : d ≠ []) (ho : limbs_ok d)
    (hv : 2 ^ (32 * (d.length - 1)) ≤ val d) : d.getLast? ≠ some 0 := by
  intro h0
  rw [List.getLast?_eq_getLast _ h] at h0
  have h0 : d.getLast h = 0 := by simpa using h0
  rw [val_dropLast d h, h0] at hv
  have hok : limbs_ok d.dropLast := by
    intro x hx
    exact ho x (List.dropLast_subset d hx)
  have := val_lt d.dropLast hok
  rw [List.length_dropLast] at this
  omega

theorem normalized_iff (d : List Nat) :
    normalized d ↔ d ≠ [] ∧ limbs_ok d ∧ (d.length = 1 ∨ 2 ^ (32 * (d.length - 1)) ≤ val d) := by
  unfold normalized
  constructor
  · rintro ⟨h1, h2, h3⟩
    refine ⟨h1, h2, ?_⟩
    rcases h3 with h3 | h3
    · left; rw [h3]; rfl
    · right; exact val_ge_of_getLast d h1 h3
  · rintro ⟨h1, h2, h3⟩
    refine ⟨h1, h2, ?_⟩
    rcases h3 with h3 | h3
    · match d, h3 with
      | [x], _ =>
        by_cases hx : x = 0
        · left; rw [hx]
        · right; simpa using hx
    · right; exact getLast_ne_of_val_ge d h1 h2 h3

theorem normalized_length_pos (d : List Nat) (h : normalized d) : 1 ≤ d.length := by
  have := h.1
  cases d with
  | nil => exact absurd rfl this
  | cons x xs => simp

theorem normalized_val_lt (d : List Nat) (h : normalized d) : val d < 2 ^ (32 * d.length) :=
  val_lt d h.2.1

theorem normalized_val_ge (d : List Nat) (h : normalized d) (h2 : 2 ≤ d.length) :
    2 ^ (32 * (d.length - 1)) ≤ val d := by
  rcases ((normalized_iff d).mp h).2.2 with h3 | h3
  · omega
  · exact h3

theorem normalized_val_eq_zero (d : List Nat) (h : normalized d) : val d = 0 ↔ d = [0] := by
  constructor
  · intro hv
    rcases h.2.2 with h3 | h3
    · exact h3
    · have := val_ge_of_getLast d h.1 h3
      have hp : 0 < 2 ^ (32 * (d.length - 1)) := by positivity
      omega
  · intro h; rw [h]; rfl

theorem pow32_le (m n : Nat) (h : m ≤ n) : 2 ^ (32 * m) ≤ 2 ^ (32 * n) :=
  Nat.pow_le_pow_right (by norm_num) (by omega)

theorem normalized_length_lt (a b : List Nat) (ha : normalized a) (hb : normalized b)
    (h : a.length < b.length) : val a < val b := by
  have h1 := normalized_val_lt a ha
  have h2 := normalized_val_ge b hb (by have := normalized_length_pos a ha; omega)
  have h3 := pow32_le a.length (b.length - 1) (by omega)
  omega

theorem normalized_length_le (a b : List Nat) (ha : normalized a) (hb : normalized b)
    (h : val a ≤ val b) : a.length ≤ b.length := by
  by_contra hc
  have := normalized_length_lt b a hb ha (by omega)
  omega

theorem val_inj_of_length (a : List Nat) : ∀ (b : List Nat), limbs_ok a → limbs_ok b →
    a.length = b.length → val a = val b → a = b := by
  induction a with
  | nil => intro b _ _ hl _; exact (List.eq_nil_of_length_eq_zero hl.symm).symm
  | cons x xs ih =>
    intro b ha hb hl hv
    cases b with
    | nil => simp at hl
    | cons y ys =>
      have hx : x < 2 ^ 32 := ha x (List.mem_cons_self _ _)
      have hy : y < 2 ^ 32 := hb y (List.mem_cons_self _ _)
      simp only [val] at hv
      have hxy : x = y := by omega
      have hvs : val xs = val ys := by omega
      rw [hxy, ih ys (fun z hz => ha z (List.mem_cons_of_mem _ hz))
        (fun z hz => hb z (List.mem_cons_of_mem _ hz)) (by simpa using hl) hvs]

theorem normalized_val_inj (a b : List Nat) (ha : normalized a) (hb : normalized b)
    (h : val a = val b) : a = b :=
  val_inj_of_length a b ha.2.1 hb.2.1
    (le_antisymm (normalized_length_le a b ha hb (le_of_eq h))
      (normalized_length_le b a hb ha (le_of_eq h.symm))) h

/-! ## `delete_leading_zeroes` -/

theorem pop_zeroes_spec : ∀ (k : Nat) (d : List Nat), d.length ≤ k → limbs_ok d →
    val (pop_zeroes k d) = val d ∧ limbs_ok (pop_zeroes k d) ∧
      (pop_zeroes k d = [] ∨ (pop_zeroes k d).getLast? ≠ some 0) ∧
      (pop_zeroes k d).length ≤ d.length := by
  intro k
  induction k with
  | zero =>
    intro d hl ho
    have : d = [] := List.eq_nil_of_length_eq_zero (by omega)
    subst this
    simp [pop_zeroes, ho]
  | succ k ih =>
    intro d hl ho
    unfold pop_zeroes
    split
    · rename_i hc
      have hok : limbs_ok d.dropLast := fun x hx => ho x (List.dropLast_subset d hx)
      have hlen : d.dropLast.length ≤ k := by rw [List.length_dropLast]; omega
      obtain ⟨h1, h2, h3, h4⟩ := ih d.dropLast hlen hok
      refine ⟨?_, h2, h3, ?_⟩
      · rw [h1, val_dropLast d hc.1]
        have : d.getLast hc.1 = 0 := by
          have := hc.2
          rw [List.getLast?_eq_getLast _ hc.1] at this
          simpa using this
        rw [this]; simp
      · rw [List.length_dropLast] at h4; omega
    · rename_i hc
      refine ⟨rfl, ho, ?_, le_refl _⟩
      by_cases hd : d = []
      · left; exact hd
      · right; intro h; exact hc ⟨hd, h⟩

theorem val_eq_zero_of_nil (d : List Nat) (h : d = []) : val d = 0 := by rw [h]; rfl

theorem delete_leading_zeroes_spec (a : big_integer) (ho : limbs_ok a.data_) :
    normalized (delete_leading_zeroes a).data_ ∧
      val (delete_leading_zeroes a).data_ = val a.data_ ∧
      (delete_leading_zeroes a).sign_ = (a.sign_ && decide (val a.data_ ≠ 0)) ∧
      (delete_leading_zeroes a).data_.length ≤ max a.data_.length 1 := by
  obtain ⟨h1, h2, h3, h4⟩ := pop_zeroes_spec a.data_.length a.data_ (le_refl _) ho
  unfold delete_leading_zeroes
  simp only
  split
  · rename_i hnil
    rw [hnil] at h1
    have hv : val a.data_ = 0 := by rw [← h1]; rfl
    refine ⟨by decide, by rw [hv]; rfl, by simp [hv], by simp⟩
  · rename_i hnil
    rcases h3 with h3 | h3
    · exact absurd h3 hnil
    · refine ⟨⟨hnil, h2, Or.inr h3⟩, h1, ?_, by simp; omega⟩
      have := val_ge_of_getLast _ hnil h3
      have hp : 0 < 2 ^ (32 * ((pop_zeroes a.data_.length a.data_).length - 1)) := by positivity
      have : val a.data_ ≠ 0 := by omega
      simp [this]

/-! ## The carry loop of `add` -/

theorem valN_vset_lt (d : List Nat) (i v n : Nat) (h : n ≤ i) :
    valN (vset d i v) n = valN d n := by
  apply valN_congr
  intro j hj
  rw [limb_vset, if_neg (by omega)]

theorem valN_vset_succ (d : List Nat) (i v : Nat) :
    valN (vset d i v) (i + 1) = valN d i + v * 2 ^ (32 * i) := by
  rw [valN, valN_vset_lt d i v i (le_refl _), limb_vset, if_pos rfl]

theorem add_loop_inv (a rhs : List Nat) (ha : limbs_ok a) (hr : limbs_ok rhs) :
    ∀ (k i : Nat) (d : List Nat) (c : Nat),
      valN d i + c * 2 ^ (32 * i) = valN a i + valN rhs i →
      (∀ j, i ≤ j → limb d j = limb a j) → (∀ j, limb d j < 2 ^ 32) → c ≤ 1 →
      d.length = max a.length i →
      valN (add_loop rhs k i d c).1 (i + k) + (add_loop rhs k i d c).2 * 2 ^ (32 * (i + k))
          = valN a (i + k) + valN rhs (i + k) ∧
        (∀ j, limb (add_loop rhs k i d c).1 j < 2 ^ 32) ∧ (add_loop rhs k i d c).2 ≤ 1 ∧
        (add_loop rhs k i d c).1.length = max a.length (i + k) := by
  intro k
  induction k with
  | zero =>
    intro i d c h1 _ h3 h4 h5
    exact ⟨h1, h3, h4, h5⟩
  | succ k ih =>
    intro i d c h1 h2 h3 h4 h5
    have hai := limb_lt a ha i
    have hri := limb_lt rhs hr i
    have hdi : d.getD i 0 = limb a i := h2 i (le_refl _)
    have hrl : rhs.getD i 0 = limb rhs i := rfl
    have hres : (d.getD i 0 + rhs.getD i 0 + c) % 2 ^ 64 = limb a i + limb rhs i + c := by
      rw [hdi, hrl]; omega
    have key := ih (i + 1) (vset d i (get_low32 (limb a i + limb rhs i + c)))
      (get_high32 (limb a i + limb rhs i + c)) ?_ ?_ ?_ ?_ ?_
    · have e : i + 1 + k = i + (k + 1) := by omega
      rw [e] at key
      simp only [add_loop, hres]
      exact key
    · rw [valN_vset_succ, valN, valN, pow32_succ]
      unfold get_low32 get_high32
      have hdm := Nat.div_add_mod (limb a i + limb rhs i + c) (2 ^ 32)
      generalize (limb a i + limb rhs i + c) / 2 ^ 32 = q at *
      generalize (limb a i + limb rhs i + c) % 2 ^ 32 = r at *
      have : (r + 2 ^ 32 * q) * 2 ^ (32 * i) = (limb a i + limb rhs i + c) * 2 ^ (32 * i) := by
        rw [← hdm]; ring
      linarith
    · intro j hj
      rw [limb_vset, if_neg (by omega)]
      exact h2 j (by omega)
    · intro j
      rw [limb_vset]
      split
      · unfold get_low32; omega
      · exact h3 j
    · unfold get_high32; omega
    · rw [vset_length, h5]; omega

theorem add_loop_spec (a rhs : List Nat) (ha : limbs_ok a) (hr : limbs_ok rhs) (n : Nat)
    (hn : n = max a.length rhs.length) :
    val (add_loop rhs n 0 a 0).1 + (add_loop rhs n 0 a 0).2 * 2 ^ (32 * n) = val a + val rhs ∧
      limbs_ok (add_loop rhs n 0 a 0).1 ∧ (add_loop rhs n 0 a 0).2 ≤ 1 ∧
      (add_loop rhs n 0 a 0).1.length = n := by
  have key := add_loop_inv a rhs ha hr n 0 a 0 (by simp [valN]) (fun _ _ => rfl)
    (fun j => limb_lt a ha j) (by omega) (by simp)
  simp only [Nat.zero_add] at key
  obtain ⟨h1, h2, h3, h4⟩ := key
  have hlen : (add_loop rhs n 0 a 0).1.length = n := by rw [h4, hn]; omega
  refine ⟨?_, limbs_ok_of_limb _ h2, h3, hlen⟩
  rw [valN_of_ge a n (by omega), valN_of_ge rhs n (by omega)] at h1
  rw [← h1, val_eq_valN, hlen]

/-- Magnitude addition: the data of `add` is in normal form and denotes the sum. -/
theorem add_data_spec (a b : big_integer) (neg : Bool) (ha : normalized a.data_)
    (hb : normalized b.data_) :
    normalized (add a b neg).data_ ∧ val (add a b neg).data_ = val a.data_ + val b.data_ := by
  obtain ⟨h1, h2, h3, h4⟩ := add_loop_spec a.data_ b.data_ ha.2.1 hb.2.1 _ rfl
  have hla := normalized_length_pos _ ha
  have hlb := normalized_length_pos _ hb
  unfold add
  simp only
  generalize add_loop b.data_ (max a.data_.length b.data_.length) 0 a.data_ 0 = r at *
  by_cases hc : r.2 = 0
  · simp only [hc, ne_eq, not_true_eq_false, if_false]
    rw [hc] at h1
    simp only [Nat.zero_mul, Nat.add_zero] at h1
    refine ⟨?_, h1⟩
    rw [normalized_iff]
    refine ⟨?_, h2, ?_⟩
    · intro h; rw [h] at h4; simp at h4; omega
    · by_cases hl : r.1.length = 1
      · left; exact hl
      · right
        rw [h1, h4]
        rcases Nat.le_total a.data_.length b.data_.length with hab | hab
        · rw [max_eq_right hab]
          have := normalized_val_ge _ hb (by omega)
          omega
        · rw [max_eq_left hab]
          have := normalized_val_ge _ ha (by omega)
          omega
  · simp only [hc, ne_eq, not_false_eq_true, if_true]
    have hc1 : r.2 = 1 := by omega
    constructor
    · refine ⟨by simp, ?_, Or.inr ?_⟩
      · rw [limbs_ok_append]
        refine ⟨h2, ?_⟩
        intro x hx
        simp at hx; omega
      · simp [hc1]
    · rw [val_append, h4, ← h1]
      simp [val]; ring

/-! ## `compare_to` -/

theorem compare_step (sign : Bool) (A B x y P : Nat) (hA : A < P) (hB : B < P) :
    (if x < y then (if sign then GREATER else LESS)
      else if x > y then (if sign then LESS else GREATER)
      else if A < B then (if sign then GREATER else LESS)
      else if A > B then (if sign then LESS else GREATER) else EQUAL) =
    if A + x * P < B + y * P then (if sign then GREATER else LESS)
      else if A + x * P > B + y * P then (if sign then LESS else GREATER) else EQUAL := by
  by_cases hxy : x < y
  · have : A + x * P < B + y * P := by nlinarith
    rw [if_pos hxy, if_pos this]
  · by_cases hyx : x > y
    · have h1 : A + x * P > B + y * P := by nlinarith
      have h2 : ¬ A + x * P < B + y * P := by omega
      rw [if_neg hxy, if_pos hyx, if_neg h2, if_pos h1]
    · have hxe : x = y := by omega
      subst hxe
      rw [if_neg hxy, if_neg hyx]
      by_cases h4 : A < B
      · have h1 : A + x * P < B + x * P := by omega
        rw [if_pos h4, if_pos h1]
      · by_cases h5 : A > B
        · have h1 : ¬ A + x * P < B + x * P := by omega
          have h2 : A + x * P > B + x * P := by omega
          rw [if_neg h4, if_pos h5, if_neg h1, if_pos h2]
        · have h1 : ¬ A + x * P < B + x * P := by omega
          have h2 : ¬ A + x * P > B + x * P := by omega
          rw [if_neg h4, if_neg h5, if_neg h1, if_neg h2]

theorem compare_loop_spec (sign : Bool) (a b : List Nat) (ha : limbs_ok a) (hb : limbs_ok b) :
    ∀ i : Nat, compare_loop sign a b i =
      if valN a i < valN b i then (if sign then GREATER else LESS)
      else if valN a i > valN b i then (if sign then LESS else GREATER)
      else EQUAL := by
  intro i
  induction i with
  | zero => simp [compare_loop, valN]
  | succ i ih =>
    have h1 := valN_lt a ha i
    have h2 := valN_lt b hb i
    simp only [compare_loop, valN]
    rw [ih]
    exact compare_step sign _ _ _ _ _ h1 h2

/-- Magnitude comparison: what `compare_to` answers on two operands of equal sign. -/
theorem compare_to_same_sign (a b : big_integer) (ha : normalized a.data_)
    (hb : normalized b.data_) (hs : a.sign_ = b.sign_) :
    compare_to a b =
      if val a.data_ < val b.data_ then (if a.sign_ then GREATER else LESS)
      else if val a.data_ > val b.data_ then (if a.sign_ then LESS else GREATER)
      else EQUAL := by
  unfold compare_to
  have hn1 : (a.sign_ && !b.sign_) = false := by rw [hs]; cases b.sign_ <;> rfl
  have hn2 : (!a.sign_ && b.sign_) = false := by rw [hs]; cases b.sign_ <;> rfl
  simp only [hn1, hn2, Bool.false_eq_true, if_false]
  by_cases h1 : a.data_.length < b.data_.length
  · have := normalized_length_lt _ _ ha hb h1
    simp [h1, this]
  · by_cases h2 : a.data_.length > b.data_.length
    · have := normalized_length_lt _ _ hb ha h2
      have h3 : ¬ val a.data_ < val b.data_ := by omega
      simp only [h1, h2, h3, this, if_false, if_true]
    · have hl : a.data_.length = b.data_.length := by omega
      simp only [h1, h2, if_false]
      rw [compare_loop_spec _ _ _ ha.2.1 hb.2.1, ← val_eq_valN, hl, ← val_eq_valN]

theorem canonical_neg_pos (a : big_integer) (ha : canonical a) (hs : a.sign_ = true) :
    0 < val a.data_ := by
  have h1 : a.data_ ≠ [0] := by
    intro h; have := ha.2 h; rw [hs] at this; exact absurd this (by decide)
  have := (normalized_val_eq_zero _ ha.1).not.mpr h1
  omega

theorem toInt_neg (a : big_integer) (hs : a.sign_ = true) : toInt a = -(val a.data_ : Int) := by
  simp [toInt, hs]

theorem toInt_pos (a : big_integer) (hs : a.sign_ = false) : toInt a = (val a.data_ : Int) := by
  simp [toInt, hs]

/-- The answer of `compare_to` is the order of the denoted integers. -/
theorem compare_to_spec (a b : big_integer) (ha : canonical a) (hb : canonical b) :
    compare_to a b =
      if toInt a < toInt b then LESS else if toInt a > toInt b then GREATER else EQUAL := by
  cases hsa : a.sign_ <;> cases hsb : b.sign_
  · rw [compare_to_same_sign a b ha.1 hb.1 (by rw [hsa, hsb]), toInt_pos a hsa, toInt_pos b hsb]
    simp only [hsa, Bool.false_eq_true, if_false, Nat.cast_lt, gt_iff_lt]
  · have := canonical_neg_pos b hb hsb
    rw [toInt_pos a hsa, toInt_neg b hsb]
    have h1 : ¬ ((val a.data_ : Int) < -(val b.data_ : Int)) := by omega
    have h2 : (val a.data_ : Int) > -(val b.data_ : Int) := by omega
    simp [compare_to, hsa, hsb, h1, h2]
  · have := canonical_neg_pos a ha hsa
    rw [toInt_neg a hsa, toInt_pos b hsb]
    have h1 : (-(val a.data_ : Int) < (val b.data_ : Int)) := by omega
    simp [compare_to, hsa, hsb, h1]
  · rw [compare_to_same_sign a b ha.1 hb.1 (by rw [hsa, hsb]), toInt_neg a hsa, toInt_neg b hsb]
    simp only [hsa, if_true, gt_iff_lt, neg_lt_neg_iff, Nat.cast_lt]
    by_cases h1 : val a.data_ < val b.data_
    · have h2 : ¬ val b.data_ < val a.data_ := by omega
      simp [h1, h2]
    · by_cases h2 : val b.data_ < val a.data_
      · simp [h1, h2]
      · simp [h1, h2]

theorem ZERO_eq : ZERO = { data_ := [0], sign_ := false } := by decide

theorem ZERO_canonical : canonical ZERO := by decide

theorem toInt_ZERO : toInt ZERO = 0 := by decide

theorem toInt_eq_zero (a : big_integer) (ha : canonical a) : toInt a = 0 ↔ a = ZERO := by
  constructor
  · intro h
    have hv : val a.data_ = 0 := by
      unfold toInt at h
      split at h <;> omega
    have hd := (normalized_val_eq_zero _ ha.1).mp hv
    have hs := ha.2 hd
    rw [ZERO_eq]
    cases a
    simp only at hd hs
    rw [hd, hs]
  · intro h; rw [h]; exact toInt_ZERO

theorem ne_ZERO_spec (a : big_integer) (ha : canonical a) : a.ne ZERO = decide (toInt a ≠ 0) := by
  unfold big_integer.ne
  rw [compare_to_spec a ZERO ha ZERO_canonical, toInt_ZERO]
  by_cases h1 : toInt a < 0
  · have : toInt a ≠ 0 := by omega
    simp [h1, this]
  · by_cases h2 : toInt a > 0
    · have : toInt a ≠ 0 := by omega
      simp [h1, h2, this]
    · have : toInt a = 0 := by omega
      simp [this]

theorem lt_spec (a b : big_integer) (ha : canonical a) (hb : canonical b) :
    a.lt b = decide (toInt a < toInt b) := by
  unfold big_integer.lt
  rw [compare_to_spec a b ha hb]
  by_cases h1 : toInt a < toInt b
  · simp [h1]
  · by_cases h2 : toInt a > toInt b
    · simp [h1, h2]
    · simp [h1, h2]

theorem gt_spec (a b : big_integer) (ha : canonical a) (hb : canonical b) :
    a.gt b = decide (toInt a > toInt b) := by
  unfold big_integer.gt
  rw [compare_to_spec a b ha hb]
  by_cases h1 : toInt a < toInt b
  · have : ¬ toInt b < toInt a := by omega
    simp [h1, this]
  · by_cases h2 : toInt a > toInt b
    · simp [h1, h2]
    · have : ¬ toInt b < toInt a := by omega
      simp [h1, h2, this]

/-! ## The borrow loop of `subtract` -/

theorem borrow_step (xi yi c : Nat) (hx : xi < 2 ^ 32) (hy : yi < 2 ^ 32) (hc : c ≤ 1) :
    get_low32 ((xi + 2 ^ 64 - yi + 2 ^ 64 - c) % 2 ^ 64) + yi + c
        = xi + ((xi + 2 ^ 64 - yi + 2 ^ 64 - c) % 2 ^ 64 / 2 ^ 63) * 2 ^ 32 ∧
      (xi + 2 ^ 64 - yi + 2 ^ 64 - c) % 2 ^ 64 / 2 ^ 63 ≤ 1 := by
  unfold get_low32
  omega

theorem subtract_loop_inv (swapped : Bool) (a rhs : List Nat) (ha : limbs_ok a)
    (hr : limbs_ok rhs) (x y : List Nat) (hx : x = if swapped then rhs else a)
    (hy : y = if swapped then a else rhs) :
    ∀ (k i : Nat) (d : List Nat) (c : Nat),
      valN d i + valN y i = valN x i + c * 2 ^ (32 * i) →
      (∀ j, i ≤ j → limb d j = limb a j) → (∀ j, limb d j < 2 ^ 32) → c ≤ 1 →
      d.length = max a.length i →
      ∃ c', valN (subtract_loop swapped rhs k i d c) (i + k) + valN y (i + k)
          = valN x (i + k) + c' * 2 ^ (32 * (i + k)) ∧ c' ≤ 1 ∧
        (∀ j, limb (subtract_loop swapped rhs k i d c) j < 2 ^ 32) ∧
        (subtract_loop swapped rhs k i d c).length = max a.length (i + k) := by
  intro k
  induction k with
  | zero =>
    intro i d c h1 _ h3 h4 h5
    exact ⟨c, h1, h4, h3, h5⟩
  | succ k ih =>
    intro i d c h1 h2 h3 h4 h5
    have hai := limb_lt a ha i
    have hri := limb_lt rhs hr i
    have hdi : d.getD i 0 = limb a i := h2 i (le_refl _)
    have hrl : rhs.getD i 0 = limb rhs i := rfl
    have hxi : limb x i < 2 ^ 32 := by rw [hx]; split <;> assumption
    have hyi : limb y i < 2 ^ 32 := by rw [hy]; split <;> assumption
    have hres : (if swapped then (rhs.getD i 0 + 2 ^ 64 - d.getD i 0 + 2 ^ 64 - c) % 2 ^ 64
        else (d.getD i 0 + 2 ^ 64 - rhs.getD i 0 + 2 ^ 64 - c) % 2 ^ 64)
        = (limb x i + 2 ^ 64 - limb y i + 2 ^ 64 - c) % 2 ^ 64 := by
      rw [hdi, hrl, hx, hy]
      cases swapped <;> simp
    obtain ⟨hb1, hb2⟩ := borrow_step (limb x i) (limb y i) c hxi hyi h4
    have e : i + 1 + k = i + (k + 1) := by omega
    simp only [subtract_loop, hres]
    rw [← e]
    apply ih
    · rw [valN_vset_succ, valN, valN, pow32_succ]
      generalize (limb x i + 2 ^ 64 - limb y i + 2 ^ 64 - c) % 2 ^ 64 / 2 ^ 63 = c' at *
      generalize get_low32 ((limb x i + 2 ^ 64 - limb y i + 2 ^ 64 - c) % 2 ^ 64) = lo at *
      have : (lo + limb y i + c) * 2 ^ (32 * i) = (limb x i + c' * 2 ^ 32) * 2 ^ (32 * i) := by
        rw [hb1]
      linarith
    · intro j hj
      rw [limb_vset, if_neg (by omega)]
      exact h2 j (by omega)
    · intro j
      rw [limb_vset]
      split
      · unfold get_low32; omega
      · exact h3 j
    · exact hb2
    · rw [vset_length, h5]; omega

/-- The borrow loop computes `x - y` when `y ≤ x`, `x` being the longer operand. -/
theorem subtract_loop_spec (swapped : Bool) (a rhs : List Nat) (ha : normalized a)
    (hr : normalized rhs) (hsw : swapped = decide (val a < val rhs)) :
    val (subtract_loop swapped rhs (if swapped then rhs.length else a.length) 0 a 0) + 
        (if swapped then val a else val rhs) = (if swapped then val rhs else val a) ∧
      limbs_ok (subtract_loop swapped rhs (if swapped then rhs.length else a.length) 0 a 0) := by
  obtain ⟨c', h1, h2, h3, h4⟩ := subtract_loop_inv swapped a rhs ha.2.1 hr.2.1 _ _ rfl rfl
    (if swapped then rhs.length else a.length) 0 a 0 (by simp [valN]) (fun _ _ => rfl)
    (fun j => limb_lt a ha.2.1 j) (by omega) (by simp)
  simp only [Nat.zero_add] at h1 h4
  refine ⟨?_, limbs_ok_of_limb _ h3⟩
  generalize hn : (if swapped then rhs.length else a.length) = n at *
  generalize subtract_loop swapped rhs n 0 a 0 = d at *
  have hdl := valN_lt d (limbs_ok_of_limb _ h3) n
  cases swapped
  · simp only [Bool.false_eq_true, if_false] at *
    have hle : val rhs ≤ val a := by
      have := hsw.symm; simp at this; exact this
    have hlen := normalized_length_le _ _ hr ha hle
    rw [valN_of_ge rhs n (by omega), valN_of_ge a n (by omega)] at h1
    have hc0 : c' = 0 := by
      by_contra hc
      have : c' = 1 := by omega
      rw [this] at h1
      have := val_lt a ha.2.1
      rw [hn] at this
      omega
    rw [hc0] at h1
    have hd : d.length = n := by rw [h4]; omega
    rw [val_eq_valN, hd]; omega
  · simp only [if_true] at *
    have hle : val a < val rhs := by
      have := hsw.symm; simp at this; exact this
    have hlen := normalized_length_le _ _ ha hr (le_of_lt hle)
    rw [valN_of_ge rhs n (by omega), valN_of_ge a n (by omega)] at h1
    have hc0 : c' = 0 := by
      by_contra hc
      have : c' = 1 := by omega
      rw [this] at h1
      have := val_lt rhs hr.2.1
      rw [hn] at this
      omega
    rw [hc0] at h1
    have hd : d.length = n := by rw [h4]; omega
    rw [val_eq_valN, hd]; omega

/-! ## `add`, `subtract`, `operator+=`, `operator-=` -/

theorem swapped_spec (a b : big_integer) (s1 : Bool) (ha : normalized a.data_)
    (hb : normalized b.data_) (hs : s1 = b.sign_) :
    ((s1 && b.sign_ && big_integer.gt { a with sign_ := s1 } b) ||
      (!s1 && !b.sign_ && big_integer.lt { a with sign_ := s1 } b))
      = decide (val a.data_ < val b.data_) := by
  have hc := compare_to_same_sign { a with sign_ := s1 } b ha hb hs
  simp only at hc
  unfold big_integer.gt big_integer.lt
  rw [hc, ← hs]
  by_cases h1 : val a.data_ < val b.data_
  · cases s1 <;> simp [h1]
  · by_cases h2 : val a.data_ > val b.data_
    · cases s1 <;> simp [h1, h2]
    · cases s1 <;> simp [h1, h2]

theorem subtract_spec (a b : big_integer) (neg : Bool) (ha : normalized a.data_)
    (hb : normalized b.data_) (hs : (if neg then !a.sign_ else a.sign_) = b.sign_) :
    canonical (subtract a b neg) ∧
      toInt (subtract a b neg) =
        if a.sign_ then (val b.data_ : Int) - val a.data_ else (val a.data_ : Int) - val b.data_ := by
  have hsw := swapped_spec a b _ ha hb hs
  have hs2 : (if neg then !(if neg then !a.sign_ else a.sign_) else (if neg then !a.sign_ else a.sign_))
      = a.sign_ := by cases neg <;> simp
  unfold subtract
  simp only [hsw, hs2]
  obtain ⟨h1, h2⟩ := subtract_loop_spec (decide (val a.data_ < val b.data_)) a.data_ b.data_ ha hb rfl
  generalize subtract_loop (decide (val a.data_ < val b.data_)) b.data_
    (if decide (val a.data_ < val b.data_) = true then b.data_.length else a.data_.length) 0 a.data_ 0
    = d at *
  obtain ⟨k1, k2, k3, _⟩ := delete_leading_zeroes_spec
    { data_ := d, sign_ := xor a.sign_ (decide (val a.data_ < val b.data_)) } h2
  simp only at k2 k3
  generalize delete_leading_zeroes
    { data_ := d, sign_ := xor a.sign_ (decide (val a.data_ < val b.data_)) } = r at *
  constructor
  · refine ⟨k1, ?_⟩
    intro h0
    have hv : val r.data_ = 0 := by rw [h0]; rfl
    rw [k3]
    rw [k2] at hv
    simp [hv]
  · unfold toInt
    rw [k3, k2]
    by_cases hlt : val a.data_ < val b.data_
    · simp only [hlt, decide_True, if_true] at h1
      have hd : val d ≠ 0 := by omega
      have : (val d : Int) = (val b.data_ : Int) - val a.data_ := by omega
      cases hsa : a.sign_ <;> simp [hlt, hd, this]
    · simp only [hlt, decide_False, Bool.false_eq_true, if_false] at h1
      have : (val d : Int) = (val a.data_ : Int) - val b.data_ := by omega
      by_cases hd : val d = 0
      · have : (val a.data_ : Int) - val b.data_ = 0 := by omega
        cases hsa : a.sign_ <;> simp [hlt, hd] <;> omega
      · cases hsa : a.sign_ <;> simp [hlt, hd, this]

theorem add_spec (a b : big_integer) (neg : Bool) (ha : normalized a.data_)
    (hb : normalized b.data_)
    (hz : (a.sign_ && (xor b.sign_ neg)) = true → val a.data_ + val b.data_ ≠ 0) :
    canonical (add a b neg) ∧
      toInt (add a b neg) =
        if (a.sign_ && (xor b.sign_ neg)) then -((val a.data_ : Int) + val b.data_)
        else (val a.data_ : Int) + val b.data_ := by
  obtain ⟨h1, h2⟩ := add_data_spec a b neg ha hb
  have hsign : (add a b neg).sign_ = (a.sign_ && (xor b.sign_ neg)) := rfl
  constructor
  · refine ⟨h1, ?_⟩
    intro h0
    have hv : val (add a b neg).data_ = 0 := by rw [h0]; rfl
    rw [h2] at hv
    rw [hsign]
    cases hc : (a.sign_ && (xor b.sign_ neg))
    · rfl
    · exact absurd hv (hz hc)
  · unfold toInt
    rw [hsign, h2]
    push_cast
    rfl

theorem flip_sign_spec (t : big_integer) (ht : canonical t) (hne : toInt t ≠ 0) :
    canonical { t with sign_ := !t.sign_ } ∧ toInt { t with sign_ := !t.sign_ } = -toInt t := by
  constructor
  · refine ⟨ht.1, ?_⟩
    intro h0
    exfalso
    apply hne
    have : val t.data_ = 0 := by
      have h0 : t.data_ = [0] := h0
      rw [h0]; rfl
    unfold toInt
    split <;> omega
  · unfold toInt
    cases t.sign_ <;> simp

theorem add_assign_spec (a b : big_integer) (ha : canonical a) (hb : canonical b) :
    canonical (add_assign a b) ∧ toInt (add_assign a b) = toInt a + toInt b := by
  unfold add_assign
  cases hsa : a.sign_ <;> cases hsb : b.sign_
  · simp only [Bool.false_and, Bool.not_false, Bool.not_true, Bool.and_false, Bool.false_eq_true,
      if_false]
    obtain ⟨h1, h2⟩ := add_spec a b false ha.1 hb.1 (by simp [hsa])
    refine ⟨h1, ?_⟩
    rw [h2, toInt_pos a hsa, toInt_pos b hsb]
    simp [hsa]
  · simp only [Bool.false_and, Bool.not_false, Bool.true_and, Bool.false_eq_true, if_false,
      if_true]
    obtain ⟨h1, h2⟩ := subtract_spec a b true ha.1 hb.1 (by simp [hsa, hsb])
    refine ⟨h1, ?_⟩
    rw [h2, toInt_pos a hsa, toInt_neg b hsb]
    simp [hsa]; ring
  · simp only [Bool.not_false, Bool.and_true, if_true]
    obtain ⟨h1, h2⟩ := subtract_spec { a with sign_ := false } b false ha.1 hb.1 (by simp [hsb])
    simp only [Bool.false_eq_true, if_false] at h2
    rw [ne_ZERO_spec _ h1]
    rw [toInt_neg a hsa, toInt_pos b hsb]
    by_cases hz : toInt (subtract { a with sign_ := false } b false) = 0
    · simp only [hz, ne_eq, not_true_eq_false, decide_False, Bool.false_eq_true, if_false]
      refine ⟨h1, ?_⟩
      rw [hz] at h2
      omega
    · simp only [hz, ne_eq, not_false_eq_true, decide_True, if_true]
      obtain ⟨k1, k2⟩ := flip_sign_spec _ h1 hz
      refine ⟨k1, ?_⟩
      rw [k2, h2]; ring
  · simp only [Bool.not_true, Bool.and_false, Bool.false_eq_true, if_false,
      Bool.not_true, Bool.false_and]
    have hp := canonical_neg_pos a ha hsa
    obtain ⟨h1, h2⟩ := add_spec a b false ha.1 hb.1 (by intro _; omega)
    refine ⟨h1, ?_⟩
    rw [h2, toInt_neg a hsa, toInt_neg b hsb]
    simp [hsa, hsb]; ring

theorem set_sign_true_spec (t : big_integer) (ht : normalized t.data_) (hne : val t.data_ ≠ 0) :
    canonical { t with sign_ := true } ∧ toInt { t with sign_ := true } = -(val t.data_ : Int) := by
  constructor
  · refine ⟨ht, ?_⟩
    intro h0
    exfalso
    apply hne
    have h0 : t.data_ = [0] := h0
    rw [h0]; rfl
  · simp [toInt]

theorem sub_assign_spec (a b : big_integer) (ha : canonical a) (hb : canonical b) :
    canonical (sub_assign a b) ∧ toInt (sub_assign a b) = toInt a - toInt b := by
  unfold sub_assign
  cases hsa : a.sign_ <;> cases hsb : b.sign_
  · simp only [Bool.false_and, Bool.not_false, Bool.not_true, Bool.and_false, Bool.false_eq_true,
      if_false]
    obtain ⟨h1, h2⟩ := subtract_spec a b false ha.1 hb.1 (by simp [hsa, hsb])
    refine ⟨h1, ?_⟩
    rw [h2, toInt_pos a hsa, toInt_pos b hsb]
    simp [hsa]
  · simp only [Bool.false_and, Bool.not_false, Bool.true_and, Bool.false_eq_true, if_false,
      if_true]
    obtain ⟨h1, h2⟩ := add_spec a b true ha.1 hb.1 (by simp [hsa])
    refine ⟨h1, ?_⟩
    rw [h2, toInt_pos a hsa, toInt_neg b hsb]
    simp [hsa]
  · simp only [Bool.not_false, Bool.and_true, if_true]
    have hp := canonical_neg_pos a ha hsa
    obtain ⟨h1, h2⟩ := add_data_spec { a with sign_ := false } b false ha.1 hb.1
    simp only at h2
    obtain ⟨k1, k2⟩ := set_sign_true_spec (add { a with sign_ := false } b false) h1 (by omega)
    refine ⟨k1, ?_⟩
    rw [k2, h2, toInt_neg a hsa, toInt_pos b hsb]
    push_cast; ring
  · simp only [Bool.not_true, Bool.and_false, Bool.false_eq_true, if_false,
      Bool.not_true, Bool.false_and]
    obtain ⟨h1, h2⟩ := subtract_spec a b false ha.1 hb.1 (by simp [hsa, hsb])
    refine ⟨h1, ?_⟩
    rw [h2, toInt_neg a hsa, toInt_neg b hsb]
    simp [hsa]; ring

/-! ## Order and equality of canonical values -/

theorem sign_iff_neg (a : big_integer) (ha : canonical a) : a.sign_ = true ↔ toInt a < 0 := by
  constructor
  · intro hs
    have := canonical_neg_pos a ha hs
    rw [toInt_neg a hs]; omega
  · intro h
    cases hs : a.sign_
    · rw [toInt_pos a hs] at h; omega
    · rfl

theorem toInt_inj (a b : big_integer) (ha : canonical a) (hb : canonical b)
    (h : toInt a = toInt b) : a = b := by
  have hsign : a.sign_ = b.sign_ := by
    have h1 := sign_iff_neg a ha
    have h2 := sign_iff_neg b hb
    rw [h] at h1
    cases hsa : a.sign_ <;> cases hsb : b.sign_ <;> simp_all
    all_goals omega
  have hval : val a.data_ = val b.data_ := by
    unfold toInt at h
    rw [hsign] at h
    split at h <;> omega
  have hdata := normalized_val_inj _ _ ha.1 hb.1 hval
  cases a; cases b
  simp only at hsign hdata
  rw [hsign, hdata]

theorem compare_to_cases (a b : big_integer) (ha : canonical a) (hb : canonical b) :
    (compare_to a b = LESS ↔ toInt a < toInt b) ∧
      (compare_to a b = EQUAL ↔ toInt a = toInt b) ∧
      (compare_to a b = GREATER ↔ toInt a > toInt b) := by
  rw [compare_to_spec a b ha hb]
  by_cases h1 : toInt a < toInt b
  · have h2 : ¬ toInt a = toInt b := by omega
    have h3 : ¬ toInt a > toInt b := by omega
    simp [h1, h2]; omega
  · by_cases h2 : toInt a > toInt b
    · have h3 : ¬ toInt a = toInt b := by omega
      simp [h1, h2, h3]
    · have h3 : toInt a = toInt b := by omega
      simp [h3]

theorem le_spec (a b : big_integer) (ha : canonical a) (hb : canonical b) :
    a.le b = decide (toInt a ≤ toInt b) := by
  obtain ⟨_, _, h3⟩ := compare_to_cases a b ha hb
  unfold big_integer.le
  by_cases h : toInt a ≤ toInt b
  · have : ¬ compare_to a b = GREATER := by rw [h3]; omega
    simp [this, h]
  · have : compare_to a b = GREATER := by rw [h3]; omega
    simp [this, h]

theorem ge_spec (a b : big_integer) (ha : canonical a) (hb : canonical b) :
    a.ge b = decide (toInt a ≥ toInt b) := by
  obtain ⟨h1, _, _⟩ := compare_to_cases a b ha hb
  unfold big_integer.ge
  by_cases h : toInt a ≥ toInt b
  · have : ¬ compare_to a b = LESS := by rw [h1]; omega
    simp [this, h]
  · have : compare_to a b = LESS := by rw [h1]; omega
    simp [this, h]

theorem eq_spec (a b : big_integer) (ha : canonical a) (hb : canonical b) :
    a.eq b = decide (toInt a = toInt b) := by
  obtain ⟨_, h2, _⟩ := compare_to_cases a b ha hb
  unfold big_integer.eq
  by_cases h : toInt a = toInt b
  · have : compare_to a b = EQUAL := by rw [h2]; exact h
    simp [this, h]
  · have : ¬ compare_to a b = EQUAL := by rw [h2]; exact h
    simp [this, h]

theorem ne_spec (a b : big_integer) (ha : canonical a) (hb : canonical b) :
    a.ne b = decide (toInt a ≠ toInt b) := by
  obtain ⟨_, h2, _⟩ := compare_to_cases a b ha hb
  unfold big_integer.ne
  by_cases h : toInt a = toInt b
  · have : compare_to a b = EQUAL := by rw [h2]; exact h
    simp [this, h]
  · have : ¬ compare_to a b = EQUAL := by rw [h2]; exact h
    simp [this, h]

/-! ## Single-limb `multiply` -/

theorem vset_of_lt (d : List Nat) (i v : Nat) (h : i < d.length) : vset d i v = d.set i v := by
  unfold vset
  rw [if_neg (by omega)]

theorem limb_set (d : List Nat) (i v j : Nat) (h : i < d.length) :
    limb (d.set i v) j = if j = i then v else limb d j := by
  rw [← vset_of_lt d i v h, limb_vset]

theorem valN_set_lt (d : List Nat) (i v n : Nat) (h : n ≤ i) :
    valN (d.set i v) n = valN d n := by
  apply valN_congr
  intro j hj
  by_cases hi : i < d.length
  · rw [limb_set d i v j hi, if_neg (by omega)]
  · rw [List.set_eq_of_length_le (by omega)]

theorem valN_set_succ (d : List Nat) (i v : Nat) (h : i < d.length) :
    valN (d.set i v) (i + 1) = valN d i + v * 2 ^ (32 * i) := by
  rw [valN, valN_set_lt d i v i (le_refl _), limb_set d i v i h, if_pos rfl]

theorem valN_eq_of_zero (d : List Nat) (n : Nat) (h : ∀ t, n ≤ t → limb d t = 0) :
    ∀ k, valN d (n + k) = valN d n := by
  intro k
  induction k with
  | zero => rfl
  | succ k ih =>
    rw [← Nat.add_assoc, valN, ih, h (n + k) (by omega)]
    simp

theorem multiply_loop_inv (a : List Nat) (rhs : Nat) (ha : limbs_ok a) (hr : rhs < 2 ^ 32) :
    ∀ (k i : Nat) (d : List Nat) (c : Nat),
      valN d i + c * 2 ^ (32 * i) = valN a i * rhs →
      (∀ j, i ≤ j → limb d j = limb a j) → (∀ j, limb d j < 2 ^ 32) → c < 2 ^ 32 →
      d.length = a.length → i + k ≤ a.length →
      valN (multiply_loop rhs k i d c).1 (i + k)
          + (multiply_loop rhs k i d c).2 * 2 ^ (32 * (i + k)) = valN a (i + k) * rhs ∧
        (∀ j, limb (multiply_loop rhs k i d c).1 j < 2 ^ 32) ∧
        (multiply_loop rhs k i d c).2 < 2 ^ 32 ∧
        (multiply_loop rhs k i d c).1.length = a.length := by
  intro k
  induction k with
  | zero =>
    intro i d c h1 _ h3 h4 h5 _
    exact ⟨h1, h3, h4, h5⟩
  | succ k ih =>
    intro i d c h1 h2 h3 h4 h5 h6
    have hai := limb_lt a ha i
    have hdi : d.getD i 0 = limb a i := h2 i (le_refl _)
    have hprod : limb a i * rhs ≤ (2 ^ 32 - 1) * (2 ^ 32 - 1) :=
      Nat.mul_le_mul (by omega) (by omega)
    have hres : (c + (d.getD i 0 * rhs) % 2 ^ 64) % 2 ^ 64 = c + limb a i * rhs := by
      rw [hdi]
      have e1 : (limb a i * rhs) % 2 ^ 64 = limb a i * rhs := Nat.mod_eq_of_lt (by omega)
      rw [e1]
      exact Nat.mod_eq_of_lt (by omega)
    have e : i + 1 + k = i + (k + 1) := by omega
    simp only [multiply_loop, hres]
    rw [← e]
    apply ih
    · rw [valN_set_succ d i _ (by omega), valN, pow32_succ]
      unfold get_low32 get_high32
      have hdm := Nat.div_add_mod (c + limb a i * rhs) (2 ^ 32)
      generalize (c + limb a i * rhs) / 2 ^ 32 = q at *
      generalize (c + limb a i * rhs) % 2 ^ 32 = r at *
      generalize 2 ^ (32 * i) = P at *
      have : (r + 2 ^ 32 * q) * P = (c + limb a i * rhs) * P := by
        rw [← hdm]; ring
      have e2 : (valN a i + limb a i * P) * rhs = valN a i * rhs + limb a i * rhs * P := by ring
      rw [e2, ← h1]
      linarith
    · intro j hj
      rw [limb_set d i _ j (by omega), if_neg (by omega)]
      exact h2 j (by omega)
    · intro j
      rw [limb_set d i _ j (by omega)]
      split
      · unfold get_low32; omega
      · exact h3 j
    · unfold get_high32; omega
    · rw [List.length_set, h5]
    · omega

/-- Single-limb multiplication: `multiply` is exact, and its result is in normal form. -/
theorem multiply_spec (a : big_integer) (rhs : Nat) (ha : limbs_ok a.data_)
    (hr : rhs < 2 ^ 32) :
    normalized (multiply a rhs).data_ ∧ val (multiply a rhs).data_ = val a.data_ * rhs ∧
      (multiply a rhs).sign_ = (a.sign_ && decide (val a.data_ * rhs ≠ 0)) ∧
      (multiply a rhs).data_.length ≤ a.data_.length + 1 := by
  obtain ⟨h1, h2, h3, h4⟩ := multiply_loop_inv a.data_ rhs ha hr a.data_.length 0 a.data_ 0
    (by simp [valN]) (fun _ _ => rfl) (fun j => limb_lt _ ha j) (by omega) rfl (by omega)
  simp only [Nat.zero_add] at h1
  rw [← val_eq_valN] at h1
  unfold multiply
  simp only
  generalize multiply_loop rhs a.data_.length 0 a.data_ 0 = r at *
  have hv : valN r.1 a.data_.length = val r.1 := by rw [val_eq_valN, h4]
  rw [hv] at h1
  have hok := limbs_ok_of_limb _ h2
  by_cases hc : r.2 = 0
  · simp only [hc, ne_eq, not_true_eq_false, if_false]
    rw [hc] at h1
    simp only [Nat.zero_mul, Nat.add_zero] at h1
    obtain ⟨k1, k2, k3, k4⟩ := delete_leading_zeroes_spec { data_ := r.1, sign_ := a.sign_ } hok
    simp only at k2 k3 k4
    refine ⟨k1, by rw [k2, h1], by rw [k3, h1], ?_⟩
    rw [h4] at k4; omega
  · simp only [hc, ne_eq, not_false_eq_true, if_true]
    have hval : val (r.1 ++ [r.2]) = val a.data_ * rhs := by
      rw [val_append, h4, ← h1]
      simp [val]; ring
    refine ⟨⟨by simp, ?_, Or.inr ?_⟩, hval, ?_, by simp [h4]⟩
    · rw [limbs_ok_append]
      refine ⟨hok, ?_⟩
      intro x hx
      simp at hx; omega
    · simp [hc]
    · have hp : 0 < r.2 * 2 ^ (32 * a.data_.length) :=
        Nat.mul_pos (Nat.pos_of_ne_zero hc) (by positivity)
      have : val a.data_ * rhs ≠ 0 := by omega
      simp [this]

/-! ## Schoolbook multiplication, `operator*=` -/

theorem valN_of_ge_index (d : List Nat) (n k : Nat) (h : ∀ t, n ≤ t → limb d t = 0)
    (hk : n ≤ k) : valN d k = valN d n := by
  have := valN_eq_of_zero d n h (k - n)
  rwa [Nat.add_sub_cancel' hk] at this

theorem mul_inner_inv (ai : Nat) (rhs : List Nat) (i L : Nat) (res0 : List Nat)
    (hai : ai < 2 ^ 32) (hr : limbs_ok rhs) (hL : i + rhs.length < L)
    (hz : ∀ t, i + rhs.length ≤ t → limb res0 t = 0) :
    ∀ (fuel j c : Nat) (res : List Nat),
      rhs.length + 1 ≤ fuel + j → j ≤ rhs.length + 1 → (rhs.length < j → c = 0) →
      valN res (i + j) + c * 2 ^ (32 * (i + j))
          = valN res0 (i + j) + ai * valN rhs j * 2 ^ (32 * i) →
      (∀ t, i + j ≤ t → limb res t = limb res0 t) → (∀ t, limb res t < 2 ^ 32) →
      c < 2 ^ 32 → res.length = L →
      ∃ res', mul_inner ai rhs i fuel j c res = some res' ∧ res'.length = L ∧
        (∀ t, limb res' t < 2 ^ 32) ∧
        valN res' L = valN res0 L + ai * val rhs * 2 ^ (32 * i) ∧
        (∀ t, i + rhs.length + 1 ≤ t → limb res' t = 0) := by
  have hexit : ∀ (j : Nat) (res : List Nat), rhs.length ≤ j → j ≤ rhs.length + 1 →
      valN res (i + j) = valN res0 (i + j) + ai * valN rhs j * 2 ^ (32 * i) →
      (∀ t, i + j ≤ t → limb res t = limb res0 t) →
      valN res L = valN res0 L + ai * val rhs * 2 ^ (32 * i) ∧
        (∀ t, i + rhs.length + 1 ≤ t → limb res t = 0) := by
    intro j res hj1 hj2 hv hl
    have hz' : ∀ t, i + j ≤ t → limb res t = 0 := by
      intro t ht
      rw [hl t ht]
      exact hz t (by omega)
    constructor
    · rw [valN_of_ge_index res (i + j) L hz' (by omega),
        valN_of_ge_index res0 (i + j) L (fun t ht => hz t (by omega)) (by omega), hv,
        valN_of_ge rhs j hj1]
    · intro t ht
      exact hz' t (by omega)
  intro fuel
  induction fuel with
  | zero =>
    intro j c res hf hj hc hv hl hlt _ hlen
    have hj' : j = rhs.length + 1 := by omega
    have hc0 : c = 0 := hc (by omega)
    refine ⟨res, ?_, hlen, hlt, ?_⟩
    · simp only [mul_inner]
      rw [if_neg (by omega)]
    · rw [hc0] at hv
      simp only [Nat.zero_mul, Nat.add_zero] at hv
      exact hexit j res (by omega) hj hv hl
  | succ fuel ih =>
    intro j c res hf hj hc hv hl hlt hc32 hlen
    by_cases hcond : j < rhs.length ∨ c > 0
    · have hjm : j ≤ rhs.length := by
        by_contra hcon
        have := hc (by omega)
        omega
      have hin : i + j < res.length := by omega
      have hrj := limb_lt rhs hr j
      have hres0 : limb res0 (i + j) < 2 ^ 32 := by rw [← hl (i + j) (le_refl _)]; exact hlt _
      have hprod : ai * limb rhs j ≤ (2 ^ 32 - 1) * (2 ^ 32 - 1) :=
        Nat.mul_le_mul (by omega) (by omega)
      have e1 : rhs.getD j 0 = limb rhs j := rfl
      have e2 : res.getD (i + j) 0 = limb res0 (i + j) := hl (i + j) (le_refl _)
      have hmod : (ai * rhs.getD j 0 + c + res.getD (i + j) 0) % 2 ^ 64
          = ai * limb rhs j + c + limb res0 (i + j) := by
        rw [e1, e2]
        exact Nat.mod_eq_of_lt (by omega)
      simp only [mul_inner]
      rw [if_pos hcond, if_pos hin, hmod]
      have e3 : i + (j + 1) = i + j + 1 := by omega
      apply ih
      · omega
      · omega
      · intro hj2
        have hjeq : j = rhs.length := by omega
        have hl0 : limb rhs j = 0 := limb_of_ge rhs j (by omega)
        have hr0 : limb res0 (i + j) = 0 := hz (i + j) (by omega)
        rw [hl0, hr0]
        unfold get_high32
        simp only [Nat.mul_zero, Nat.zero_add, Nat.add_zero]
        exact Nat.div_eq_of_lt hc32
      · rw [e3, valN_set_succ res (i + j) _ hin, valN, valN, pow32_succ]
        unfold get_low32 get_high32
        have hdm := Nat.div_add_mod (ai * limb rhs j + c + limb res0 (i + j)) (2 ^ 32)
        generalize (ai * limb rhs j + c + limb res0 (i + j)) / 2 ^ 32 = q at *
        generalize (ai * limb rhs j + c + limb res0 (i + j)) % 2 ^ 32 = r at *
        have hpow : 2 ^ (32 * (i + j)) = 2 ^ (32 * j) * 2 ^ (32 * i) := by
          rw [← pow_add]; ring_nf
        have : (r + 2 ^ 32 * q) * 2 ^ (32 * (i + j))
            = (ai * limb rhs j + c + limb res0 (i + j)) * 2 ^ (32 * (i + j)) := by
          rw [← hdm]; ring
        have e4 : ai * (valN rhs j + limb rhs j * 2 ^ (32 * j)) * 2 ^ (32 * i)
            = ai * valN rhs j * 2 ^ (32 * i) + ai * limb rhs j * 2 ^ (32 * (i + j)) := by
          rw [hpow]; ring
        rw [e4]
        linarith
      · intro t ht
        rw [limb_set res (i + j) _ t hin, if_neg (by omega)]
        exact hl t (by omega)
      · intro t
        rw [limb_set res (i + j) _ t hin]
        split
        · unfold get_low32; omega
        · exact hlt t
      · unfold get_high32; omega
      · rw [List.length_set, hlen]
    · have hjm : rhs.length ≤ j := by omega
      have hc0 : c = 0 := by omega
      refine ⟨res, ?_, hlen, hlt, ?_⟩
      · simp only [mul_inner]
        rw [if_neg hcond]
      · rw [hc0] at hv
        simp only [Nat.zero_mul, Nat.add_zero] at hv
        exact hexit j res hjm hj hv hl

theorem mul_outer_inv (a rhs : List Nat) (ha : limbs_ok a) (hr : limbs_ok rhs) (L : Nat)
    (hL : L = a.length + rhs.length) :
    ∀ (k i : Nat) (res : List Nat), i + k = a.length → res.length = L →
      (∀ t, limb res t < 2 ^ 32) → valN res L = valN a i * val rhs →
      (∀ t, i + rhs.length ≤ t → limb res t = 0) →
      ∃ res', mul_outer a rhs k i res = some res' ∧ res'.length = L ∧
        (∀ t, limb res' t < 2 ^ 32) ∧ valN res' L = val a * val rhs := by
  intro k
  induction k with
  | zero =>
    intro i res hi hlen hlt hv _
    refine ⟨res, rfl, hlen, hlt, ?_⟩
    rw [hv, val_eq_valN a]
    have : i = a.length := by omega
    rw [this]
  | succ k ih =>
    intro i res hi hlen hlt hv hz
    have hai := limb_lt a ha i
    obtain ⟨r1, h1, h2, h3, h4, h5⟩ := mul_inner_inv (limb a i) rhs i L res hai hr (by omega) hz
      L 0 0 res (by omega) (by omega) (by omega) (by simp [valN]) (fun _ _ => rfl) hlt
      (by norm_num) hlen
    have e1 : a.getD i 0 = limb a i := rfl
    simp only [mul_outer, e1, hlen, h1, Option.some_bind]
    apply ih (i + 1) r1 (by omega) h2 h3
    · rw [h4, hv, valN]; ring
    · intro t ht
      exact h5 t (by omega)

theorem limb_replicate_zero (n t : Nat) : limb (List.replicate n 0) t = 0 := by
  unfold limb
  rw [List.getD_eq_getElem?_getD, List.getElem?_replicate]
  split <;> rfl

theorem valN_replicate_zero (n k : Nat) : valN (List.replicate n 0) k = 0 := by
  induction k with
  | zero => rfl
  | succ k ih => rw [valN, ih, limb_replicate_zero]; simp

/-- The schoolbook loops stay inside the buffer and leave the product in it. -/
theorem mul_outer_spec (a rhs : List Nat) (ha : limbs_ok a) (hr : limbs_ok rhs) :
    ∃ d, mul_outer a rhs a.length 0 (List.replicate (a.length + rhs.length) 0) = some d ∧
      d.length = a.length + rhs.length ∧ limbs_ok d ∧ val d = val a * val rhs := by
  obtain ⟨d, h1, h2, h3, h4⟩ := mul_outer_inv a rhs ha hr (a.length + rhs.length) rfl a.length 0
    (List.replicate (a.length + rhs.length) 0) (by omega) (by simp)
    (fun t => by rw [limb_replicate_zero]; norm_num)
    (by rw [valN_replicate_zero]; simp [valN]) (fun t _ => limb_replicate_zero _ t)
  refine ⟨d, h1, h2, limbs_ok_of_limb _ h3, ?_⟩
  rw [val_eq_valN, h2, h4]

theorem mul_assign_spec (a b : big_integer) (ha : normalized a.data_)
    (hb : normalized b.data_) :
    ∃ r, mul_assign a b = some r ∧ canonical r ∧ val r.data_ = val a.data_ * val b.data_ ∧
      r.sign_ = (xor a.sign_ b.sign_ && decide (val a.data_ * val b.data_ ≠ 0)) ∧
      toInt r = toInt a * toInt b := by
  obtain ⟨d, h1, h2, h3, h4⟩ := mul_outer_spec a.data_ b.data_ ha.2.1 hb.2.1
  have hla := normalized_length_pos _ ha
  have hlb := normalized_length_pos _ hb
  have hne : big_integer.ne { data_ := d, sign_ := false } ZERO = true := by
    unfold big_integer.ne compare_to
    have h5 : 1 < d.length := by omega
    have h6 : ¬ d = [] := by intro h; rw [h] at h5; simp at h5
    simp [ZERO_eq, h5, h6]
  obtain ⟨k1, k2, k3, _⟩ := delete_leading_zeroes_spec
    { data_ := d, sign_ := xor a.sign_ b.sign_ && true } h3
  simp only [Bool.and_true] at k1 k2 k3
  have hres : mul_assign a b
      = some (delete_leading_zeroes { data_ := d, sign_ := xor a.sign_ b.sign_ }) := by
    unfold mul_assign
    simp only [h1, Option.map_some', hne, Bool.and_true]
  refine ⟨_, hres, ⟨k1, ?_⟩, by rw [k2, h4], by rw [k3, h4], ?_⟩
  · intro h0
    have hv : val (delete_leading_zeroes { data_ := d, sign_ := xor a.sign_ b.sign_ }).data_ = 0 := by
      rw [h0]; rfl
    rw [k3]
    rw [k2] at hv
    simp [hv]
  · unfold toInt
    rw [k3, k2, h4]
    by_cases hz : val a.data_ * val b.data_ = 0
    · rw [hz]
      have : (val a.data_ : Int) * (val b.data_ : Int) = 0 := by exact_mod_cast hz
      cases a.sign_ <;> cases b.sign_ <;> simp [this]
    · cases a.sign_ <;> cases b.sign_ <;> simp [hz]

/-! ## Single-limb `divide` -/

theorem valN_set (d : List Nat) (i v : Nat) (h : i < d.length) :
    ∀ k, valN (d.set i v) (i + 1 + k) + limb d i * 2 ^ (32 * i)
      = valN d (i + 1 + k) + v * 2 ^ (32 * i) := by
  intro k
  induction k with
  | zero =>
    rw [Nat.add_zero, valN_set_succ d i v h, valN]
    ring
  | succ k ih =>
    rw [← Nat.add_assoc, valN, valN, limb_set d i v _ h, if_neg (by omega)]
    linarith

theorem divide_loop_inv (a : List Nat) (rhs : Nat) (ha : limbs_ok a) (hr : rhs < 2 ^ 32)
    (hr0 : 0 < rhs) :
    ∀ (i : Nat) (d : List Nat) (c : Nat), i ≤ a.length → d.length = a.length →
      (∀ j, j < i → limb d j = limb a j) → (∀ j, limb d j < 2 ^ 32) → c < rhs →
      valN a a.length + valN a i * rhs
          = valN a i + valN d a.length * rhs + c * 2 ^ (32 * i) →
      (divide_loop rhs i d c).1.length = a.length ∧
        (∀ j, limb (divide_loop rhs i d c).1 j < 2 ^ 32) ∧ (divide_loop rhs i d c).2 < rhs ∧
        valN a a.length
          = valN (divide_loop rhs i d c).1 a.length * rhs + (divide_loop rhs i d c).2 := by
  intro i
  induction i with
  | zero =>
    intro d c _ hlen _ hlt hc hv
    refine ⟨hlen, hlt, hc, ?_⟩
    simp only [valN, Nat.zero_mul, Nat.mul_zero, pow_zero, Nat.mul_one, Nat.zero_add,
      Nat.add_zero] at hv
    exact hv
  | succ i ih =>
    intro d c hi hlen heq hlt hc hv
    have hai := limb_lt a ha i
    have hdi : d.getD i 0 = limb a i := heq i (by omega)
    have hc1 : ((c * 2 ^ 32) % 2 ^ 64 + d.getD i 0) % 2 ^ 64 = c * 2 ^ 32 + limb a i := by
      rw [hdi]; omega
    have hq : (c * 2 ^ 32 + limb a i) / rhs < 2 ^ 32 := by
      apply Nat.div_lt_of_lt_mul
      have : (c + 1) * 2 ^ 32 ≤ rhs * 2 ^ 32 := Nat.mul_le_mul_right _ (by omega)
      omega
    have hlow : get_low32 ((c * 2 ^ 32 + limb a i) / rhs) = (c * 2 ^ 32 + limb a i) / rhs :=
      Nat.mod_eq_of_lt hq
    simp only [divide_loop, hc1, hlow]
    have hdm := Nat.div_add_mod (c * 2 ^ 32 + limb a i) rhs
    generalize (c * 2 ^ 32 + limb a i) / rhs = q at *
    have hcm : (c * 2 ^ 32 + limb a i) % rhs < rhs := Nat.mod_lt _ hr0
    generalize (c * 2 ^ 32 + limb a i) % rhs = c' at *
    apply ih (d.set i q) c' (by omega) (by rw [List.length_set, hlen])
    · intro j hj
      rw [limb_set d i q j (by omega), if_neg (by omega)]
      exact heq j (by omega)
    · intro j
      rw [limb_set d i q j (by omega)]
      split
      · exact hq
      · exact hlt j
    · exact hcm
    · have hset := valN_set d i q (by omega) (a.length - (i + 1))
      have e : i + 1 + (a.length - (i + 1)) = a.length := by omega
      rw [e, heq i (by omega)] at hset
      rw [valN, pow32_succ] at hv
      generalize valN (d.set i q) a.length = D' at *
      generalize valN d a.length = D at *
      generalize valN a a.length = X at *
      generalize valN a i = Ai at *
      generalize limb a i = ai at *
      generalize 2 ^ (32 * i) = P at *
      zify at hv hset hdm ⊢
      linear_combination hv - (rhs : Int) * hset - (P : Int) * hdm

/-- Single-limb division: `divide` leaves the quotient in normal form and returns the
remainder. -/
theorem divide_spec (a : big_integer) (rhs : Nat) (ha : limbs_ok a.data_) (hr : rhs < 2 ^ 32)
    (hr0 : 0 < rhs) :
    normalized (divide a rhs).1.data_ ∧ val (divide a rhs).1.data_ = val a.data_ / rhs ∧
      (divide a rhs).2 = val a.data_ % rhs ∧
      (divide a rhs).1.sign_ = (a.sign_ && decide (val a.data_ / rhs ≠ 0)) ∧
      (divide a rhs).1.data_.length ≤ max a.data_.length 1 := by
  obtain ⟨h1, h2, h3, h4⟩ := divide_loop_inv a.data_ rhs ha hr hr0 a.data_.length a.data_ 0
    (le_refl _) rfl (fun _ _ => rfl) (fun j => limb_lt _ ha j) hr0 (by ring)
  unfold divide
  simp only
  generalize divide_loop rhs a.data_.length a.data_ 0 = r at *
  rw [← val_eq_valN] at h4
  have hv : valN r.1 a.data_.length = val r.1 := by rw [val_eq_valN, h1]
  rw [hv] at h4
  have hq : val r.1 = val a.data_ / rhs := by
    rw [h4, Nat.mul_comm, Nat.mul_add_div hr0, Nat.div_eq_of_lt h3]; simp
  have hm : r.2 = val a.data_ % rhs := by
    rw [h4, Nat.mul_comm, Nat.mul_add_mod, Nat.mod_eq_of_lt h3]
  obtain ⟨k1, k2, k3, k4⟩ := delete_leading_zeroes_spec { data_ := r.1, sign_ := a.sign_ }
    (limbs_ok_of_limb _ h2)
  simp only at k2 k3 k4
  refine ⟨k1, by rw [k2, hq], ?_, by rw [k3, hq], by rw [h1] at k4; exact k4⟩
  rw [← hm]
  exact Nat.mod_eq_of_lt (by omega)

/-! ## Limb shifts -/

theorem limb_vswap (d : List Nat) (i j t : Nat) (hi : i < d.length) (hj : j < d.length) :
    limb (vswap d i j) t = if t = j then limb d i else if t = i then limb d j else limb d t := by
  unfold vswap
  rw [limb_set _ j _ t (by rw [List.length_set]; exact hj)]
  by_cases h1 : t = j
  · rw [if_pos h1, if_pos h1]; rfl
  · rw [if_neg h1, if_neg h1, limb_set d i _ t hi]
    rfl

theorem vswap_length (d : List Nat) (i j : Nat) : (vswap d i j).length = d.length := by
  unfold vswap
  rw [List.length_set, List.length_set]

theorem shl_loop_inv (a : List Nat) (z : Nat) (hz : 1 ≤ z) :
    ∀ (i : Nat) (d : List Nat), d.length = a.length + z → i ≤ a.length →
      (∀ j, j < i → limb d j = limb a j) → (∀ j, i ≤ j → j < i + z → limb d j = 0) →
      (∀ j, i + z ≤ j → limb d j = limb a (j - z)) →
      (shl_loop z i d).length = a.length + z ∧
        ∀ j, limb (shl_loop z i d) j = if j < z then 0 else limb a (j - z) := by
  intro i
  induction i with
  | zero =>
    intro d hlen _ _ h2 h3
    refine ⟨hlen, ?_⟩
    intro j
    by_cases hj : j < z
    · rw [if_pos hj]; exact h2 j (by omega) (by omega)
    · rw [if_neg hj]; exact h3 j (by omega)
  | succ i ih =>
    intro d hlen hi h1 h2 h3
    simp only [shl_loop]
    have hsw := fun t => limb_vswap d i (i + z) t (by omega) (by omega)
    apply ih (vswap d i (i + z)) (by rw [vswap_length, hlen]) (by omega)
    · intro j hj
      rw [hsw, if_neg (by omega), if_neg (by omega)]
      exact h1 j (by omega)
    · intro j hj1 hj2
      rw [hsw, if_neg (by omega)]
      by_cases hji : j = i
      · rw [if_pos hji]; exact h2 (i + z) (by omega) (by omega)
      · rw [if_neg hji]; exact h2 j (by omega) (by omega)
    · intro j hj
      rw [hsw]
      by_cases hji : j = i + z
      · rw [if_pos hji, hji, Nat.add_sub_cancel]; exact h1 i (by omega)
      · rw [if_neg hji, if_neg (by omega)]; exact h3 j (by omega)

theorem limb_append_replicate (a : List Nat) (z j : Nat) :
    limb (a ++ List.replicate z 0) j = limb a j := by
  unfold limb
  rw [List.getD_eq_getElem?_getD, List.getD_eq_getElem?_getD]
  by_cases hj : j < a.length
  · rw [List.getElem?_append_left hj]
  · rw [List.getElem?_append_right (by omega), List.getElem?_eq_none (l := a) (by omega),
      List.getElem?_replicate]
    split <;> rfl

theorem valN_shifted (a r : List Nat) (z : Nat)
    (h : ∀ j, limb r j = if j < z then 0 else limb a (j - z)) :
    ∀ k, valN r (z + k) = 2 ^ (32 * z) * valN a k := by
  have h0 : ∀ m, m ≤ z → valN r m = 0 := by
    intro m
    induction m with
    | zero => intro _; rfl
    | succ m ih =>
      intro hm
      rw [valN, ih (by omega), h m, if_pos (by omega)]
      simp
  intro k
  induction k with
  | zero => rw [Nat.add_zero, h0 z (le_refl _)]; simp [valN]
  | succ k ih =>
    rw [← Nat.add_assoc, valN, ih, h (z + k), if_neg (by omega), Nat.add_sub_cancel_left, valN]
    have : 2 ^ (32 * (z + k)) = 2 ^ (32 * z) * 2 ^ (32 * k) := by rw [← pow_add]; ring_nf
    rw [this]; ring

/-- The limb loop of `operator<<=` multiplies the magnitude by `2 ^ (32 * zeroes)`. -/
theorem shl_limbs_spec (a : List Nat) (z : Nat) (hz : z ≠ 0) (ha : limbs_ok a) :
    val (shl_loop z ((a ++ List.replicate z 0).length - z) (a ++ List.replicate z 0))
        = val a * 2 ^ (32 * z) ∧
      limbs_ok (shl_loop z ((a ++ List.replicate z 0).length - z) (a ++ List.replicate z 0)) := by
  have hlen : (a ++ List.replicate z 0).length - z = a.length := by simp
  rw [hlen]
  obtain ⟨h1, h2⟩ := shl_loop_inv a z (by omega) a.length (a ++ List.replicate z 0) (by simp)
    (le_refl _) (fun j _ => limb_append_replicate a z j)
    (fun j hj _ => by rw [limb_append_replicate]; exact limb_of_ge a j hj)
    (fun j hj => by
      rw [limb_append_replicate, limb_of_ge a j (by omega), limb_of_ge a (j - z) (by omega)])
  constructor
  · rw [val_eq_valN, h1, Nat.add_comm, valN_shifted a _ z h2, ← val_eq_valN, Nat.mul_comm]
  · apply limbs_ok_of_limb
    intro j
    rw [h2]
    split
    · norm_num
    · exact limb_lt a ha _

theorem pow_split (k : Nat) : 2 ^ k = 2 ^ (32 * (k / 32)) * 2 ^ (k % 32) := by
  rw [← pow_add, Nat.div_add_mod]

theorem pow_mod_lt (k : Nat) : 2 ^ (k % 32) < 2 ^ 32 :=
  Nat.pow_lt_pow_right (by norm_num) (Nat.mod_lt _ (by norm_num))

/-- Operator `<<=` multiplies the magnitude by `2 ^ rhs`. -/
theorem shl_assign_spec (a : big_integer) (k : Nat) (ha : limbs_ok a.data_) :
    normalized (shl_assign a k).data_ ∧ val (shl_assign a k).data_ = val a.data_ * 2 ^ k ∧
      (shl_assign a k).sign_ = (a.sign_ && decide (val a.data_ ≠ 0)) := by
  unfold shl_assign
  simp only [BASE]
  rw [Nat.mod_eq_of_lt (pow_mod_lt k)]
  have hpos : 2 ^ (k % 32) ≠ 0 := by positivity
  by_cases hz : k / 32 = 0
  · simp only [hz, ne_eq, not_true_eq_false, if_false]
    obtain ⟨h1, h2, h3, _⟩ := multiply_spec { data_ := a.data_, sign_ := a.sign_ } (2 ^ (k % 32)) ha
      (pow_mod_lt k)
    simp only at h2 h3
    refine ⟨h1, ?_, ?_⟩
    · rw [h2]
      conv_rhs => rw [pow_split k, hz]
      simp
    · rw [h3]
      simp [hpos]
  · simp only [hz, ne_eq, not_false_eq_true, if_true]
    obtain ⟨k1, k2⟩ := shl_limbs_spec a.data_ (k / 32) hz ha
    generalize shl_loop (k / 32) ((a.data_ ++ List.replicate (k / 32) 0).length - k / 32)
      (a.data_ ++ List.replicate (k / 32) 0) = d at *
    obtain ⟨h1, h2, h3, _⟩ := multiply_spec { data_ := d, sign_ := a.sign_ } (2 ^ (k % 32)) k2
      (pow_mod_lt k)
    simp only at h2 h3
    refine ⟨h1, ?_, ?_⟩
    · rw [h2, k1]
      conv_rhs => rw [pow_split k]
      ring
    · rw [h3, k1]
      have hp2 : 2 ^ (32 * (k / 32)) ≠ 0 := by positivity
      simp [hpos, hp2]

theorem shr_loop_inv (a : List Nat) (del : Nat) (hdel : 1 ≤ del) :
    ∀ (k i : Nat) (d : List Nat), d.length = a.length → i + k + del = a.length →
      (∀ j, j < i → limb d j = limb a (j + del)) → (∀ j, i + del ≤ j → limb d j = limb a j) →
      (shr_loop del k i d).length = a.length ∧
        ∀ j, j < a.length - del → limb (shr_loop del k i d) j = limb a (j + del) := by
  intro k
  induction k with
  | zero =>
    intro i d hlen hi h1 _
    exact ⟨hlen, fun j hj => h1 j (by omega)⟩
  | succ k ih =>
    intro i d hlen hi h1 h2
    simp only [shr_loop]
    have hsw := fun t => limb_vswap d i (i + del) t (by omega) (by omega)
    apply ih (i + 1) (vswap d i (i + del)) (by rw [vswap_length, hlen]) (by omega)
    · intro j hj
      rw [hsw, if_neg (by omega)]
      by_cases hji : j = i
      · rw [if_pos hji, hji]; exact h2 (i + del) (le_refl _)
      · rw [if_neg hji]; exact h1 j (by omega)
    · intro j hj
      rw [hsw, if_neg (by omega), if_neg (by omega)]
      exact h2 j (by omega)

theorem limb_take (d : List Nat) (m j : Nat) :
    limb (d.take m) j = if j < m then limb d j else 0 := by
  unfold limb
  rw [List.getD_eq_getElem?_getD, List.getD_eq_getElem?_getD, List.getElem?_take]
  split <;> rfl

theorem valN_dropped (a r : List Nat) (del : Nat) (m : Nat)
    (h : ∀ j, j < m → limb r j = limb a (j + del)) :
    ∀ k, k ≤ m → valN a (del + k) = valN a del + 2 ^ (32 * del) * valN r k := by
  intro k
  induction k with
  | zero => intro _; simp [valN]
  | succ k ih =>
    intro hk
    rw [← Nat.add_assoc, valN, ih (by omega), valN, h k (by omega), Nat.add_comm k del]
    have : 2 ^ (32 * (del + k)) = 2 ^ (32 * del) * 2 ^ (32 * k) := by rw [← pow_add]; ring_nf
    rw [this]; ring

/-- The limb loop of `operator>>=` and the pops after it divide the magnitude by
`2 ^ (32 * del)`. -/
theorem shr_limbs_spec (a : List Nat) (del : Nat) (hdel : del ≠ 0) (hlt : del < a.length)
    (ha : limbs_ok a) :
    val ((shr_loop del (a.length - del) 0 a).take ((shr_loop del (a.length - del) 0 a).length - del))
        = val a / 2 ^ (32 * del) ∧
      limbs_ok ((shr_loop del (a.length - del) 0 a).take
        ((shr_loop del (a.length - del) 0 a).length - del)) := by
  obtain ⟨h1, h2⟩ := shr_loop_inv a del (by omega) (a.length - del) 0 a rfl (by omega)
    (fun j hj => absurd hj (by omega)) (fun _ _ => rfl)
  rw [h1]
  generalize shr_loop del (a.length - del) 0 a = d at *
  have hl : ∀ j, j < a.length - del → limb (d.take (a.length - del)) j = limb a (j + del) := by
    intro j hj
    rw [limb_take, if_pos hj]
    exact h2 j hj
  have hlen : (d.take (a.length - del)).length = a.length - del := by
    rw [List.length_take, h1]; omega
  have hv := valN_dropped a (d.take (a.length - del)) del (a.length - del) hl (a.length - del)
    (le_refl _)
  have e : del + (a.length - del) = a.length := by omega
  have hv' : valN (d.take (a.length - del)) (a.length - del) = val (d.take (a.length - del)) := by
    rw [val_eq_valN, hlen]
  rw [e, ← val_eq_valN, hv'] at hv
  constructor
  · rw [hv, Nat.add_mul_div_left _ _ (by positivity), Nat.div_eq_of_lt (valN_lt a ha del)]
    simp
  · apply limbs_ok_of_limb
    intro j
    rw [limb_take]
    split
    · rename_i hj
      rw [h2 j hj]; exact limb_lt a ha _
    · norm_num

/-- Operator `>>=` on a non-negative operand divides the magnitude by `2 ^ rhs`. -/
theorem shr_assign_spec_nonneg (a : big_integer) (k : Nat) (ha : normalized a.data_)
    (hs : a.sign_ = false) :
    canonical (shr_assign a k) ∧ (shr_assign a k).sign_ = false ∧
      val (shr_assign a k).data_ = val a.data_ / 2 ^ k := by
  obtain ⟨ad, sa⟩ := a
  simp only at ha hs
  subst hs
  unfold shr_assign
  simp only [BASE]
  rw [Nat.mod_eq_of_lt (pow_mod_lt k)]
  by_cases hge : k / 32 ≥ ad.length
  · rw [if_pos hge]
    refine ⟨ZERO_canonical, by decide, ?_⟩
    have h1 := val_lt ad ha.2.1
    have h2 : 2 ^ (32 * ad.length) ≤ 2 ^ k :=
      Nat.pow_le_pow_right (by norm_num) (by omega)
    rw [Nat.div_eq_of_lt (by omega)]
    decide
  · rw [if_neg hge]
    have key : ∀ d : List Nat, limbs_ok d → val d = val ad / 2 ^ (32 * (k / 32)) →
        canonical (if (divide { data_ := d, sign_ := false } (2 ^ (k % 32))).1.sign_ = true
          then sub_assign (divide { data_ := d, sign_ := false } (2 ^ (k % 32))).1 ONE
          else (divide { data_ := d, sign_ := false } (2 ^ (k % 32))).1) ∧
        (if (divide { data_ := d, sign_ := false } (2 ^ (k % 32))).1.sign_ = true
          then sub_assign (divide { data_ := d, sign_ := false } (2 ^ (k % 32))).1 ONE
          else (divide { data_ := d, sign_ := false } (2 ^ (k % 32))).1).sign_ = false ∧
        val (if (divide { data_ := d, sign_ := false } (2 ^ (k % 32))).1.sign_ = true
          then sub_assign (divide { data_ := d, sign_ := false } (2 ^ (k % 32))).1 ONE
          else (divide { data_ := d, sign_ := false } (2 ^ (k % 32))).1).data_
          = val ad / 2 ^ k := by
      intro d hd hv
      obtain ⟨h1, h2, _, h4, _⟩ := divide_spec { data_ := d, sign_ := false } (2 ^ (k % 32)) hd
        (pow_mod_lt k) (by positivity)
      simp only [Bool.false_and] at h2 h4
      rw [h4]
      simp only [Bool.false_eq_true, if_false]
      refine ⟨⟨h1, fun _ => h4⟩, h4, ?_⟩
      rw [h2, hv, Nat.div_div_eq_div_mul, ← pow_split]
    by_cases hz : k / 32 = 0
    · simp only [hz, ne_eq, not_true_eq_false, if_false]
      exact key ad ha.2.1 (by rw [hz]; simp)
    · simp only [hz, ne_eq, not_false_eq_true, if_true]
      obtain ⟨k1, k2⟩ := shr_limbs_spec ad (k / 32) hz (by omega) ha.2.1
      exact key _ k2 k1

/-! ## Long division, `operator/=` -/

theorem of_ull_spec (q : Nat) (hq : q < 2 ^ 64) :
    canonical (of_ull q) ∧ (of_ull q).sign_ = false ∧ val (of_ull q).data_ = q := by
  unfold of_ull big_integer.set
  by_cases h0 : q = 0
  · subst h0
    decide
  · simp only [h0, if_false]
    have hv0 : ∀ x, vset [] 0 x = [x] := by intro x; simp [vset]
    have hv1 : ∀ x y, vset [x] 1 y = [x, y] := by intro x y; simp [vset]
    have hdm := Nat.div_add_mod q (2 ^ 32)
    by_cases hh : get_high32 q = 0
    · simp only [hh, ne_eq, not_true_eq_false, if_false, hv0]
      unfold get_high32 at hh
      unfold get_low32
      have hlo : q % 2 ^ 32 ≠ 0 := by omega
      refine ⟨⟨⟨by simp, ?_, Or.inr (by simpa using hlo)⟩, fun _ => rfl⟩, trivial, ?_⟩
      · intro x hx; simp at hx; omega
      · simp only [val]; omega
    · simp only [hh, ne_eq, not_false_eq_true, if_true, hv0, hv1]
      unfold get_high32 at hh ⊢
      unfold get_low32
      refine ⟨⟨⟨by simp, ?_, Or.inr (by simpa using hh)⟩, fun h => by simp at h⟩, trivial, ?_⟩
      · intro x hx
        simp at hx
        rcases hx with hx | hx <;> omega
      · simp only [val]; omega

theorem canonical_nonneg_sign (a : big_integer) (ha : canonical a) (h : 0 ≤ toInt a) :
    a.sign_ = false := by
  cases hs : a.sign_
  · rfl
  · have := (sign_iff_neg a ha).mp hs
    omega

theorem getLastD_eq (d : List Nat) (h : d ≠ []) : d.getLastD 0 = d.getLast h := by
  cases d with
  | nil => exact absurd rfl h
  | cons x xs => rfl

/-- Bounds of a magnitude in terms of its top limb. -/
theorem top_limb_bounds (d : List Nat) (h : normalized d) :
    d.getLastD 0 * 2 ^ (32 * (d.length - 1)) ≤ val d ∧
      val d < (d.getLastD 0 + 1) * 2 ^ (32 * (d.length - 1)) ∧ d.getLastD 0 < 2 ^ 32 ∧
      (val d ≠ 0 → d.getLastD 0 ≠ 0) := by
  have hne := h.1
  rw [getLastD_eq d hne]
  have hv := val_dropLast d hne
  have hok : limbs_ok d.dropLast := fun x hx => h.2.1 x (List.dropLast_subset d hx)
  have hlt := val_lt d.dropLast hok
  rw [List.length_dropLast] at hlt
  have hl : d.getLast hne < 2 ^ 32 := h.2.1 _ (List.getLast_mem hne)
  refine ⟨?_, ?_, hl, ?_⟩
  · rw [hv, Nat.mul_comm]; omega
  · rw [hv, Nat.add_mul, Nat.mul_comm (d.getLast hne)]; omega
  · intro hv0 h0
    rcases h.2.2 with h3 | h3
    · rw [h3] at hv0; exact hv0 rfl
    · apply h3
      rw [List.getLast?_eq_getLast _ hne, h0]

theorem scale_factor_bounds (d0 : Nat) (h1 : 1 ≤ d0) (h2 : d0 < 2 ^ 32) :
    (2 ^ 32 / (d0 + 1)) % 2 ^ 32 = 2 ^ 32 / (d0 + 1) ∧ 1 ≤ 2 ^ 32 / (d0 + 1) ∧
      2 ^ 32 / (d0 + 1) ≤ 2 ^ 31 ∧ (d0 + 1) * (2 ^ 32 / (d0 + 1)) ≤ 2 ^ 32 := by
  have h3 : 2 ^ 32 / (d0 + 1) ≤ 2 ^ 32 / 2 := Nat.div_le_div_left (by omega) (by norm_num)
  have h4 : 1 ≤ 2 ^ 32 / (d0 + 1) := by
    rw [Nat.le_div_iff_mul_le (by omega)]; omega
  have h5 : (d0 + 1) * (2 ^ 32 / (d0 + 1)) ≤ 2 ^ 32 := Nat.mul_div_le _ _
  refine ⟨Nat.mod_eq_of_lt ?_, h4, ?_, h5⟩
  · have : (2 : Nat) ^ 32 / 2 = 2 ^ 31 := by norm_num
    omega
  · have : (2 : Nat) ^ 32 / 2 = 2 ^ 31 := by norm_num
    omega

/-- The scaled divisor is not longer than the scaled dividend, so the `size_t` difference
`data_.size() - len + 1` of `operator/=` does not wrap. -/
theorem div_scaled_length_le (a b : big_integer) (ha : canonical a) (hb : canonical b)
    (h1 : b.data_.length ≤ a.data_.length) (h2 : 2 ≤ b.data_.length) :
    (multiply b ((2 ^ 32 / (b.data_.getLastD 0 + 1)) % 2 ^ 32)).data_.length = b.data_.length ∧
      b.data_.length
        ≤ (multiply a ((2 ^ 32 / (b.data_.getLastD 0 + 1)) % 2 ^ 32)).data_.length := by
  have hbv := normalized_val_ge _ hb.1 h2
  have hav := normalized_val_ge _ ha.1 (by omega)
  have hp : 0 < 2 ^ (32 * (b.data_.length - 1)) := by positivity
  have hpa : 0 < 2 ^ (32 * (a.data_.length - 1)) := by positivity
  obtain ⟨t1, t2, t3, t4⟩ := top_limb_bounds b.data_ hb.1
  have hd0 := t4 (by omega)
  obtain ⟨f1, f2, f3, f4⟩ := scale_factor_bounds (b.data_.getLastD 0) (by omega) t3
  rw [f1]
  generalize 2 ^ 32 / (b.data_.getLastD 0 + 1) = f at *
  obtain ⟨p1, p2, _, _⟩ := multiply_spec a f ha.1.2.1 (by omega)
  obtain ⟨c1, c2, _, c4⟩ := multiply_spec b f hb.1.2.1 (by omega)
  have hCn : val (multiply b f).data_ < 2 ^ (32 * b.data_.length) := by
    rw [c2]
    have e : 2 ^ (32 * b.data_.length) = 2 ^ 32 * 2 ^ (32 * (b.data_.length - 1)) := by
      rw [← pow_add]; congr 1; omega
    rw [e]
    calc val b.data_ * f
        < (b.data_.getLastD 0 + 1) * 2 ^ (32 * (b.data_.length - 1)) * f :=
          Nat.mul_lt_mul_of_pos_right t2 (by omega)
      _ = (b.data_.getLastD 0 + 1) * f * 2 ^ (32 * (b.data_.length - 1)) := by ring
      _ ≤ 2 ^ 32 * 2 ^ (32 * (b.data_.length - 1)) := Nat.mul_le_mul_right _ f4
  have hge : ∀ (x y : List Nat), normalized x → normalized y → val x ≤ val y → 2 ≤ x.length →
      x.length ≤ y.length := fun x y hx hy hle _ => normalized_length_le x y hx hy hle
  have hb_le : val b.data_ ≤ val (multiply b f).data_ := by
    rw [c2]; exact Nat.le_mul_of_pos_right _ (by omega)
  have ha_le : val a.data_ ≤ val (multiply a f).data_ := by
    rw [p2]; exact Nat.le_mul_of_pos_right _ (by omega)
  have l1 := normalized_length_le _ _ hb.1 c1 hb_le
  have l2 := normalized_length_le _ _ ha.1 p1 ha_le
  have l3 : (multiply b f).data_.length ≤ b.data_.length := by
    by_contra hcon
    have := normalized_val_ge _ c1 (by omega)
    have hle := pow32_le b.data_.length ((multiply b f).data_.length - 1) (by omega)
    omega
  constructor <;> omega

/-! ## The shift count of `operator/=` -/

theorem toInt_def (a : big_integer) :
    toInt a = if a.sign_ then -(val a.data_ : Int) else (val a.data_ : Int) := rfl

theorem digit_bounds (c : Char) (h : '0' ≤ c ∧ c ≤ '9') : 48 ≤ c.toNat ∧ c.toNat ≤ 57 := by
  obtain ⟨h1, h2⟩ := h
  rw [Char.le_def] at h1 h2
  exact ⟨h1, h2⟩

theorem digit_val_le (c : Char) (h : '0' ≤ c ∧ c ≤ '9') : digit_val c ≤ 9 := by
  have := digit_bounds c h
  have e : ('0').toNat = 48 := by decide
  unfold digit_val
  rw [e]; omega

theorem decimal_value_append (xs ys : List Char) :
    decimal_value (xs ++ ys) = decimal_value xs * 10 ^ ys.length + decimal_value ys := by
  induction ys using List.reverseRecOn with
  | nil => simp [decimal_value]
  | append_singleton ys y ih =>
    rw [← List.append_assoc]
    have step : ∀ zs : List Char, decimal_value (zs ++ [y]) = decimal_value zs * 10 + digit_val y := by
      intro zs
      unfold decimal_value
      rw [List.foldl_append]
      rfl
    rw [step, step, ih, List.length_append, List.length_singleton, pow_succ]
    ring

theorem decimal_value_snoc (zs : List Char) (y : Char) :
    decimal_value (zs ++ [y]) = decimal_value zs * 10 + digit_val y := by
  rw [decimal_value_append]
  simp [decimal_value]

theorem decimal_value_lt (ds : List Char) (h : ∀ c ∈ ds, '0' ≤ c ∧ c ≤ '9') :
    decimal_value ds < 10 ^ ds.length := by
  induction ds using List.reverseRecOn with
  | nil => simp [decimal_value]
  | append_singleton ys y ih =>
    rw [decimal_value_snoc, List.length_append, List.length_singleton, pow_succ]
    have h1 := ih (fun c hc => h c (List.mem_append_left _ hc))
    have h2 := digit_val_le y (h y (by simp))
    omega

theorem digits_ok_spec (str : List Char) :
    ∀ (k i : Nat), i + k = str.length →
      (digits_ok str k i = true ↔ ∀ c ∈ str.drop i, '0' ≤ c ∧ c ≤ '9') := by
  intro k
  induction k with
  | zero =>
    intro i hi
    rw [List.drop_of_length_le (by omega)]
    simp [digits_ok]
  | succ k ih =>
    intro i hi
    have hlt : i < str.length := by omega
    have hd : str.drop i = str[i] :: str.drop (i + 1) := by
      rw [List.drop_eq_getElem_cons hlt]
    have hg : str.getD i '0' = str[i] := by
      rw [List.getD_eq_getElem?_getD, List.getElem?_eq_getElem hlt]; rfl
    simp only [digits_ok, hg]
    rw [hd]
    by_cases hc : '0' ≤ str[i] ∧ str[i] ≤ '9'
    · have : (!(decide ('0' ≤ str[i]) && decide (str[i] ≤ '9'))) = false := by
        simp [hc.1, hc.2]
      rw [this]
      simp only [Bool.false_eq_true, if_false]
      rw [ih (i + 1) (by omega)]
      constructor
      · intro h c hcm
        rcases List.mem_cons.mp hcm with h1 | h1
        · rw [h1]; exact hc
        · exact h c h1
      · intro h c hcm
        exact h c (List.mem_cons_of_mem _ hcm)
    · have : (!(decide ('0' ≤ str[i]) && decide (str[i] ≤ '9'))) = true := by
        rw [not_and_or] at hc
        rcases hc with h1 | h1 <;> simp [h1]
      rw [this]
      simp only [if_true]
      constructor
      · intro h; exact absurd h (by decide)
      · intro h
        exact absurd (h _ (List.mem_cons_self _ _)) hc

theorem chunk_loop_spec (str : List Char) (i : Nat)
    (hd : ∀ c ∈ str.drop i, '0' ≤ c ∧ c ≤ '9') :
    ∀ (k j cur : Nat), j + k = 9 → cur = decimal_value ((str.drop i).take j) →
      chunk_loop str i k j cur = decimal_value ((str.drop i).take 9) := by
  intro k
  induction k with
  | zero =>
    intro j cur hj hcur
    have : j = 9 := by omega
    subst this
    simp only [chunk_loop]
    exact hcur
  | succ k ih =>
    intro j cur hj hcur
    simp only [chunk_loop]
    by_cases hlt : i + j < str.length
    · rw [if_pos hlt]
      have hg : str.getD (i + j) '0' = str[i + j] := by
        rw [List.getD_eq_getElem?_getD, List.getElem?_eq_getElem hlt]; rfl
      have htake : (str.drop i).take (j + 1) = (str.drop i).take j ++ [str[i + j]] := by
        rw [List.take_succ, List.getElem?_drop, List.getElem?_eq_getElem hlt]
        rfl
      have hmem : str[i + j] ∈ str.drop i := by
        rw [List.mem_iff_getElem?]
        exact ⟨j, by rw [List.getElem?_drop, List.getElem?_eq_getElem hlt]⟩
      have hdv := digit_val_le _ (hd _ hmem)
      have hlt10 : cur < 10 ^ j := by
        rw [hcur]
        have h1 := decimal_value_lt ((str.drop i).take j)
          (fun c hc => hd c (List.mem_of_mem_take hc))
        have h2 : ((str.drop i).take j).length = j := by
          rw [List.length_take, List.length_drop]; omega
        rw [h2] at h1; exact h1
      have hp : 10 ^ j ≤ 10 ^ 8 := Nat.pow_le_pow_right (by norm_num) (by omega)
      have hmod : (cur * 10 + ((str.getD (i + j) '0').toNat - ('0').toNat)) % 2 ^ 32
          = cur * 10 + digit_val str[i + j] := by
        rw [hg]
        unfold digit_val at hdv ⊢
        apply Nat.mod_eq_of_lt
        omega
      rw [hmod]
      apply ih (j + 1) _ (by omega)
      rw [htake, decimal_value_snoc, hcur]
    · rw [if_neg hlt, hcur]
      have hlen : (str.drop i).length ≤ j := by rw [List.length_drop]; omega
      rw [List.take_of_length_le hlen, List.take_of_length_le (by omega)]

theorem TEN_POWER_spec (n : Nat) (hn : 1 ≤ n) :
    TEN_POWER.getD (min (n - 1) 8) 0 = 10 ^ (min 9 n) := by
  by_cases h : n ≤ 9
  · interval_cases n <;> rfl
  · have e1 : min (n - 1) 8 = 8 := by omega
    have e2 : min 9 n = 9 := by omega
    rw [e1, e2]; rfl

theorem canonical_nonneg_val (a : big_integer) (ha : canonical a) (v : Nat)
    (h : toInt a = (v : Int)) : a.sign_ = false ∧ val a.data_ = v := by
  have hs := canonical_nonneg_sign a ha (by omega)
  refine ⟨hs, ?_⟩
  rw [toInt_pos a hs] at h
  exact_mod_cast h

theorem parse_loop_spec (str : List Char) (start : Nat)
    (hd : ∀ c ∈ str.drop start, '0' ≤ c ∧ c ≤ '9') :
    ∀ (k i : Nat) (self : big_integer), start ≤ i → str.length ≤ i + k → canonical self →
      self.sign_ = false →
      val self.data_ = decimal_value ((str.drop start).take (i - start)) →
      canonical (parse_loop str k i self) ∧ (parse_loop str k i self).sign_ = false ∧
        val (parse_loop str k i self).data_ = decimal_value (str.drop start) := by
  intro k
  induction k with
  | zero =>
    intro i self hi hk hc hs hv
    refine ⟨hc, hs, ?_⟩
    simp only [parse_loop]
    rw [hv, List.take_of_length_le (by rw [List.length_drop]; omega)]
  | succ k ih =>
    intro i self hi hk hc hs hv
    simp only [parse_loop]
    by_cases hlt : i < str.length
    · rw [if_pos hlt]
      have hdi : ∀ c ∈ str.drop i, '0' ≤ c ∧ c ≤ '9' := by
        intro c hcm
        apply hd c
        have e : str.drop i = (str.drop start).drop (i - start) := by
          rw [List.drop_drop]; congr 1; omega
        rw [e] at hcm
        exact List.mem_of_mem_drop hcm
      have hchunk := chunk_loop_spec str i hdi 9 0 0 (by omega) (by simp [decimal_value])
      rw [hchunk]
      have hten := TEN_POWER_spec (str.length - i) (by omega)
      rw [hten]
      have hclen : ((str.drop i).take 9).length = min 9 (str.length - i) := by
        rw [List.length_take, List.length_drop]
      have hcl := decimal_value_lt ((str.drop i).take 9)
        (fun c hcm => hdi c (List.mem_of_mem_take hcm))
      rw [hclen] at hcl
      have hp9 : 10 ^ (min 9 (str.length - i)) ≤ 10 ^ 9 :=
        Nat.pow_le_pow_right (by norm_num) (by omega)
      obtain ⟨m1, m2, m3, _⟩ := multiply_spec self (10 ^ (min 9 (str.length - i))) hc.1.2.1
        (by omega)
      have hms : (multiply self (10 ^ (min 9 (str.length - i)))).sign_ = false := by
        rw [m3, hs]; rfl
      obtain ⟨o1, o2, o3⟩ := of_ull_spec (decimal_value ((str.drop i).take 9)) (by omega)
      obtain ⟨a1, a2⟩ := add_assign_spec (multiply self (10 ^ (min 9 (str.length - i))))
        (of_ull (decimal_value ((str.drop i).take 9))) ⟨m1, fun _ => hms⟩ o1
      rw [toInt_pos _ hms, toInt_pos _ o2, m2, o3] at a2
      have a3 : toInt (add_assign (multiply self (10 ^ (min 9 (str.length - i))))
          (of_ull (decimal_value ((str.drop i).take 9))))
          = ((val self.data_ * 10 ^ (min 9 (str.length - i))
            + decimal_value ((str.drop i).take 9) : Nat) : Int) := by
        rw [a2]; push_cast; ring
      obtain ⟨b1, b2⟩ := canonical_nonneg_val _ a1 _ a3
      apply ih (i + 9) _ (by omega) (by omega) a1 b1
      rw [b2, hv]
      have e2 : i + 9 - start = (i - start) + 9 := by omega
      have e3 : (str.drop start).drop (i - start) = str.drop i := by
        rw [List.drop_drop]; congr 1; omega
      rw [e2, List.take_add, decimal_value_append, e3, hclen]
    · rw [if_neg hlt]
      refine ⟨hc, hs, ?_⟩
      rw [hv, List.take_of_length_le (by rw [List.length_drop]; omega)]

theorem strip_sign_eq_drop (s : List Char) :
    strip_sign s = s.drop (if s.head? = some '-' ∨ s.head? = some '+' then 1 else 0) := by
  cases s with
  | nil => rfl
  | cons c cs =>
    by_cases h1 : c = '-'
    · subst h1; rfl
    · by_cases h2 : c = '+'
      · subst h2; rfl
      · have hn : ¬ ((c :: cs).head? = some '-' ∨ (c :: cs).head? = some '+') := by
          simp [h1, h2]
        rw [if_neg hn]
        unfold strip_sign
        split
        · rename_i heq; simp at heq; exact absurd heq.1 h1
        · rename_i heq; simp at heq; exact absurd heq.1 h2
        · rfl

theorem strip_sign_ne_nil (s : List Char) (h0 : s ≠ []) (h1 : ¬ (s = ['-'] ∨ s = ['+'])) :
    strip_sign s ≠ [] := by
  cases s with
  | nil => exact absurd rfl h0
  | cons c cs =>
    rw [strip_sign_eq_drop]
    by_cases hc : (c :: cs).head? = some '-' ∨ (c :: cs).head? = some '+'
    · rw [if_pos hc]
      simp only [List.drop_succ_cons, List.drop_zero]
      intro hcs
      apply h1
      subst hcs
      simp at hc
      rcases hc with hc | hc
      · left; rw [hc]
      · right; rw [hc]
    · rw [if_neg hc]; simp

theorem strip_sign_nil_iff (s : List Char) :
    strip_sign s = [] ↔ (s = [] ∨ s = ['-'] ∨ s = ['+']) := by
  constructor
  · intro h
    by_contra hcon
    rw [not_or] at hcon
    exact strip_sign_ne_nil s hcon.1 hcon.2 h
  · rintro (h | h | h) <;> rw [h] <;> rfl

/-- The string constructor on a string that is neither empty nor a lone sign: it throws
exactly when the validation loop meets a non-digit, and otherwise builds the canonical value
of the digits with the sign of the string. -/
theorem of_string_spec (s : List Char) (h0 : s ≠ []) (h1 : ¬ (s = ['-'] ∨ s = ['+'])) :
    ((∃ c ∈ strip_sign s, ¬ ('0' ≤ c ∧ c ≤ '9')) →
      of_string s = Except.error "invalid big_integer value") ∧
    ((∀ c ∈ strip_sign s, '0' ≤ c ∧ c ≤ '9') →
      ∃ x, of_string s = Except.ok x ∧ canonical x ∧ toInt x = written_int s) := by
  have hstrip := strip_sign_eq_drop s
  have hlen : (if s.head? = some '-' ∨ s.head? = some '+' then 1 else 0) ≤ s.length := by
    have : 1 ≤ s.length := by
      cases s with
      | nil => exact absurd rfl h0
      | cons c cs => simp
    split <;> omega
  have hok := digits_ok_spec s
    (s.length - (if s.head? = some '-' ∨ s.head? = some '+' then 1 else 0))
    (if s.head? = some '-' ∨ s.head? = some '+' then 1 else 0) (by omega)
  rw [← hstrip] at hok
  unfold of_string
  rw [if_neg h0, if_neg h1]
  simp only
  constructor
  · rintro ⟨c, hc, hnd⟩
    have hno : digits_ok s
        (s.length - (if s.head? = some '-' ∨ s.head? = some '+' then 1 else 0))
        (if s.head? = some '-' ∨ s.head? = some '+' then 1 else 0) = false := by
      rw [← Bool.not_eq_true, hok]
      intro hall
      exact hnd (hall c hc)
    rw [hno]
    rfl
  · intro hall
    have hyes := hok.mpr hall
    rw [hyes]
    simp only [Bool.not_true, Bool.false_eq_true, if_false]
    obtain ⟨p1, p2, p3⟩ := parse_loop_spec s
      (if s.head? = some '-' ∨ s.head? = some '+' then 1 else 0)
      (by rw [← hstrip]; exact hall) s.length
      (if s.head? = some '-' ∨ s.head? = some '+' then 1 else 0)
      { data_ := [0], sign_ := false } (le_refl _) (by omega) (by decide) rfl
      (by simp [decimal_value]; rfl)
    rw [← hstrip] at p3
    generalize parse_loop s s.length
      (if s.head? = some '-' ∨ s.head? = some '+' then 1 else 0)
      { data_ := [0], sign_ := false } = self at *
    refine ⟨_, rfl, ?_, ?_⟩
    · refine ⟨p1.1, ?_⟩
      intro hz
      have hz' : self.data_ = [0] := hz
      have hv : toInt self = 0 := by rw [toInt_pos self p2, hz']; rfl
      simp only
      rw [ne_ZERO_spec self p1, hv]
      simp
    · rw [toInt_def]
      simp only
      rw [ne_ZERO_spec self p1, toInt_pos self p2, p3]
      unfold written_int
      by_cases hm : s.head? = some '-'
      · by_cases hv : decimal_value (strip_sign s) = 0
        · simp [hm, hv]
        · simp [hm, hv]
      · simp [hm]

theorem of_string_ok (s : List Char) (h : valid_decimal s) :
    ∃ x, of_string s = Except.ok x ∧ canonical x ∧ toInt x = written_int s := by
  obtain ⟨h1, h2⟩ := h
  rw [Ne, strip_sign_nil_iff, not_or] at h1
  exact (of_string_spec s h1.1 h1.2).2 h2

theorem of_string_error_iff (s : List Char) :
    (∃ msg, of_string s = Except.error msg) ↔
      (s = [] ∨ s = ['+'] ∨ s = ['-'] ∨ ∃ c ∈ strip_sign s, ¬ ('0' ≤ c ∧ c ≤ '9')) := by
  by_cases h0 : s = []
  · subst h0
    simp [of_string]
  · by_cases h1 : s = ['-'] ∨ s = ['+']
    · have : of_string s = Except.error "big_integer cannot consist only of unary symbol" := by
        unfold of_string
        rw [if_neg h0, if_pos h1]
      rw [this]
      constructor
      · intro _
        rcases h1 with h1 | h1
        · right; right; left; exact h1
        · right; left; exact h1
      · intro _; exact ⟨_, rfl⟩
    · obtain ⟨k1, k2⟩ := of_string_spec s h0 h1
      constructor
      · rintro ⟨msg, hmsg⟩
        right; right; right
        by_contra hcon
        have hall : ∀ c ∈ strip_sign s, '0' ≤ c ∧ c ≤ '9' := by
          intro c hc
          by_contra hnd
          exact hcon ⟨c, hc, hnd⟩
        obtain ⟨x, hx, _⟩ := k2 hall
        rw [hx] at hmsg
        exact Except.noConfusion hmsg
      · rintro (h | h | h | h)
        · exact absurd h h0
        · exact absurd (Or.inr h) h1
        · exact absurd (Or.inl h) h1
        · exact ⟨_, k1 h⟩

/-! ## `to_string` -/

theorem digit_char_spec : ∀ d, d < 10 →
    ('0' ≤ Char.ofNat (('0').toNat + d) ∧ Char.ofNat (('0').toNat + d) ≤ '9') ∧
      digit_val (Char.ofNat (('0').toNat + d)) = d ∧
      Char.ofNat (('0').toNat + d) ≠ '-' ∧ Char.ofNat (('0').toNat + d) ≠ '+' ∧
      (Char.ofNat (('0').toNat + d) = '0' → d = 0) := by
  decide

theorem emit_digits_free : ∀ (fuel i rem : Nat) (res : List Char), rem < 10 ^ fuel →
    emit_digits false fuel i rem res
      = res ++ (Nat.digits 10 rem).map (fun d => Char.ofNat (('0').toNat + d)) := by
  intro fuel
  induction fuel with
  | zero =>
    intro i rem res h
    have : rem = 0 := by simpa using h
    subst this
    simp [emit_digits]
  | succ fuel ih =>
    intro i rem res h
    simp only [emit_digits]
    by_cases h0 : rem = 0
    · subst h0
      simp
    · have hc : (false = true ∧ i < 9) ∨ rem ≠ 0 := Or.inr h0
      have hd := @Nat.digits_def' 10 (by norm_num) rem (by omega)
      rw [if_pos hc, ih (i + 1) (rem / 10) _ (by rw [pow_succ] at h; omega), hd]
      simp

theorem emit_digits_padded : ∀ (fuel i rem : Nat) (res : List Char) (Q : Nat), i ≤ 9 →
    rem < 10 ^ (9 - i) → 9 - i ≤ fuel → 0 < Q →
    emit_digits true fuel i rem res ++ (Nat.digits 10 Q).map (fun d => Char.ofNat (('0').toNat + d))
      = res ++ (Nat.digits 10 (Q * 10 ^ (9 - i) + rem)).map
          (fun d => Char.ofNat (('0').toNat + d)) := by
  intro fuel
  induction fuel with
  | zero =>
    intro i rem res Q hi hrem hf _
    have h9 : 9 - i = 0 := by omega
    rw [h9] at hrem ⊢
    have : rem = 0 := by simpa using hrem
    subst this
    simp [emit_digits]
  | succ fuel ih =>
    intro i rem res Q hi hrem hf hQ
    simp only [emit_digits]
    by_cases h9 : i < 9
    · have hc : (True ∧ i < 9) ∨ rem ≠ 0 := Or.inl ⟨trivial, h9⟩
      rw [if_pos hc]
      have e : 9 - i = (9 - (i + 1)) + 1 := by omega
      have hrem' : rem / 10 < 10 ^ (9 - (i + 1)) := by
        rw [e, pow_succ] at hrem; omega
      rw [ih (i + 1) (rem / 10) _ Q (by omega) hrem' (by omega) hQ]
      have hW : 0 < Q * 10 ^ (9 - i) + rem := by
        have : 0 < Q * 10 ^ (9 - i) := Nat.mul_pos hQ (by positivity)
        omega
      have hd := @Nat.digits_def' 10 (by norm_num) _ hW
      rw [hd]
      have hpow : Q * 10 ^ (9 - i) = 10 * (Q * 10 ^ (9 - (i + 1))) := by
        rw [e, pow_succ]; ring
      have hmod : (Q * 10 ^ (9 - i) + rem) % 10 = rem % 10 := by
        rw [hpow]; omega
      have hdiv : (Q * 10 ^ (9 - i) + rem) / 10 = Q * 10 ^ (9 - (i + 1)) + rem / 10 := by
        rw [hpow]; omega
      rw [hmod, hdiv]
      simp
    · have hi9 : i = 9 := by omega
      subst hi9
      have : rem = 0 := by simpa using hrem
      subst this
      simp

theorem canonical_of_divide (tmp : big_integer) (rhs : Nat) (ht : limbs_ok tmp.data_)
    (hr : rhs < 2 ^ 32) (hr0 : 0 < rhs) :
    canonical (divide tmp rhs).1 ∧ val (divide tmp rhs).1.data_ = val tmp.data_ / rhs ∧
      (divide tmp rhs).2 = val tmp.data_ % rhs := by
  obtain ⟨h1, h2, h3, h4, _⟩ := divide_spec tmp rhs ht hr hr0
  refine ⟨⟨h1, ?_⟩, h2, h3⟩
  intro h0
  have hv : val (divide tmp rhs).1.data_ = 0 := by rw [h0]; rfl
  rw [h2] at hv
  rw [h4, hv]
  simp

theorem ne_ZERO_val (a : big_integer) (ha : canonical a) :
    a.ne ZERO = decide (val a.data_ ≠ 0) := by
  rw [ne_ZERO_spec a ha, toInt_def]
  by_cases h : val a.data_ = 0
  · simp [h]
  · have : (val a.data_ : Int) ≠ 0 := by exact_mod_cast h
    split <;> simp [h]

theorem to_string_loop_spec : ∀ (fuel : Nat) (tmp : big_integer) (res : List Char),
    canonical tmp → val tmp.data_ < (10 ^ 9) ^ fuel →
    to_string_loop fuel tmp res
      = some (res ++ (Nat.digits 10 (val tmp.data_)).map
          (fun d => Char.ofNat (('0').toNat + d))) := by
  intro fuel
  induction fuel with
  | zero =>
    intro tmp res ht hv
    have h0 : val tmp.data_ = 0 := by simpa using hv
    simp only [to_string_loop]
    rw [ne_ZERO_val tmp ht, h0]
    simp
  | succ fuel ih =>
    intro tmp res ht hv
    simp only [to_string_loop]
    rw [ne_ZERO_val tmp ht]
    by_cases h0 : val tmp.data_ = 0
    · rw [h0]; simp
    · have hne : decide (val tmp.data_ ≠ 0) = true := by simp [h0]
      rw [hne]
      simp only [if_true]
      obtain ⟨d1, d2, d3⟩ := canonical_of_divide tmp 1000000000 ht.1.2.1 (by norm_num)
        (by norm_num)
      rw [ne_ZERO_val _ d1, d2, d3]
      have hQlt : val tmp.data_ / 1000000000 < (10 ^ 9) ^ fuel := by
        rw [Nat.div_lt_iff_lt_mul (by norm_num)]
        rw [pow_succ] at hv
        exact hv
      have hdm := Nat.div_add_mod (val tmp.data_) 1000000000
      have hrlt : val tmp.data_ % 1000000000 < 1000000000 := Nat.mod_lt _ (by norm_num)
      rw [ih _ _ d1 (by rw [d2]; exact hQlt), d2]
      congr 1
      by_cases hQ : val tmp.data_ / 1000000000 = 0
      · have hd : decide (val tmp.data_ / 1000000000 ≠ 0) = false := by simp [hQ]
        rw [hd, emit_digits_free 10 0 _ res (by omega), hQ]
        have : val tmp.data_ % 1000000000 = val tmp.data_ := by omega
        rw [this]
        simp
      · have hd : decide (val tmp.data_ / 1000000000 ≠ 0) = true := by simp [hQ]
        rw [hd, emit_digits_padded 10 0 _ res _ (by omega) (by norm_num; exact hrlt) (by omega)
          (by omega)]
        have : val tmp.data_ / 1000000000 * 10 ^ (9 - 0) + val tmp.data_ % 1000000000
            = val tmp.data_ := by
          norm_num
          omega
        rw [this]

theorem eq_ZERO_iff (a : big_integer) (ha : canonical a) : a.eq ZERO = true ↔ a = ZERO := by
  rw [eq_spec a ZERO ha ZERO_canonical, decide_eq_true_iff, toInt_ZERO]
  exact toInt_eq_zero a ha

/-- What `to_string` returns: `"0"` for zero, otherwise the decimal digits of the magnitude,
most significant first and without padding, after a `-` when the sign flag is set. -/
theorem to_string_spec (a : big_integer) (ha : canonical a) :
    to_string a = some (if a = ZERO then ['0']
      else (if a.sign_ then ['-'] else [])
        ++ ((Nat.digits 10 (val a.data_)).map (fun d => Char.ofNat (('0').toNat + d))).reverse) := by
  unfold to_string
  by_cases h0 : a = ZERO
  · rw [if_pos ((eq_ZERO_iff a ha).mpr h0), if_pos h0]
  · have hne : ¬ (a.eq ZERO = true) := fun h => h0 ((eq_ZERO_iff a ha).mp h)
    rw [if_neg hne, if_neg h0]
    have hfuel : val a.data_ < (10 ^ 9) ^ (2 * a.data_.length) := by
      have h1 := val_lt a.data_ ha.1.2.1
      have h2 : (2 : Nat) ^ (32 * a.data_.length) ≤ (10 ^ 9) ^ (2 * a.data_.length) := by
        rw [pow_mul, pow_mul]
        exact Nat.pow_le_pow_left (by norm_num) _
      omega
    rw [to_string_loop_spec _ a [] ha hfuel]
    simp only [Option.map_some', List.nil_append]
    cases a.sign_ <;> simp

/-! ## Formatting and parsing back -/

theorem decimal_value_digits (L : List Nat) (h : ∀ d ∈ L, d < 10) :
    decimal_value ((L.map (fun d => Char.ofNat (('0').toNat + d))).reverse)
      = Nat.ofDigits 10 L := by
  induction L with
  | nil => simp [decimal_value]
  | cons d L ih =>
    rw [List.map_cons, List.reverse_cons, decimal_value_snoc,
      ih (fun e he => h e (List.mem_cons_of_mem _ he)), Nat.ofDigits_cons,
      (digit_char_spec d (h d (List.mem_cons_self _ _))).2.1]
    ring

theorem digit_string_spec (V : Nat) (hV : V ≠ 0) :
    ((Nat.digits 10 V).map (fun d => Char.ofNat (('0').toNat + d))).reverse ≠ [] ∧
      (∀ c ∈ ((Nat.digits 10 V).map (fun d => Char.ofNat (('0').toNat + d))).reverse,
        '0' ≤ c ∧ c ≤ '9') ∧
      decimal_value (((Nat.digits 10 V).map (fun d => Char.ofNat (('0').toNat + d))).reverse)
        = V ∧
      (((Nat.digits 10 V).map (fun d => Char.ofNat (('0').toNat + d))).reverse).head?
        ≠ some '0' := by
  have hlt : ∀ d ∈ Nat.digits 10 V, d < 10 := fun d hd => Nat.digits_lt_base (by norm_num) hd
  have hne : Nat.digits 10 V ≠ [] := Nat.digits_ne_nil_iff_ne_zero.mpr hV
  refine ⟨by simpa using hne, ?_, ?_, ?_⟩
  · intro c hc
    rw [List.mem_reverse, List.mem_map] at hc
    obtain ⟨d, hd, rfl⟩ := hc
    exact (digit_char_spec d (hlt d hd)).1
  · rw [decimal_value_digits _ hlt, Nat.ofDigits_digits]
  · rw [List.head?_reverse, List.getLast?_map, List.getLast?_eq_getLast _ hne]
    simp only [Option.map_some', ne_eq, Option.some.injEq]
    intro h0
    have hl := Nat.getLast_digit_ne_zero 10 hV
    exact hl ((digit_char_spec _ (hlt _ (List.getLast_mem hne))).2.2.2.2 h0)

theorem strip_sign_digits (ds : List Char) (h : ∀ c ∈ ds, '0' ≤ c ∧ c ≤ '9') :
    strip_sign ds = ds ∧ ds.head? ≠ some '-' := by
  cases ds with
  | nil => exact ⟨rfl, by simp⟩
  | cons c cs =>
    have hb := digit_bounds c (h c (List.mem_cons_self _ _))
    have h1 : c ≠ '-' := by
      intro hc; rw [hc] at hb; revert hb; decide
    have h2 : c ≠ '+' := by
      intro hc; rw [hc] at hb; revert hb; decide
    constructor
    · rw [strip_sign_eq_drop]
      have : ¬ ((c :: cs).head? = some '-' ∨ (c :: cs).head? = some '+') := by simp [h1, h2]
      rw [if_neg this]; rfl
    · simp [h1]

/-- The string of a canonical value is a valid decimal string and the string constructor
reads the value back from it. -/
theorem to_string_of_string (x : big_integer) (hx : canonical x) :
    ∃ s, to_string x = some s ∧ valid_decimal s ∧ of_string s = Except.ok x ∧
      (s.head? = some '-' ↔ x.sign_ = true) ∧ (x ≠ ZERO → (strip_sign s).head? ≠ some '0') := by
  rw [to_string_spec x hx]
  by_cases h0 : x = ZERO
  · rw [if_pos h0]
    subst h0
    refine ⟨_, rfl, by decide, by decide, by decide, fun h => absurd rfl h⟩
  · rw [if_neg h0]
    have hV : val x.data_ ≠ 0 := by
      intro hv
      apply h0
      apply (toInt_eq_zero x hx).mp
      rw [toInt_def, hv]; simp
    obtain ⟨d1, d2, d3, d4⟩ := digit_string_spec (val x.data_) hV
    obtain ⟨e1, e2⟩ := strip_sign_digits _ d2
    generalize ((Nat.digits 10 (val x.data_)).map
      (fun d => Char.ofNat (('0').toNat + d))).reverse = ds at *
    have hstrip : strip_sign ((if x.sign_ = true then ['-'] else []) ++ ds) = ds := by
      cases x.sign_
      · simpa using e1
      · rfl
    have hhead : ((if x.sign_ = true then ['-'] else []) ++ ds).head? = some '-'
        ↔ x.sign_ = true := by
      cases x.sign_
      · simpa using e2
      · simp
    have hvalid : valid_decimal ((if x.sign_ = true then ['-'] else []) ++ ds) := by
      unfold valid_decimal
      rw [hstrip]
      exact ⟨d1, d2⟩
    obtain ⟨y, y1, y2, y3⟩ := of_string_ok _ hvalid
    have hw : written_int ((if x.sign_ = true then ['-'] else []) ++ ds) = toInt x := by
      unfold written_int
      rw [hstrip, d3, toInt_def]
      by_cases hs : x.sign_ = true
      · rw [if_pos (hhead.mpr hs), if_pos hs]
      · rw [if_neg (fun h => hs (hhead.mp h)), if_neg hs]
    have hyx : y = x := toInt_inj y x y2 hx (by rw [y3, hw])
    rw [hyx] at y1
    refine ⟨_, rfl, hvalid, y1, hhead, ?_⟩
    intro _
    rw [hstrip]
    exact d4

/-! ## Left shift, the 64-bit constructor, the scaling factor -/

theorem shl_assign_toInt (a : big_integer) (k : Nat) (ha : canonical a) :
    canonical (shl_assign a k) ∧ toInt (shl_assign a k) = toInt a * 2 ^ k ∧
      (shl_assign a k).sign_ = a.sign_ := by
  obtain ⟨h1, h2, h3⟩ := shl_assign_spec a k ha.1.2.1
  have hsign : (shl_assign a k).sign_ = a.sign_ := by
    rw [h3]
    cases hs : a.sign_
    · rfl
    · have := canonical_neg_pos a ha hs
      have : val a.data_ ≠ 0 := by omega
      simp [this]
  refine ⟨⟨h1, ?_⟩, ?_, hsign⟩
  · intro h0
    have hv : val (shl_assign a k).data_ = 0 := by rw [h0]; rfl
    rw [h2] at hv
    have hp : (2 : Nat) ^ k ≠ 0 := by positivity
    have hva : val a.data_ = 0 := by
      rcases Nat.mul_eq_zero.mp hv with h | h
      · exact h
      · exact absurd h hp
    rw [hsign]
    exact ha.2 ((normalized_val_eq_zero _ ha.1).mp hva)
  · rw [toInt_def, toInt_def, hsign, h2]
    cases a.sign_ <;> simp

theorem ONE_canonical : canonical ONE := by decide

theorem toInt_ONE : toInt ONE = 1 := by decide

theorem of_ull_length (q : Nat) :
    (of_ull q).data_.length = if q < 2 ^ 32 then 1 else 2 := by
  unfold of_ull big_integer.set
  have hv0 : ∀ x, vset [] 0 x = [x] := by intro x; simp [vset]
  have hv1 : ∀ x y, vset [x] 1 y = [x, y] := by intro x y; simp [vset]
  by_cases h0 : q = 0
  · subst h0; rfl
  · simp only [h0, if_false, hv0]
    by_cases hh : get_high32 q = 0
    · simp only [hh, ne_eq, not_true_eq_false, if_false]
      unfold get_high32 at hh
      have : q < 2 ^ 32 := by omega
      rw [if_pos this]; rfl
    · simp only [hh, ne_eq, not_false_eq_true, if_true, hv1]
      unfold get_high32 at hh
      have : ¬ q < 2 ^ 32 := by
        intro hlt
        exact hh (Nat.div_eq_of_lt hlt)
      rw [if_neg this]; rfl

theorem get_abs_spec (v : Int) (h1 : -(2 : Int) ^ 63 ≤ v) (h2 : v < (2 : Int) ^ 63) :
    (get_abs v : Int) = |v| ∧ get_abs v < 2 ^ 64 := by
  unfold get_abs
  by_cases hmin : v = -(2 : Int) ^ 63
  · rw [if_pos hmin, hmin]
    refine ⟨?_, by norm_num⟩
    norm_num
  · rw [if_neg hmin]
    have habs : (if v < 0 then -v else v) = |v| := by
      by_cases hv : v < 0
      · rw [if_pos hv, abs_of_neg hv]
      · rw [if_neg hv, abs_of_nonneg (by omega)]
    rw [habs]
    have hnn : 0 ≤ |v| := abs_nonneg v
    have hlt : |v| < (2 : Int) ^ 63 := by
      rw [abs_lt]; constructor <;> omega
    have hlt' : |v|.toNat < 2 ^ 63 := by
      have : ((|v|.toNat : Nat) : Int) < ((2 ^ 63 : Nat) : Int) := by
        rw [Int.toNat_of_nonneg hnn]; exact_mod_cast hlt
      exact_mod_cast this
    have hmod : |v|.toNat % 2 ^ 64 = |v|.toNat := Nat.mod_eq_of_lt (by omega)
    rw [hmod]
    exact ⟨Int.toNat_of_nonneg hnn, by omega⟩

theorem of_ll_spec (v : Int) (h1 : -(2 : Int) ^ 63 ≤ v) (h2 : v < (2 : Int) ^ 63) :
    canonical (of_ll v) ∧ toInt (of_ll v) = v ∧ (of_ll v).sign_ = decide (v < 0) ∧
      (of_ll v).data_.length = if |v| < (2 : Int) ^ 32 then 1 else 2 := by
  obtain ⟨g1, g2⟩ := get_abs_spec v h1 h2
  obtain ⟨o1, _, o3⟩ := of_ull_spec (get_abs v) g2
  have hlen := of_ull_length (get_abs v)
  have hd : (of_ll v).data_ = (of_ull (get_abs v)).data_ := rfl
  have hs : (of_ll v).sign_ = decide (v < 0) := rfl
  refine ⟨⟨by rw [hd]; exact o1.1, ?_⟩, ?_, hs, ?_⟩
  · intro h0
    rw [hd] at h0
    have hv : val (of_ull (get_abs v)).data_ = 0 := by rw [h0]; rfl
    rw [o3] at hv
    rw [hv] at g1
    have : v = 0 := by
      have : |v| = 0 := by rw [← g1]; rfl
      exact abs_eq_zero.mp this
    rw [hs, this]; rfl
  · rw [toInt_def, hd, hs, o3, g1]
    by_cases hv : v < 0
    · simp only [hv, decide_True, if_true]
      rw [abs_of_neg hv]; ring
    · simp only [hv, decide_False, Bool.false_eq_true, if_false]
      exact abs_of_nonneg (by omega)
  · rw [hd, hlen]
    have hiff : get_abs v < 2 ^ 32 ↔ |v| < (2 : Int) ^ 32 := by
      rw [← g1]
      constructor
      · intro h; exact_mod_cast h
      · intro h; exact_mod_cast h
    by_cases hlt : get_abs v < 2 ^ 32
    · rw [if_pos hlt, if_pos (hiff.mp hlt)]
    · rw [if_neg hlt, if_neg (fun h => hlt (hiff.mpr h))]

/-- The scaled leading limb: `d * (2 ^ 32 / (d + 1))` is at least half the limb base. -/
theorem scaled_top_ge (d : Nat) (h1 : 1 ≤ d) (h2 : d < 2 ^ 32) :
    2 ^ 31 ≤ d * (2 ^ 32 / (d + 1)) := by
  have hdm := Nat.div_add_mod (2 ^ 32) (d + 1)
  have hr : 2 ^ 32 % (d + 1) < d + 1 := Nat.mod_lt _ (by omega)
  have hf1 : 1 ≤ 2 ^ 32 / (d + 1) := by
    rw [Nat.le_div_iff_mul_le (by omega)]; omega
  by_cases ha : d ≤ 2
  · have : d = 1 ∨ d = 2 := by omega
    rcases this with rfl | rfl <;> norm_num
  · by_cases hb : d < 2 ^ 30
    · have hf : 2 ^ 32 / (d + 1) ≤ 2 ^ 32 / 4 := Nat.div_le_div_left (by omega) (by norm_num)
      have h4 : (2 : Nat) ^ 32 / 4 = 2 ^ 30 := by norm_num
      generalize 2 ^ 32 / (d + 1) = f at *
      generalize 2 ^ 32 % (d + 1) = r at *
      have e : (d + 1) * f = d * f + f := by ring
      rw [e] at hdm
      omega
    · by_cases hc : d < 2 ^ 31
      · have hf2 : 2 ≤ 2 ^ 32 / (d + 1) := by
          rw [Nat.le_div_iff_mul_le (by omega)]; omega
        calc 2 ^ 31 ≤ d * 2 := by omega
          _ ≤ d * (2 ^ 32 / (d + 1)) := Nat.mul_le_mul_left _ hf2
      · calc 2 ^ 31 ≤ d * 1 := by omega
          _ ≤ d * (2 ^ 32 / (d + 1)) := Nat.mul_le_mul_left _ hf1

theorem scaled_divisor_spec (b : big_integer) (hb : canonical b) (h2 : 2 ≤ b.data_.length) :
    1 ≤ b.data_.getLastD 0 ∧ b.data_.getLastD 0 ≤ 2 ^ 32 - 1 ∧
      1 ≤ 2 ^ 32 / (b.data_.getLastD 0 + 1) ∧ 2 ^ 32 / (b.data_.getLastD 0 + 1) ≤ 2 ^ 31 ∧
      (2 ^ 32 / (b.data_.getLastD 0 + 1)) % 2 ^ 32 = 2 ^ 32 / (b.data_.getLastD 0 + 1) ∧
      (multiply b (2 ^ 32 / (b.data_.getLastD 0 + 1))).data_.length = b.data_.length ∧
      2 ^ 31 ≤ (multiply b (2 ^ 32 / (b.data_.getLastD 0 + 1))).data_.getLastD 0 := by
  have hbv := normalized_val_ge _ hb.1 h2
  have hp : 0 < 2 ^ (32 * (b.data_.length - 1)) := by positivity
  obtain ⟨t1, t2, t3, t4⟩ := top_limb_bounds b.data_ hb.1
  have hd0 := t4 (by omega)
  obtain ⟨f1, f2, f3, f4⟩ := scale_factor_bounds (b.data_.getLastD 0) (by omega) t3
  have hlen := (div_scaled_length_le b b hb hb (le_refl _) h2).1
  rw [f1] at hlen
  have htop := scaled_top_ge (b.data_.getLastD 0) (by omega) t3
  refine ⟨by omega, by omega, f2, f3, f1, hlen, ?_⟩
  generalize 2 ^ 32 / (b.data_.getLastD 0 + 1) = f at *
  obtain ⟨c1, c2, _, _⟩ := multiply_spec b f hb.1.2.1 (by omega)
  obtain ⟨u1, u2, u3, u4⟩ := top_limb_bounds (multiply b f).data_ c1
  rw [hlen, c2] at u2
  have hge : 2 ^ 31 * 2 ^ (32 * (b.data_.length - 1)) ≤ val b.data_ * f := by
    calc 2 ^ 31 * 2 ^ (32 * (b.data_.length - 1))
        ≤ b.data_.getLastD 0 * f * 2 ^ (32 * (b.data_.length - 1)) :=
          Nat.mul_le_mul_right _ htop
      _ = b.data_.getLastD 0 * 2 ^ (32 * (b.data_.length - 1)) * f := by ring
      _ ≤ val b.data_ * f := Nat.mul_le_mul_right _ t1
  have hlt := Nat.lt_of_le_of_lt hge u2
  have := Nat.lt_of_mul_lt_mul_right hlt
  omega

/-! ## The rows of the schoolbook multiplication -/

theorem mul_outer_prefix (a rhs : List Nat) (ha : limbs_ok a) (hr : limbs_ok rhs) (L : Nat)
    (hL : L = a.length + rhs.length) :
    ∀ (k i : Nat) (res : List Nat), i + k ≤ a.length → res.length = L →
      (∀ t, limb res t < 2 ^ 32) → valN res L = valN a i * val rhs →
      (∀ t, i + rhs.length ≤ t → limb res t = 0) →
      ∃ res', mul_outer a rhs k i res = some res' ∧ res'.length = L ∧
        (∀ t, limb res' t < 2 ^ 32) ∧ valN res' L = valN a (i + k) * val rhs ∧
        (∀ t, i + k + rhs.length ≤ t → limb res' t = 0) := by
  intro k
  induction k with
  | zero =>
    intro i res _ hlen hlt hv hz
    exact ⟨res, rfl, hlen, hlt, hv, hz⟩
  | succ k ih =>
    intro i res hi hlen hlt hv hz
    have hai := limb_lt a ha i
    obtain ⟨r1, h1, h2, h3, h4, h5⟩ := mul_inner_inv (limb a i) rhs i L res hai hr (by omega) hz
      L 0 0 res (by omega) (by omega) (by omega) (by simp [valN]) (fun _ _ => rfl) hlt
      (by norm_num) hlen
    have e1 : a.getD i 0 = limb a i := rfl
    simp only [mul_outer, e1, hlen, h1, Option.some_bind]
    have e2 : i + (k + 1) = i + 1 + k := by omega
    rw [e2]
    apply ih (i + 1) r1 (by omega) h2 h3
    · rw [h4, hv, valN]; ring
    · intro t ht
      exact h5 t (by omega)

/-- Row `i` of `operator*=`: the buffer left by the rows before it exists, and on it the
inner loop ends within `rhs.data_.size() + 1` iterations without a write past the end. -/
theorem mul_row_spec (a rhs : List Nat) (ha : limbs_ok a) (hr : limbs_ok rhs) (i : Nat)
    (hi : i < a.length) :
    ∃ res r, mul_outer a rhs i 0 (List.replicate (a.length + rhs.length) 0) = some res ∧
      res.length = a.length + rhs.length ∧
      mul_inner (a.getD i 0) rhs i (rhs.length + 1) 0 0 res = some r ∧
      r.length = a.length + rhs.length := by
  obtain ⟨res, h1, h2, h3, h4, h5⟩ := mul_outer_prefix a rhs ha hr (a.length + rhs.length) rfl
    i 0 (List.replicate (a.length + rhs.length) 0) (by omega) (by simp)
    (fun t => by rw [limb_replicate_zero]; norm_num)
    (by rw [valN_replicate_zero]; simp [valN]) (fun t _ => limb_replicate_zero _ t)
  simp only [Nat.zero_add] at h4 h5
  obtain ⟨r, k1, k2, _⟩ := mul_inner_inv (limb a i) rhs i (a.length + rhs.length) res
    (limb_lt a ha i) hr (by omega) h5 (rhs.length + 1) 0 0 res (by omega) (by omega) (by omega)
    (by simp [valN]) (fun _ _ => rfl) h3 (by norm_num) h2
  exact ⟨res, r, h1, h2, k1, k2⟩

/-! ## The two's-complement conversions -/

theorem map_complement_twice (d : List Nat) (h : limbs_ok d) :
    (d.map (fun digit => 2 ^ 32 - 1 - digit)).map (fun digit => 2 ^ 32 - 1 - digit) = d := by
  induction d with
  | nil => rfl
  | cons x xs ih =>
    have hx : x < 2 ^ 32 := h x (List.mem_cons_self _ _)
    rw [List.map_cons, List.map_cons, ih (fun y hy => h y (List.mem_cons_of_mem _ hy))]
    congr 1
    omega

theorem vset_self (d : List Nat) (i : Nat) (h : i < d.length) : vset d i (d.getD i 0) = d := by
  rw [vset_of_lt d i _ h]
  apply List.ext_getElem
  · rw [List.length_set]
  · intro n h1 h2
    rw [List.getElem_set]
    split
    · rename_i hin
      subst hin
      rw [List.getD_eq_getElem?_getD, List.getElem?_eq_getElem h]; rfl
    · rfl

theorem bitwise_loop_and_self (neutral : Nat) (d : List Nat) :
    ∀ (k i : Nat), i + k ≤ d.length →
      bitwise_loop (fun x y => x &&& y) neutral d k i d = d := by
  intro k
  induction k with
  | zero => intro i _; rfl
  | succ k ih =>
    intro i hi
    have hlt : i < d.length := by omega
    have hg : d.getD i neutral = d.getD i 0 := by
      rw [List.getD_eq_getElem?_getD, List.getD_eq_getElem?_getD, List.getElem?_eq_getElem hlt]
      rfl
    simp only [bitwise_loop]
    rw [hg, Nat.and_self, vset_self d i hlt]
    exact ih (i + 1) (by omega)

theorem twos_complement_round_trip (a : big_integer) (ha : canonical a) :
    to_sign_bit (to_twos_complement a) = a := by
  unfold to_twos_complement
  cases hs : a.sign_
  · simp only [Bool.false_eq_true, if_false]
    unfold to_sign_bit
    rw [hs]
    rfl
  · simp only [if_true]
    have hpos := canonical_neg_pos a ha hs
    have hc0 : canonical { a with sign_ := false } := ⟨ha.1, fun _ => rfl⟩
    obtain ⟨s1, s2⟩ := sub_assign_spec { a with sign_ := false } ONE hc0 ONE_canonical
    have hv0 : toInt { a with sign_ := false } = (val a.data_ : Int) := toInt_pos _ rfl
    rw [toInt_ONE, hv0] at s2
    have s3 : toInt (sub_assign { a with sign_ := false } ONE)
        = ((val a.data_ - 1 : Nat) : Int) := by
      rw [s2]; omega
    obtain ⟨t1, t2⟩ := canonical_nonneg_val _ s1 _ s3
    generalize sub_assign { a with sign_ := false } ONE = t at *
    unfold to_sign_bit
    simp only [if_true]
    rw [map_complement_twice t.data_ s1.1.2.1]
    have ht : ({ data_ := t.data_, sign_ := false } : big_integer) = t := by
      cases t
      simp only at t1
      rw [t1]
    rw [ht]
    obtain ⟨a1, a2⟩ := add_assign_spec t ONE s1 ONE_canonical
    rw [toInt_ONE, s3] at a2
    have a3 : toInt (add_assign t ONE) = ((val a.data_ : Nat) : Int) := by
      rw [a2]; omega
    obtain ⟨_, b2⟩ := canonical_nonneg_val _ a1 _ a3
    have hdata := normalized_val_inj _ _ a1.1 ha.1 b2
    cases a
    simp only at hs hdata ⊢
    rw [hdata, hs]

theorem and_assign_self (a : big_integer) (ha : canonical a) : and_assign a a = a := by
  unfold and_assign bitwise_op
  simp only [max_self]
  rw [bitwise_loop_and_self _ _ _ 0 (by omega)]
  have hsgn : decide ((to_twos_complement a).sign_.toNat &&& (to_twos_complement a).sign_.toNat ≠ 0)
      = (to_twos_complement a).sign_ := by
    cases (to_twos_complement a).sign_ <;> decide
  rw [hsgn]
  exact twos_complement_round_trip a ha

/-! ## What `operator>>=`, `operator~` and `operator|=` do on every operand -/

/-- Operator `>>=` on a negative operand: the magnitude is divided with truncation and, when
the quotient is not zero, one is subtracted from the negative result. -/
theorem shr_assign_spec_neg (a : big_integer) (k : Nat) (ha : normalized a.data_)
    (hs : a.sign_ = true) :
    canonical (shr_assign a k) ∧
      toInt (shr_assign a k)
        = if val a.data_ / 2 ^ k = 0 then 0 else -((val a.data_ / 2 ^ k : Nat) : Int) - 1 := by
  obtain ⟨ad, sa⟩ := a
  simp only at ha hs
  subst hs
  unfold shr_assign
  simp only [BASE]
  rw [Nat.mod_eq_of_lt (pow_mod_lt k)]
  by_cases hge : k / 32 ≥ ad.length
  · rw [if_pos hge]
    have h1 := val_lt ad ha.2.1
    have h2 : 2 ^ (32 * ad.length) ≤ 2 ^ k :=
      Nat.pow_le_pow_right (by norm_num) (by omega)
    rw [Nat.div_eq_of_lt (by omega)]
    exact ⟨ZERO_canonical, by decide⟩
  · rw [if_neg hge]
    have key : ∀ d : List Nat, limbs_ok d → val d = val ad / 2 ^ (32 * (k / 32)) →
        canonical (if (divide { data_ := d, sign_ := true } (2 ^ (k % 32))).1.sign_ = true
          then sub_assign (divide { data_ := d, sign_ := true } (2 ^ (k % 32))).1 ONE
          else (divide { data_ := d, sign_ := true } (2 ^ (k % 32))).1) ∧
        toInt (if (divide { data_ := d, sign_ := true } (2 ^ (k % 32))).1.sign_ = true
          then sub_assign (divide { data_ := d, sign_ := true } (2 ^ (k % 32))).1 ONE
          else (divide { data_ := d, sign_ := true } (2 ^ (k % 32))).1)
          = if val ad / 2 ^ k = 0 then 0 else -((val ad / 2 ^ k : Nat) : Int) - 1 := by
      intro d hd hv
      obtain ⟨h1, h2, _, h4, _⟩ := divide_spec { data_ := d, sign_ := true } (2 ^ (k % 32)) hd
        (pow_mod_lt k) (by positivity)
      simp only [Bool.true_and] at h2 h4
      have hq : val d / 2 ^ (k % 32) = val ad / 2 ^ k := by
        rw [hv, Nat.div_div_eq_div_mul, ← pow_split]
      rw [hq] at h2 h4
      have hcan : canonical (divide { data_ := d, sign_ := true } (2 ^ (k % 32))).1 := by
        refine ⟨h1, ?_⟩
        intro h0
        have hv0 : val (divide { data_ := d, sign_ := true } (2 ^ (k % 32))).1.data_ = 0 := by
          rw [h0]; rfl
        rw [h4, ← h2, hv0]
        simp
      generalize (divide { data_ := d, sign_ := true } (2 ^ (k % 32))).1 = t at *
      rw [h4]
      by_cases hz : val ad / 2 ^ k = 0
      · simp only [hz, ne_eq, not_true_eq_false, decide_False, Bool.false_eq_true, if_false,
          if_true]
        refine ⟨hcan, ?_⟩
        rw [toInt_def, h2, hz]
        simp
      · simp only [hz, ne_eq, not_false_eq_true, decide_True, if_true, if_false]
        obtain ⟨s1, s2⟩ := sub_assign_spec t ONE hcan ONE_canonical
        refine ⟨s1, ?_⟩
        have hts : t.sign_ = true := by rw [h4]; simp [hz]
        rw [s2, toInt_ONE, toInt_neg t hts, h2]
    by_cases hz : k / 32 = 0
    · simp only [hz, ne_eq, not_true_eq_false, if_false]
      exact key ad ha.2.1 (by rw [hz]; simp)
    · simp only [hz, ne_eq, not_false_eq_true, if_true]
      obtain ⟨k1, k2⟩ := shr_limbs_spec ad (k / 32) hz (by omega) ha.2.1
      exact key _ k2 k1

/-- Operator `~` returns `-(|a| + 1)` whatever the sign of `a`. -/
theorem complement_spec (a : big_integer) (ha : canonical a) :
    canonical (complement a) ∧ toInt (complement a) = -((val a.data_ : Int) + 1) := by
  obtain ⟨h1, h2⟩ := add_data_spec a ONE false ha.1 ONE_canonical.1
  have hone : val ONE.data_ = 1 := by decide
  rw [hone] at h2
  have hsign : (add a ONE false).sign_ = false := by
    show (a.sign_ && xor ONE.sign_ false) = false
    have : ONE.sign_ = false := by decide
    rw [this]; simp
  have hc : canonical (add a ONE false) := ⟨h1, fun _ => hsign⟩
  have hv : toInt (add a ONE false) = (val a.data_ : Int) + 1 := by
    rw [toInt_pos _ hsign, h2]; push_cast; rfl
  unfold complement
  simp only
  rw [ne_ZERO_spec _ hc]
  have hne : toInt (add a ONE false) ≠ 0 := by rw [hv]; omega
  simp only [hne, ne_eq, not_false_eq_true, decide_True, if_true]
  obtain ⟨f1, f2⟩ := flip_sign_spec _ hc hne
  exact ⟨f1, by rw [f2, hv]⟩

theorem bitwise_loop_or_zero (d : List Nat) :
    ∀ (k i : Nat), i + k ≤ d.length →
      bitwise_loop (fun x y => x ||| y) 0 [0] k i d = d := by
  intro k
  induction k with
  | zero => intro i _; rfl
  | succ k ih =>
    intro i hi
    have hlt : i < d.length := by omega
    have hz : ([0] : List Nat).getD i 0 = 0 := by
      cases i with
      | zero => rfl
      | succ i => rfl
    simp only [bitwise_loop]
    rw [hz, Nat.or_zero, vset_self d i hlt]
    exact ih (i + 1) (by omega)

theorem twos_complement_length_pos (a : big_integer) (ha : canonical a) :
    1 ≤ (to_twos_complement a).data_.length := by
  unfold to_twos_complement
  cases hs : a.sign_
  · simp only [Bool.false_eq_true, if_false]
    exact normalized_length_pos _ ha.1
  · simp only [if_true, List.length_map]
    have hc0 : canonical { a with sign_ := false } := ⟨ha.1, fun _ => rfl⟩
    obtain ⟨s1, _⟩ := sub_assign_spec { a with sign_ := false } ONE hc0 ONE_canonical
    exact normalized_length_pos _ s1.1

theorem or_assign_zero (a : big_integer) (ha : canonical a) : or_assign a ZERO = a := by
  have hl := twos_complement_length_pos a ha
  unfold or_assign bitwise_op
  have hz : to_twos_complement ZERO = ZERO := by decide
  simp only [hz]
  have hzd : ZERO.data_ = [0] := by decide
  have hzs : ZERO.sign_ = false := by decide
  rw [hzd, hzs]
  have hmax : max (to_twos_complement a).data_.length ([0] : List Nat).length
      = (to_twos_complement a).data_.length := by
    simp only [List.length_singleton]; omega
  rw [hmax, bitwise_loop_or_zero _ _ 0 (by omega)]
  have hsgn : decide ((to_twos_complement a).sign_.toNat ||| false.toNat ≠ 0)
      = (to_twos_complement a).sign_ := by
    cases (to_twos_complement a).sign_ <;> decide
  rw [hsgn]
  exact twos_complement_round_trip a ha

/-! ## Addition, subtraction and ordering -/

/-- C1: addition is exact. For canonical `a` and `b`, `a + b` (`operator+=`) is canonical and
denotes the sum of the integers denoted by `a` and `b`, whatever the two signs. -/
theorem add_exact (a b : big_integer) (ha : canonical a) (hb : canonical b) :
    canonical (add_assign a b) ∧ toInt (add_assign a b) = toInt a + toInt b :=
  add_assign_spec a b ha hb

/-- Witness for C1 at `-(2 ^ 64 - 1) + 123456789123456789`, whose magnitudes differ in
length and whose signs differ. -/
theorem add_exact_witness :
    canonical ⟨[4294967295, 4294967295], true⟩ ∧ canonical ⟨[2899336981, 28744523], false⟩ ∧
      canonical (add_assign ⟨[4294967295, 4294967295], true⟩ ⟨[2899336981, 28744523], false⟩) ∧
      toInt (add_assign ⟨[4294967295, 4294967295], true⟩ ⟨[2899336981, 28744523], false⟩)
        = toInt ⟨[4294967295, 4294967295], true⟩ + toInt ⟨[2899336981, 28744523], false⟩ :=
  ⟨by decide, by decide,
    add_exact ⟨[4294967295, 4294967295], true⟩ ⟨[2899336981, 28744523], false⟩
      (by decide) (by decide)⟩

/-- C2: subtraction is exact and agrees with the order. For canonical `a` and `b`, `a - b`
(`operator-=`) is canonical and denotes the difference of the denoted integers, and `a < b`
holds exactly when the sign flag of `a - b` is set. -/
theorem sub_exact (a b : big_integer) (ha : canonical a) (hb : canonical b) :
    canonical (sub_assign a b) ∧ toInt (sub_assign a b) = toInt a - toInt b ∧
      (a.lt b = true ↔ (sub_assign a b).sign_ = true) := by
  obtain ⟨h1, h2⟩ := sub_assign_spec a b ha hb
  refine ⟨h1, h2, ?_⟩
  rw [lt_spec a b ha hb, sign_iff_neg _ h1, h2, decide_eq_true_iff]
  omega

/-- Witness for C2 at `5 - (2 ^ 32 + 3)`, a difference that borrows and changes sign. -/
theorem sub_exact_witness :
    canonical ⟨[5], false⟩ ∧ canonical ⟨[3, 1], false⟩ ∧
      canonical (sub_assign ⟨[5], false⟩ ⟨[3, 1], false⟩) ∧
      toInt (sub_assign ⟨[5], false⟩ ⟨[3, 1], false⟩) = toInt ⟨[5], false⟩ - toInt ⟨[3, 1], false⟩ ∧
      (big_integer.lt ⟨[5], false⟩ ⟨[3, 1], false⟩ = true ↔
        (sub_assign ⟨[5], false⟩ ⟨[3, 1], false⟩).sign_ = true) :=
  ⟨by decide, by decide, sub_exact ⟨[5], false⟩ ⟨[3, 1], false⟩ (by decide) (by decide)⟩

/-- C10: the order agrees with the integers. For canonical `a`, `b`, `c`: `compare_to`
answers `LESS`, `EQUAL`, `GREATER` exactly when the integer of `a` is below, equal to, above
that of `b`; each of the six relational operators is the matching relation on the denoted
integers; `<=` is total, antisymmetric and transitive; and `a == b` holds exactly when `a`
and `b` have the same sign and the same limb sequence. -/
theorem compare_to_order (a b c : big_integer) (ha : canonical a) (hb : canonical b)
    (hc : canonical c) :
    ((compare_to a b = LESS ↔ toInt a < toInt b) ∧
      (compare_to a b = EQUAL ↔ toInt a = toInt b) ∧
      (compare_to a b = GREATER ↔ toInt a > toInt b)) ∧
    (a.lt b = decide (toInt a < toInt b) ∧ a.gt b = decide (toInt a > toInt b) ∧
      a.le b = decide (toInt a ≤ toInt b) ∧ a.ge b = decide (toInt a ≥ toInt b) ∧
      a.eq b = decide (toInt a = toInt b) ∧ a.ne b = decide (toInt a ≠ toInt b)) ∧
    ((a.le b = true ∨ b.le a = true) ∧ (a.le b = true → b.le a = true → a = b) ∧
      (a.le b = true → b.le c = true → a.le c = true)) ∧
    (a.eq b = true ↔ (a.sign_ = b.sign_ ∧ a.data_ = b.data_)) := by
  refine ⟨compare_to_cases a b ha hb,
    ⟨lt_spec a b ha hb, gt_spec a b ha hb, le_spec a b ha hb, ge_spec a b ha hb,
      eq_spec a b ha hb, ne_spec a b ha hb⟩, ⟨?_, ?_, ?_⟩, ?_⟩
  · rw [le_spec a b ha hb, le_spec b a hb ha, decide_eq_true_iff, decide_eq_true_iff]
    omega
  · rw [le_spec a b ha hb, le_spec b a hb ha, decide_eq_true_iff, decide_eq_true_iff]
    intro h1 h2
    exact toInt_inj a b ha hb (by omega)
  · rw [le_spec a b ha hb, le_spec b c hb hc, le_spec a c ha hc, decide_eq_true_iff,
      decide_eq_true_iff, decide_eq_true_iff]
    omega
  · rw [eq_spec a b ha hb, decide_eq_true_iff]
    constructor
    · intro h
      have := toInt_inj a b ha hb h
      rw [this]; exact ⟨rfl, rfl⟩
    · rintro ⟨h1, h2⟩
      unfold toInt
      rw [h1, h2]

/-- Witness for C10 at `-(2 ^ 32)`, `-1` and `7`. -/
theorem compare_to_order_witness :
    canonical ⟨[0, 1], true⟩ ∧ canonical ⟨[1], true⟩ ∧ canonical ⟨[7], false⟩ ∧
      compare_to ⟨[0, 1], true⟩ ⟨[1], true⟩ = LESS ∧
      (big_integer.eq ⟨[0, 1], true⟩ ⟨[1], true⟩ = true ↔
        ((⟨[0, 1], true⟩ : big_integer).sign_ = (⟨[1], true⟩ : big_integer).sign_ ∧
          (⟨[0, 1], true⟩ : big_integer).data_ = (⟨[1], true⟩ : big_integer).data_)) :=
  ⟨by decide, by decide, by decide, by decide,
    (compare_to_order ⟨[0, 1], true⟩ ⟨[1], true⟩ ⟨[7], false⟩
      (by decide) (by decide) (by decide)).2.2.2⟩

/-! ## Multiplication and division -/

/-- C3: multiplication is exact. For canonical `a` and `b`, `a * b` (`operator*=`) returns,
is canonical, has the product of the magnitudes as magnitude, has the XOR of the operand
signs as sign when the product is not zero, and is the canonical zero when it is. -/
theorem mul_exact (a b : big_integer) (ha : canonical a) (hb : canonical b) :
    ∃ r, mul_assign a b = some r ∧ canonical r ∧ val r.data_ = val a.data_ * val b.data_ ∧
      (val a.data_ * val b.data_ ≠ 0 → r.sign_ = xor a.sign_ b.sign_) ∧
      (val a.data_ * val b.data_ = 0 → r = ZERO) := by
  obtain ⟨r, h1, h2, h3, h4, h5⟩ := mul_assign_spec a b ha.1 hb.1
  refine ⟨r, h1, h2, h3, ?_, ?_⟩
  · intro hne
    rw [h4]; simp [hne]
  · intro h0
    apply (toInt_eq_zero r h2).mp
    rw [toInt_def, h3, h0]
    simp

/-- Witness for C3 at `-5 * 0`. -/
theorem mul_exact_witness :
    canonical ⟨[5], true⟩ ∧ canonical ⟨[0], false⟩ ∧
      ∃ r, mul_assign ⟨[5], true⟩ ⟨[0], false⟩ = some r ∧ canonical r ∧
        val r.data_ = val (⟨[5], true⟩ : big_integer).data_ * val (⟨[0], false⟩ : big_integer).data_ ∧
        (val (⟨[5], true⟩ : big_integer).data_ * val (⟨[0], false⟩ : big_integer).data_ ≠ 0 →
          r.sign_ = xor (⟨[5], true⟩ : big_integer).sign_ (⟨[0], false⟩ : big_integer).sign_) ∧
        (val (⟨[5], true⟩ : big_integer).data_ * val (⟨[0], false⟩ : big_integer).data_ = 0 →
          r = ZERO) :=
  ⟨by decide, by decide, mul_exact ⟨[5], true⟩ ⟨[0], false⟩ (by decide) (by decide)⟩

/-- C6, evaluated at its own examples: for `a = 1`, `b = -5` and for `a = 0`, `b = -5` the
single-limb branch of `operator/=` returns the limb `0` with the sign flag set, which is not
canonical and does not compare equal to `big_integer(0)`; the multi-limb branch at
`2 ^ 32 / -(2 ^ 32 + 1)` returns the canonical zero. -/
theorem div_single_limb_negative_zero :
    div_assign ⟨[1], false⟩ ⟨[5], true⟩ = some ⟨[0], true⟩ ∧
      div_assign ⟨[0], false⟩ ⟨[5], true⟩ = some ⟨[0], true⟩ ∧
      ¬ canonical ⟨[0], true⟩ ∧ big_integer.eq ⟨[0], true⟩ ZERO = false ∧
      div_assign ⟨[0, 1], false⟩ ⟨[1, 1], true⟩ = some ⟨[0], false⟩ := by
  decide

/-! ## Decimal strings -/

/-- C7: decimal parsing is exact. For every valid decimal string `s` (an optional leading
`+` or `-`, then one or more ASCII digits, of any length and with leading zeros allowed) the
string constructor returns a canonical value that denotes the integer written by `s`; when
that integer is zero, as for `-0` and `-000`, the value is the canonical zero. -/
theorem of_string_exact (s : List Char) (h : valid_decimal s) :
    ∃ x, of_string s = Except.ok x ∧ canonical x ∧ toInt x = written_int s ∧
      (written_int s = 0 → x = ZERO) := by
  obtain ⟨x, h1, h2, h3⟩ := of_string_ok s h
  refine ⟨x, h1, h2, h3, ?_⟩
  intro h0
  exact (toInt_eq_zero x h2).mp (by rw [h3, h0])

/-- Witness for C7 at `-000`, together with the values read from `-0` and from the
nineteen-character `-123456789123456789`. -/
theorem of_string_exact_witness :
    valid_decimal ['-', '0', '0', '0'] ∧
      of_string ['-', '0'] = Except.ok ZERO ∧
      of_string ['-', '1', '2', '3', '4', '5', '6', '7', '8', '9',
        '1', '2', '3', '4', '5', '6', '7', '8', '9'] = Except.ok ⟨[2899336981, 28744523], true⟩ ∧
      ∃ x, of_string ['-', '0', '0', '0'] = Except.ok x ∧ canonical x ∧
        toInt x = written_int ['-', '0', '0', '0'] ∧
        (written_int ['-', '0', '0', '0'] = 0 → x = ZERO) :=
  ⟨by decide, by decide, by decide, of_string_exact ['-', '0', '0', '0'] (by decide)⟩

/-- C8: the format/parse round trip. For every canonical `x`, `to_string x` returns a valid
decimal string `s`; the string constructor accepts `s` and the value it builds compares equal
to `x` under `operator==`; `s` is `0` for zero; `s` starts with `-` exactly when `x` is
negative; and the digits of `s` are the decimal digits of the magnitude, most significant
first, so that the leading group carries no zero padding. -/
theorem to_string_round_trip (x : big_integer) (hx : canonical x) :
    ∃ s, to_string x = some s ∧ valid_decimal s ∧
      (∃ y, of_string s = Except.ok y ∧ y.eq x = true) ∧
      (x = ZERO → s = ['0']) ∧ (s.head? = some '-' ↔ x.sign_ = true) ∧
      (x ≠ ZERO → (strip_sign s).head? ≠ some '0' ∧
        strip_sign s = ((Nat.digits 10 (val x.data_)).map
          (fun d => Char.ofNat (('0').toNat + d))).reverse) := by
  obtain ⟨s, h1, h2, h3, h4, h5⟩ := to_string_of_string x hx
  have hspec := to_string_spec x hx
  rw [h1] at hspec
  have hs := Option.some.inj hspec
  refine ⟨s, h1, h2, ⟨x, h3, ?_⟩, ?_, h4, ?_⟩
  · rw [eq_spec x x hx hx]; simp
  · intro h0
    rw [hs, if_pos h0]
  · intro h0
    refine ⟨h5 h0, ?_⟩
    rw [if_neg h0] at hs
    have hV : val x.data_ ≠ 0 := by
      intro hv
      apply h0
      apply (toInt_eq_zero x hx).mp
      rw [toInt_def, hv]; simp
    obtain ⟨_, d2, _, _⟩ := digit_string_spec (val x.data_) hV
    obtain ⟨e1, _⟩ := strip_sign_digits _ d2
    rw [hs]
    cases x.sign_
    · simpa using e1
    · rfl

/-- Witness for C8 at `-(10 ^ 18 + 10 ^ 9)`, whose middle and low nine-digit groups are
zero padded: its string is `-1000000001000000000`. -/
theorem to_string_round_trip_witness :
    canonical ⟨[3808348672, 232830643], true⟩ ∧
      to_string ⟨[3808348672, 232830643], true⟩ = some ['-', '1', '0', '0', '0', '0', '0', '0',
        '0', '0', '1', '0', '0', '0', '0', '0', '0', '0', '0', '0'] ∧
      ∃ s, to_string ⟨[3808348672, 232830643], true⟩ = some s ∧ valid_decimal s ∧
        (∃ y, of_string s = Except.ok y ∧
          y.eq ⟨[3808348672, 232830643], true⟩ = true) ∧
        ((⟨[3808348672, 232830643], true⟩ : big_integer) = ZERO → s = ['0']) ∧
        (s.head? = some '-' ↔ (⟨[3808348672, 232830643], true⟩ : big_integer).sign_ = true) ∧
        ((⟨[3808348672, 232830643], true⟩ : big_integer) ≠ ZERO →
          (strip_sign s).head? ≠ some '0' ∧
          strip_sign s
            = ((Nat.digits 10 (val (⟨[3808348672, 232830643], true⟩ : big_integer).data_)).map
              (fun d => Char.ofNat (('0').toNat + d))).reverse) :=
  ⟨by decide, by decide, to_string_round_trip ⟨[3808348672, 232830643], true⟩ (by decide)⟩

/-- C9: parsing fails exactly on malformed input. The string constructor throws
`invalid_argument` if and only if the string is empty, is exactly `+` or `-`, or has a
character that is not an ASCII digit after an optional single leading sign; so `+-5`, `12a`
and ` 1` are rejected while `+5` and `007` are accepted. -/
theorem of_string_fails_iff :
    (∀ s : List Char, (∃ msg, of_string s = Except.error msg) ↔
      (s = [] ∨ s = ['+'] ∨ s = ['-'] ∨ ∃ c ∈ strip_sign s, ¬ ('0' ≤ c ∧ c ≤ '9'))) ∧
    of_string ['+', '-', '5'] = Except.error "invalid big_integer value" ∧
    of_string ['1', '2', 'a'] = Except.error "invalid big_integer value" ∧
    of_string [' ', '1'] = Except.error "invalid big_integer value" ∧
    of_string [] = Except.error "non-empty str expected" ∧
    of_string ['-'] = Except.error "big_integer cannot consist only of unary symbol" ∧
    of_string ['+', '5'] = Except.ok ⟨[5], false⟩ ∧
    of_string ['0', '0', '7'] = Except.ok ⟨[7], false⟩ :=
  ⟨of_string_error_iff, by decide, by decide, by decide, by decide, by decide, by decide,
    by decide⟩

/-! ## Shifts -/

/-- C11, evaluated: `operator>>=` subtracts one from every negative result whose truncated
magnitude is not zero and returns zero otherwise. `-7 >> 1` is `-4`, but `-4 >> 1` is `-3`,
`-5 >> 0` is `-6`, `-(2 ^ 32) >> 32` is `-2`, and `-1 >> 1` and `-1 >> 32` are `0`; none of
the last five is the floor of the quotient. On a non-negative operand the result is the
floor. -/
theorem shr_not_floor :
    shr_assign ⟨[7], true⟩ 1 = ⟨[4], true⟩ ∧
    shr_assign ⟨[4], true⟩ 1 = ⟨[3], true⟩ ∧
    toInt (shr_assign ⟨[4], true⟩ 1) ≠ toInt ⟨[4], true⟩ / 2 ^ 1 ∧
    shr_assign ⟨[5], true⟩ 0 = ⟨[6], true⟩ ∧
    shr_assign ⟨[0, 1], true⟩ 32 = ⟨[2], true⟩ ∧
    shr_assign ⟨[1], true⟩ 1 = ⟨[0], false⟩ ∧
    shr_assign ⟨[1], true⟩ 32 = ⟨[0], false⟩ ∧
    (∀ (a : big_integer) (k : Nat), canonical a → a.sign_ = true →
      toInt (shr_assign a k)
        = if val a.data_ / 2 ^ k = 0 then 0 else -((val a.data_ / 2 ^ k : Nat) : Int) - 1) ∧
    (∀ (a : big_integer) (k : Nat), canonical a → a.sign_ = false →
      canonical (shr_assign a k) ∧ toInt (shr_assign a k) = toInt a / 2 ^ k) := by
  refine ⟨by decide, by decide, by decide, by decide, by decide, by decide, by decide, ?_, ?_⟩
  · intro a k ha hs
    exact (shr_assign_spec_neg a k ha.1 hs).2
  · intro a k ha hs
    obtain ⟨h1, h2, h3⟩ := shr_assign_spec_nonneg a k ha.1 hs
    refine ⟨h1, ?_⟩
    rw [toInt_pos _ h2, toInt_pos a hs, h3]
    push_cast
    rfl

/-- C12: left shift is multiplication by a power of two. For canonical `a` and a bit count
`k`, `a << k` is canonical, denotes the integer of `a` times `2 ^ k`, keeps the sign flag of
`a` (so zero stays the canonical zero), and compares equal under `operator==` to the product
`a * (1 << k)`. -/
theorem shl_exact (a : big_integer) (k : Nat) (ha : canonical a) :
    canonical (shl_assign a k) ∧ toInt (shl_assign a k) = toInt a * 2 ^ k ∧
      (shl_assign a k).sign_ = a.sign_ ∧ (a = ZERO → shl_assign a k = ZERO) ∧
      ∃ p, mul_assign a (shl_assign ONE k) = some p ∧ (shl_assign a k).eq p = true := by
  obtain ⟨h1, h2, h3⟩ := shl_assign_toInt a k ha
  obtain ⟨o1, o2, _⟩ := shl_assign_toInt ONE k ONE_canonical
  obtain ⟨p, m1, m2, _, _, m5⟩ := mul_assign_spec a (shl_assign ONE k) ha.1 o1.1
  refine ⟨h1, h2, h3, ?_, p, m1, ?_⟩
  · intro h0
    apply (toInt_eq_zero _ h1).mp
    rw [h2, h0, toInt_ZERO]
    simp
  · rw [eq_spec _ p h1 m2, decide_eq_true_iff, h2, m5, o2, toInt_ONE]
    ring

/-- Witness for C12 at `-7 << 65`. -/
theorem shl_exact_witness :
    canonical ⟨[7], true⟩ ∧ shl_assign ⟨[7], true⟩ 65 = ⟨[0, 0, 14], true⟩ ∧
      shl_assign ⟨[7], false⟩ 2 = ⟨[28], false⟩ ∧
      canonical (shl_assign ⟨[7], true⟩ 65) ∧
      toInt (shl_assign ⟨[7], true⟩ 65) = toInt ⟨[7], true⟩ * 2 ^ 65 ∧
      (shl_assign ⟨[7], true⟩ 65).sign_ = (⟨[7], true⟩ : big_integer).sign_ ∧
      ((⟨[7], true⟩ : big_integer) = ZERO → shl_assign ⟨[7], true⟩ 65 = ZERO) ∧
      ∃ p, mul_assign ⟨[7], true⟩ (shl_assign ONE 65) = some p ∧
        (shl_assign ⟨[7], true⟩ 65).eq p = true :=
  ⟨by decide, by decide, by decide, shl_exact ⟨[7], true⟩ 65 (by decide)⟩

/-! ## Bitwise operators -/

/-- C13, evaluated: `operator&=` fills the missing high limbs of the shorter operand with
`UINT32_MAX` whatever its sign and does not normalise the result. `(2 ^ 32 + 1) & 1` comes
out as `2 ^ 32 + 1`, not as the bitwise AND `1`; `(2 ^ 32 + 1) & (2 ^ 33 + 1)` is left as the
limbs `[1, 0]`, which is not canonical; `255 & 15` is `15`. -/
theorem and_wrong_fill :
    and_assign ⟨[1, 1], false⟩ ⟨[1], false⟩ = ⟨[1, 1], false⟩ ∧
    toInt (and_assign ⟨[1, 1], false⟩ ⟨[1], false⟩)
      ≠ Int.land (toInt ⟨[1, 1], false⟩) (toInt ⟨[1], false⟩) ∧
    canonical ⟨[1, 1], false⟩ ∧ canonical ⟨[1], false⟩ ∧ canonical ⟨[1, 2], false⟩ ∧
    and_assign ⟨[1, 1], false⟩ ⟨[1, 2], false⟩ = ⟨[1, 0], false⟩ ∧
    ¬ canonical (and_assign ⟨[1, 1], false⟩ ⟨[1, 2], false⟩) ∧
    and_assign ⟨[255], false⟩ ⟨[15], false⟩ = ⟨[15], false⟩ := by
  decide

/-- C14, evaluated: `operator|=` fills the missing high limbs of the shorter operand with `0`
whatever its sign. `-1 | 2 ^ 32` comes out as `-(0xFFFFFFFE * 2 ^ 32 + 1)`, not as `-1`. The
identity `a | 0 == a` does hold for every canonical `a`. -/
theorem or_wrong_fill :
    canonical ⟨[1], true⟩ ∧ canonical ⟨[0, 1], false⟩ ∧
    or_assign ⟨[1], true⟩ ⟨[0, 1], false⟩ = ⟨[1, 4294967294], true⟩ ∧
    toInt (or_assign ⟨[1], true⟩ ⟨[0, 1], false⟩) ≠ -1 ∧
    (∀ a : big_integer, canonical a → or_assign a ZERO = a) := by
  refine ⟨by decide, by decide, by decide, by decide, ?_⟩
  intro a ha
  exact or_assign_zero a ha

/-- C15, evaluated: `operator~` adds one to the magnitude and sets the sign, so it returns
`-(|a| + 1)`. That is `-(a + 1)` for `a ≥ 0`, but `~(-1)` is `-2`, not `0`, and `~(-5)` is
`-6`, not `4`. -/
theorem complement_negative_wrong :
    canonical ⟨[1], true⟩ ∧ complement ⟨[1], true⟩ = ⟨[2], true⟩ ∧
    toInt (complement ⟨[1], true⟩) ≠ -(toInt ⟨[1], true⟩ + 1) ∧
    complement ⟨[5], true⟩ = ⟨[6], true⟩ ∧
    toInt (complement ⟨[5], true⟩) ≠ -(toInt ⟨[5], true⟩ + 1) ∧
    (∀ a : big_integer, canonical a →
      canonical (complement a) ∧ toInt (complement a) = -((val a.data_ : Int) + 1)) ∧
    (∀ a : big_integer, canonical a → a.sign_ = false →
      toInt (complement a) = -(toInt a + 1)) := by
  refine ⟨by decide, by decide, by decide, by decide, by decide, ?_, ?_⟩
  · intro a ha
    exact complement_spec a ha
  · intro a ha hs
    rw [(complement_spec a ha).2, toInt_pos a hs]

/-- C16, evaluated: `operator^=` leaves one zero limb for every limb of the operand and does
not normalise. `2 ^ 32 ^ 2 ^ 32` is the limbs `[0, 0]`, which `operator==` does not find equal
to `big_integer(0)`; the same holds for `-(2 ^ 64)`. For the single-limb `-1` the result is
the canonical zero. -/
theorem xor_self_not_normalised :
    canonical ⟨[0, 1], false⟩ ∧
    xor_assign ⟨[0, 1], false⟩ ⟨[0, 1], false⟩ = ⟨[0, 0], false⟩ ∧
    (xor_assign ⟨[0, 1], false⟩ ⟨[0, 1], false⟩).eq ZERO = false ∧
    ¬ canonical (xor_assign ⟨[0, 1], false⟩ ⟨[0, 1], false⟩) ∧
    xor_assign ⟨[0, 0, 1], true⟩ ⟨[0, 0, 1], true⟩ = ⟨[0, 0], false⟩ ∧
    (xor_assign ⟨[0, 0, 1], true⟩ ⟨[0, 0, 1], true⟩).eq ZERO = false ∧
    xor_assign ⟨[1], true⟩ ⟨[1], true⟩ = ⟨[0], false⟩ := by
  decide

/-- C17: AND idempotence through the two's-complement round trip. For every canonical `a`,
`to_sign_bit` after `to_twos_complement` gives back `a`, and `a & a` is `a` itself, hence
`a & a == a` under `operator==`. -/
theorem and_idempotent (a : big_integer) (ha : canonical a) :
    to_sign_bit (to_twos_complement a) = a ∧ and_assign a a = a ∧
      (and_assign a a).eq a = true := by
  have h := and_assign_self a ha
  refine ⟨twos_complement_round_trip a ha, h, ?_⟩
  rw [h, eq_spec a a ha ha]
  simp

/-- Witness for C17 at `-(2 ^ 32)`, where the decrement shortens the limb list to one limb. -/
theorem and_idempotent_witness :
    canonical ⟨[0, 1], true⟩ ∧
      to_twos_complement ⟨[0, 1], true⟩ = ⟨[0], true⟩ ∧
      to_sign_bit (to_twos_complement ⟨[0, 1], true⟩) = ⟨[0, 1], true⟩ ∧
      and_assign ⟨[0, 1], true⟩ ⟨[0, 1], true⟩ = ⟨[0, 1], true⟩ ∧
      (and_assign ⟨[0, 1], true⟩ ⟨[0, 1], true⟩).eq ⟨[0, 1], true⟩ = true :=
  ⟨by decide, by decide, and_idempotent ⟨[0, 1], true⟩ (by decide)⟩

/-! ## The 64-bit constructor -/

/-- C18: construction from a signed 64-bit integer is exact. For every `v` with
`-2 ^ 63 ≤ v < 2 ^ 63`, `big_integer(v)` is canonical, denotes `v`, has its sign flag set
exactly when `v < 0`, and has one limb when `|v| < 2 ^ 32` and two limbs otherwise. -/
theorem of_ll_exact (v : Int) (h1 : -(2 : Int) ^ 63 ≤ v) (h2 : v < (2 : Int) ^ 63) :
    canonical (of_ll v) ∧ toInt (of_ll v) = v ∧ ((of_ll v).sign_ = true ↔ v < 0) ∧
      (of_ll v).data_.length = if |v| < (2 : Int) ^ 32 then 1 else 2 := by
  obtain ⟨k1, k2, k3, k4⟩ := of_ll_spec v h1 h2
  refine ⟨k1, k2, ?_, k4⟩
  rw [k3, decide_eq_true_iff]

/-- Witness for C18 at the most negative value `-2 ^ 63`. -/
theorem of_ll_exact_witness :
    -(2 : Int) ^ 63 ≤ -9223372036854775808 ∧ (-9223372036854775808 : Int) < (2 : Int) ^ 63 ∧
      of_ll (-9223372036854775808) = ⟨[0, 2147483648], true⟩ ∧
      of_ll 0 = ⟨[0], false⟩ ∧
      canonical (of_ll (-9223372036854775808)) ∧
      toInt (of_ll (-9223372036854775808)) = -9223372036854775808 ∧
      ((of_ll (-9223372036854775808)).sign_ = true ↔ (-9223372036854775808 : Int) < 0) ∧
      (of_ll (-9223372036854775808)).data_.length
        = if |(-9223372036854775808 : Int)| < (2 : Int) ^ 32 then 1 else 2 :=
  ⟨by decide, by decide, by decide, by decide,
    of_ll_exact (-9223372036854775808) (by decide) (by decide)⟩

/-! ## Bounds inside division and multiplication -/

/-- C19: the normalisation bound of long division. For a canonical divisor `b` with at least
two limbs and leading limb `d`: `1 ≤ d ≤ 2 ^ 32 - 1`; the factor `f = 2 ^ 32 / (d + 1)`
satisfies `1 ≤ f ≤ 2 ^ 31`, so the cast to 32 bits leaves it unchanged; and `b` scaled by `f`
with the single-limb `multiply` has as many limbs as `b` and a leading limb of at least
`2 ^ 31`. -/
theorem normalization_bound (b : big_integer) (hb : canonical b) (h2 : 2 ≤ b.data_.length) :
    1 ≤ b.data_.getLastD 0 ∧ b.data_.getLastD 0 ≤ 2 ^ 32 - 1 ∧
      1 ≤ 2 ^ 32 / (b.data_.getLastD 0 + 1) ∧ 2 ^ 32 / (b.data_.getLastD 0 + 1) ≤ 2 ^ 31 ∧
      (2 ^ 32 / (b.data_.getLastD 0 + 1)) % 2 ^ 32 = 2 ^ 32 / (b.data_.getLastD 0 + 1) ∧
      (multiply b (2 ^ 32 / (b.data_.getLastD 0 + 1))).data_.length = b.data_.length ∧
      2 ^ 31 ≤ (multiply b (2 ^ 32 / (b.data_.getLastD 0 + 1))).data_.getLastD 0 :=
  scaled_divisor_spec b hb h2

/-- Witness for C19 at the divisor `2 * 2 ^ 32 + 4294967295`, whose leading limb `2` gives the
factor `1431655765`. -/
theorem normalization_bound_witness :
    canonical ⟨[4294967295, 2], false⟩ ∧
      2 ≤ (⟨[4294967295, 2], false⟩ : big_integer).data_.length ∧
      multiply ⟨[4294967295, 2], false⟩ 1431655765 = ⟨[2863311531, 4294967294], false⟩ ∧
      (1 ≤ (⟨[4294967295, 2], false⟩ : big_integer).data_.getLastD 0 ∧
        (⟨[4294967295, 2], false⟩ : big_integer).data_.getLastD 0 ≤ 2 ^ 32 - 1 ∧
        1 ≤ 2 ^ 32 / ((⟨[4294967295, 2], false⟩ : big_integer).data_.getLastD 0 + 1) ∧
        2 ^ 32 / ((⟨[4294967295, 2], false⟩ : big_integer).data_.getLastD 0 + 1) ≤ 2 ^ 31 ∧
        (2 ^ 32 / ((⟨[4294967295, 2], false⟩ : big_integer).data_.getLastD 0 + 1)) % 2 ^ 32
          = 2 ^ 32 / ((⟨[4294967295, 2], false⟩ : big_integer).data_.getLastD 0 + 1) ∧
        (multiply ⟨[4294967295, 2], false⟩
          (2 ^ 32 / ((⟨[4294967295, 2], false⟩ : big_integer).data_.getLastD 0 + 1))).data_.length
          = (⟨[4294967295, 2], false⟩ : big_integer).data_.length ∧
        2 ^ 31 ≤ (multiply ⟨[4294967295, 2], false⟩
          (2 ^ 32 / ((⟨[4294967295, 2], false⟩ : big_integer).data_.getLastD 0 + 1))).data_.getLastD 0) :=
  ⟨by decide, by decide, by decide,
    normalization_bound ⟨[4294967295, 2], false⟩ (by decide) (by decide)⟩

/-- C20: the schoolbook multiply never writes outside its buffer. For canonical `a` with `n`
limbs and `b` with `m` limbs and every row `i < n` of `operator*=`: the rows before `i` leave
a buffer `res` of `n + m` limbs (none of them wrote out of range), and on it the inner loop
for row `i` returns within `m + 1` iterations. In the model a write at an index `i + j` past
the end of the buffer is `none`, and a loop still running after the given `m + 1` iterations
is `none`; so every written index is below `n + m`, and the loop condition
`j < m || c > 0` is false at `j = m + 1` at the latest: the carry is zero after the step at
`j = m`. -/
theorem mul_writes_in_range (a b : big_integer) (ha : canonical a) (hb : canonical b)
    (i : Nat) (hi : i < a.data_.length) :
    ∃ res r,
      mul_outer a.data_ b.data_ i 0 (List.replicate (a.data_.length + b.data_.length) 0)
        = some res ∧
      res.length = a.data_.length + b.data_.length ∧
      mul_inner (a.data_.getD i 0) b.data_ i (b.data_.length + 1) 0 0 res = some r ∧
      r.length = a.data_.length + b.data_.length :=
  mul_row_spec a.data_ b.data_ ha.1.2.1 hb.1.2.1 i hi

/-- Witness for C20 at the last row of `(2 ^ 64 - 1) * (2 ^ 64 - 1)`, where the inner loop
runs the extra step at `j = m` to store a carry. -/
theorem mul_writes_in_range_witness :
    canonical ⟨[4294967295, 4294967295], false⟩ ∧
      1 < (⟨[4294967295, 4294967295], false⟩ : big_integer).data_.length ∧
      mul_inner 4294967295 [4294967295, 4294967295] 1 3 0 0 [1, 4294967295, 4294967294, 0]
        = some [1, 0, 4294967294, 4294967295] ∧
      mul_inner 4294967295 [4294967295, 4294967295] 1 2 0 0 [1, 4294967295, 4294967294, 0]
        = none ∧
      ∃ res r,
        mul_outer (⟨[4294967295, 4294967295], false⟩ : big_integer).data_
          (⟨[4294967295, 4294967295], false⟩ : big_integer).data_ 1 0
          (List.replicate ((⟨[4294967295, 4294967295], false⟩ : big_integer).data_.length
            + (⟨[4294967295, 4294967295], false⟩ : big_integer).data_.length) 0) = some res ∧
        res.length = (⟨[4294967295, 4294967295], false⟩ : big_integer).data_.length
          + (⟨[4294967295, 4294967295], false⟩ : big_integer).data_.length ∧
        mul_inner ((⟨[4294967295, 4294967295], false⟩ : big_integer).data_.getD 1 0)
          (⟨[4294967295, 4294967295], false⟩ : big_integer).data_ 1
          ((⟨[4294967295, 4294967295], false⟩ : big_integer).data_.length + 1) 0 0 res = some r ∧
        r.length = (⟨[4294967295, 4294967295], false⟩ : big_integer).data_.length
          + (⟨[4294967295, 4294967295], false⟩ : big_integer).data_.length :=
  ⟨by decide, by decide, by decide, by decide,
    mul_writes_in_range ⟨[4294967295, 4294967295], false⟩ ⟨[4294967295, 4294967295], false⟩
      (by decide) (by decide) 1 (by decide)⟩
